import Mathlib

/-!
# bake: the oven driver, the fridge, the kitchen and the spawn helper

A shallow embedding of the text preprocessor, the checkpointed step functions
and the install copy (`libs/oven/oven.c`), the unpack routine of the fridge
(`libs/fridge/fridge.c`), the scratch setup of the kitchen
(`libs/containerv/linux/kitchen.c`) and the argument parser of the spawn helper
(`libs/platform/osutils/linux/spawn.c`), with the properties the specification
states about them.

C strings are lists of characters (without the terminator).  A pointer into a
string is a `Cursor`: the characters before it and the characters from it to
the terminator.  Loops that the C code may spin in forever are given a fuel
argument; `none` means the fuel ran out.  Executions that leave defined C
behaviour (a store past the end of the expansion buffer, a read outside a
string) end in an explicit `undefined` result.  Functions that are not among
the sources are collaborators, given by what they return, and the calls made
to them are recorded in a log.
-/

namespace Bake

/-- A C string: its characters up to, not including, the terminator. -/
abbrev CStr := List Char

/-- The result of a C computation that may leave defined behaviour. -/
inductive Res (α : Type) where
  | ok (a : α)
  | undefined
  deriving DecidableEq, Repr

/-- The values of `errno` that the oven sets. -/
inductive Errno where
  | EINVAL | ENOENT | ENOMEM | ENOSPC | ENOSYS
  deriving DecidableEq, Repr

/-- Number of values of `size_t` (64-bit Linux). -/
def SIZE_MODULUS : Nat := 18446744073709551616

/-- Largest value of `int`, the type of the buffer index. -/
def INT_MAX : Nat := 2147483647

/-! ## The oven context (`struct oven_context`) -/

/-- The fields of `struct scratch` that the oven reads. -/
structure scratch where
  host_checkpoint_path : Option CStr
  project_root : Option CStr
  build_root : Option CStr
  install_root : Option CStr
  confined : Bool
  deriving DecidableEq, Repr

/-- An entry of the ingredient list of a recipe, `struct oven_ingredient`: its
name and the path of its archive. -/
structure oven_ingredient where
  name : CStr
  file_path : CStr
  deriving DecidableEq, Repr

/-- An entry of the import list of a recipe, `struct oven_package_import`. -/
structure oven_package_import where
  name : CStr
  deriving DecidableEq, Repr

/-- The active recipe, `struct oven_recipe_context`; a list pointer that may be
`NULL` is an optional list. -/
structure oven_recipe_context where
  name : Option CStr
  relative_path : Option CStr
  toolchain : Option CStr
  ingredients : Option (List oven_ingredient)
  scratch : scratch
  deriving DecidableEq, Repr

/-- The record `struct oven_variables`. -/
structure oven_variables where
  target_platform : Option CStr
  target_arch : Option CStr
  cwd : Option CStr
  deriving DecidableEq, Repr

/-- The process-wide record `g_oven`; `vars` is the C field `variables`. -/
structure oven_context where
  install_root : Option CStr
  vars : oven_variables
  recipe : oven_recipe_context
  deriving DecidableEq, Repr

/-- What the program takes from outside the sources: the compiled-in host
constants of `chef/platform.h` and the process environment behind `getenv`. -/
structure Host where
  CHEF_PLATFORM_STR : CStr
  CHEF_ARCHITECTURE_STR : CStr
  getenv : CStr → Option CStr

/-! ## Variable expansion -/

/-- The function `__get_variable`: the value of an internal variable, `none`
for the C `NULL`. -/
def __get_variable (h : Host) (g : oven_context) (name : CStr) : Option CStr :=
  if name = "CHEF_TARGET_PLATFORM".toList then g.vars.target_platform
  else if name = "CHEF_TARGET_ARCHITECTURE".toList then g.vars.target_arch
  else if name = "CHEF_HOST_PLATFORM".toList then some h.CHEF_PLATFORM_STR
  else if name = "CHEF_HOST_ARCHITECTURE".toList then some h.CHEF_ARCHITECTURE_STR
  else if name = "TOOLCHAIN_PREFIX".toList then g.recipe.toolchain
  else if name = "PROJECT_PATH".toList then
    if !g.recipe.scratch.confined then g.vars.cwd else g.recipe.scratch.project_root
  else if name = "INSTALL_PREFIX".toList then
    if !g.recipe.scratch.confined then g.install_root else g.recipe.scratch.install_root
  else none

/-- A pointer into a C string. -/
structure Cursor where
  /-- The characters before the pointer, the nearest one first. -/
  before : CStr
  /-- The characters from the pointer up to the terminator. -/
  rest : CStr
  deriving DecidableEq, Repr

/-- Pointer addition `p + k`, for `k` at most the distance to the terminator. -/
def Cursor.advance (p : Cursor) (k : Nat) : Cursor :=
  ⟨(p.rest.take k).reverse ++ p.before, p.rest.drop k⟩

/-- The library function `strchr`: offset of the first occurrence of `c`. -/
def strchr : CStr → Char → Option Nat
  | [], _ => none
  | x :: xs, c => if x = c then some 0 else (strchr xs c).map (· + 1)

/-- Number of spaces at the head of a string (`while (*p == ' ') p++`). -/
def leadingSpaces (s : CStr) : Nat := (s.takeWhile (· = ' ')).length

/-- What one call of `__expand_variable` or `__expand_environment_variable`
leaves behind: the return value, `errno`, and the in/out arguments. -/
structure Expand where
  status : Int
  errno : Option Errno
  cursor : Cursor
  buffer : CStr
  maxLength : Nat
  deriving DecidableEq, Repr

/-- The name between the brackets of a sigil, as both expansion functions
compute it.  `skip` is the length of the opening (`start += skip`), `e` the
offset of the closing bracket found by `strchr`.

* `start` moves over `skip` characters and then over spaces; with fewer than
  `skip` characters left it would be read beyond the terminator.
* `end` moves back from the bracket over spaces, possibly into the characters
  before the pointer; with nothing but spaces down to the first character of
  the string it would be read before the string.
* `strndup (start, end - start)` copies `end - start` characters; when `end` is
  before `start` the count wraps to a huge `size_t` and the copy runs from
  `start` to the terminator.  An `end` at or before the pointer is below
  `start` in any case, so the truncated subtraction loses nothing. -/
def sigilName (p : Cursor) (skip e : Nat) : Res CStr :=
  if p.rest.length < skip then .undefined
  else
    let start := skip + leadingSpaces (p.rest.drop skip)
    let back := leadingSpaces ((p.rest.take e).reverse ++ p.before)
    if back = e + p.before.length then .undefined
    else
      let stop := e - back
      if start ≤ stop then .ok ((p.rest.drop start).take (stop - start))
      else .ok (p.rest.drop start)

/-- The copy `memcpy (&buffer[index], value, valueLength); index += valueLength`
into a buffer of `cap` bytes. -/
def storeValue (buffer : CStr) (cap : Nat) (value : CStr) : Res CStr :=
  if buffer.length + value.length ≤ cap ∧ buffer.length + value.length ≤ INT_MAX then
    .ok (buffer ++ value)
  else .undefined

/-- The function `__expand_variable`, called with `*at = p`. -/
def __expand_variable (h : Host) (g : oven_context) (p : Cursor) (buffer : CStr)
    (cap maxLength : Nat) : Res Expand :=
  match strchr p.rest ']' with
  | some e =>
    if p.rest.getD (e + 1) (Char.ofNat 0) = ']' then
      let p' := p.advance (e + 2)
      match sigilName p 3 e with
      | .undefined => .undefined
      | .ok name =>
        match __get_variable h g name with
        | some value =>
          if value.length > maxLength then
            .ok ⟨-1, some .ENOSPC, p', buffer, value.length⟩
          else
            match storeValue buffer cap value with
            | .undefined => .undefined
            | .ok buffer' => .ok ⟨0, none, p', buffer', maxLength⟩
        | none => .ok ⟨-1, some .ENOENT, p', buffer, maxLength⟩
    else .ok ⟨-1, some .EINVAL, p, buffer, maxLength⟩
  | none => .ok ⟨-1, some .EINVAL, p, buffer, maxLength⟩

/-- The function `__expand_environment_variable`, called with `*at = p`.  The
closing character it looks for is the brace. -/
def __expand_environment_variable (h : Host) (p : Cursor) (buffer : CStr)
    (cap maxLength : Nat) : Res Expand :=
  match strchr p.rest (Char.ofNat 125) with
  | some e =>
    let p' := p.advance (e + 1)
    match sigilName p 2 e with
    | .undefined => .undefined
    | .ok name =>
      match h.getenv name with
      | some value =>
        if value.length > maxLength then
          .ok ⟨-1, some .ENOSPC, p', buffer, value.length⟩
        else
          match storeValue buffer cap value with
          | .undefined => .undefined
          | .ok buffer' => .ok ⟨0, none, p', buffer', maxLength⟩
      | none => .ok ⟨-1, some .EINVAL, p', buffer, maxLength⟩
  | none => .ok ⟨-1, some .ENOMEM, p, buffer, maxLength⟩

/-- The function `__resize_buffer`: a zeroed buffer of `length` bytes that
receives the old contents by `strcat`.  The old buffer must hold a terminator
and the new one must have room for the contents and theirs. -/
def __resize_buffer (buffer : CStr) (cap length : Nat) : Res Nat :=
  if buffer.length < cap ∧ buffer.length < length then .ok length else .undefined

/-- The state of the loop of `oven_preprocess_text`: the read pointer `itr`,
the bytes stored so far (`index` is their number) and the size of the
allocation behind `buffer`.  The variable `bufferSize` is never assigned after
its initialisation and is the constant 4096 below. -/
structure Scan where
  itr : Cursor
  buffer : CStr
  cap : Nat
  deriving DecidableEq, Repr

/-- The retry loop `do { ... } while (status != 0)` around an expansion
function `f`: on `ENOSPC` the buffer is replaced by one of
`bufferSize + spaceLeft + 1024` bytes and the call repeated, any other error
leaves the loop.  The sum is taken without wrap-around: `spaceLeft` is then the
length of a string held in memory. -/
def expandLoop (f : Cursor → CStr → Nat → Nat → Res Expand) :
    Nat → Scan → Nat → Option (Res Scan)
  | 0, _, _ => none
  | fuel + 1, s, spaceLeft =>
    match f s.itr s.buffer s.cap spaceLeft with
    | .undefined => some .undefined
    | .ok r =>
      if r.status = 0 then some (.ok ⟨r.cursor, r.buffer, s.cap⟩)
      else if r.errno = some .ENOSPC then
        match __resize_buffer r.buffer s.cap (4096 + r.maxLength + 1024) with
        | .undefined => some .undefined
        | .ok cap' => expandLoop f fuel ⟨r.cursor, r.buffer, cap'⟩ r.maxLength
      else some (.ok ⟨r.cursor, r.buffer, s.cap⟩)

/-- The subtraction `bufferSize - index` in `size_t`. -/
def spaceLeft (index : Nat) : Nat :=
  ((4096 - (index : Int)) % (SIZE_MODULUS : Int)).toNat

/-- What `oven_preprocess_text` returns. -/
inductive Outcome where
  /-- The expanded text (`strdup (buffer)`). -/
  | text (s : CStr)
  /-- The C `NULL`. -/
  | null
  /-- The execution left defined behaviour. -/
  | undefined
  deriving DecidableEq, Repr

/-- The body of the loop `while (*itr)` of `oven_preprocess_text`, entered with
`*itr = c`: an internal variable, an environment variable, or a character that
is copied. -/
def scanBody (h : Host) (g : oven_context) (fuel : Nat) (s : Scan) (c : Char) :
    Option (Res Scan) :=
  if s.itr.rest.take 3 = ['$', '[', '['] then
    expandLoop (__expand_variable h g) fuel s (spaceLeft s.buffer.length)
  else if s.itr.rest.take 2 = ['$', '['] then
    expandLoop (__expand_environment_variable h) fuel s (spaceLeft s.buffer.length)
  else if s.buffer.length < s.cap ∧ s.buffer.length < INT_MAX then
    some (.ok ⟨s.itr.advance 1, s.buffer ++ [c], s.cap⟩)
  else some .undefined

/-- The loop `while (*itr)` of `oven_preprocess_text`, ending in the final
state of the buffer. -/
def scan (h : Host) (g : oven_context) : Nat → Scan → Option (Res Scan)
  | 0, _ => none
  | fuel + 1, s =>
    match s.itr.rest with
    | [] => some (.ok s)
    | c :: _ =>
      match scanBody h g fuel s c with
      | none => none
      | some .undefined => some .undefined
      | some (.ok s') => scan h g fuel s'

/-- The state in which the loop of `oven_preprocess_text` starts: leading
spaces skipped, an empty buffer of 4096 bytes. -/
def scanStart (original : CStr) : Scan :=
  ⟨Cursor.advance ⟨[], original⟩ (leadingSpaces original), [], 4096⟩

/-- The final `strdup (buffer)`: the stored bytes, which must be followed by a
terminator inside the allocation. -/
def finish : Res Scan → Outcome
  | .undefined => .undefined
  | .ok s => if s.buffer.length < s.cap then .text s.buffer else .undefined

/-- The function `oven_preprocess_text`; `none` when the fuel ran out. -/
def oven_preprocess_text (h : Host) (g : oven_context) (fuel : Nat) :
    Option CStr → Option Outcome
  | none => some .null
  | some original => (scan h g fuel (scanStart original)).map finish

/-- The text `oven_preprocess_text` assembles when it reaches the end of the
input without ever replacing its initial buffer of 4096 bytes. -/
def expandedInPlace (h : Host) (g : oven_context) (fuel : Nat) (original : CStr) :
    Option CStr :=
  match scan h g fuel (scanStart original) with
  | some (.ok s) => if s.cap = 4096 ∧ s.buffer.length < 4096 then some s.buffer else none
  | _ => none

/-! ## Backend data -/

/-- Modelled from the spec: `strpathcombine` is a path helper of the platform
library, which is not among the sources; it joins two path segments with the
path separator. -/
def strpathcombine (path1 path2 : CStr) : CStr := path1 ++ '/' :: path2

/-- The record `struct oven_backend_data` handed to a backend (without the
ingredient list and the raw process environment, which are passed through). -/
structure oven_backend_data where
  project_name : Option CStr
  profile_name : CStr
  environment : List (CStr × CStr)
  arguments : CStr
  root : CStr
  project : CStr
  install : Option CStr
  build : Option CStr
  host_platform : CStr
  host_architecture : CStr
  target_platform : Option CStr
  target_architecture : Option CStr
  deriving DecidableEq, Repr, Inhabited

/-- The function `__build_argument_string`, from the list item reached:
`written` are the characters stored so far in the 4096 bytes of
`argumentString` (up to `argumentItr`), `totalLength` the running total of the
guard.  `strcpy` stores the value and its terminator. -/
def __build_argument_string (h : Host) (g : oven_context) (fuel : Nat) :
    List CStr → CStr → Nat → Option (Res CStr)
  | [], written, _ => some (.ok written)
  | value :: next, written, totalLength =>
    match oven_preprocess_text h g fuel (some value) with
    | none => none
    | some .undefined => some .undefined
    | some .null => some .undefined
    | some (.text valueString) =>
      if 0 < valueString.length ∧ totalLength + valueString.length + 2 < 4096 then
        if written.length + valueString.length + 1 ≤ 4096 then
          if next ≠ [] then
            __build_argument_string h g fuel next (written ++ valueString ++ [' '])
              (totalLength + valueString.length)
          else
            __build_argument_string h g fuel next (written ++ valueString)
              (totalLength + valueString.length)
        else some .undefined
      else __build_argument_string h g fuel next written totalLength

/-- The function `__preprocess_keypair_list`: every value goes through
`oven_preprocess_text`, the keys are copied. -/
def __preprocess_keypair_list (h : Host) (g : oven_context) (fuel : Nat) :
    List (CStr × CStr) → Option (Res (List (CStr × CStr)))
  | [] => some (.ok [])
  | (key, value) :: next =>
    match oven_preprocess_text h g fuel (some value) with
    | none => none
    | some .undefined => some .undefined
    | some .null => some .undefined
    | some (.text value') =>
      match __preprocess_keypair_list h g fuel next with
      | none => none
      | some .undefined => some .undefined
      | some (.ok processed) => some (.ok ((key, value') :: processed))

/-! ## Steps and checkpoints -/

/-- Calls that leave the oven, in the order they are made. -/
inductive Event where
  | scratch_enter
  | scratch_leave
  | generate (system : CStr) (data : oven_backend_data)
  | build (system : CStr) (data : oven_backend_data)
  | platform_script (script : CStr)
  | oven_checkpoint_create (name : CStr)
  deriving DecidableEq, Repr

/-- The collaborators of the step functions that are not among the sources,
each given by what it returns. -/
structure Collaborators where
  /-- The working directory, `none` when `platform_getcwd` fails. -/
  platform_getcwd : Option CStr
  scratch_enter : Int
  scratch_leave : Int
  /-- The generate backend of the given system. -/
  generate : CStr → oven_backend_data → Int
  /-- The build backend of the given system. -/
  build : CStr → oven_backend_data → Int
  platform_script : CStr → Int
  /-- Status of the write behind `oven_checkpoint_create`. -/
  checkpoint_write : Int

/-- The part of the world a step acts on: the lines of the checkpoint file of
the active recipe (no file: no lines) and the calls made so far.  The file is
taken to be the same one wherever `host_checkpoint_path` is resolved from. -/
structure OvenState where
  checkpoint : List CStr
  log : List Event
  deriving DecidableEq, Repr

/-- Modelled from the spec: `oven_checkpoint_contains` is not among the
sources; it reads the checkpoint file line by line and answers whether the
name is one of the lines. -/
def oven_checkpoint_contains (w : OvenState) (name : CStr) : Bool :=
  decide (name ∈ w.checkpoint)

/-- Modelled from the spec: `oven_checkpoint_create` is not among the sources;
it appends the name and a newline to the checkpoint file.  When the write fails
the file keeps its lines and the status is passed on. -/
def oven_checkpoint_create (c : Collaborators) (w : OvenState) (name : CStr) :
    Int × OvenState :=
  let w' : OvenState := ⟨w.checkpoint, w.log ++ [.oven_checkpoint_create name]⟩
  if c.checkpoint_write = 0 then (0, ⟨w'.checkpoint ++ [name], w'.log⟩)
  else (c.checkpoint_write, w')

/-- What a step function returns and leaves behind. -/
structure StepResult where
  status : Int
  /-- The value the function itself stored in `errno`, if it did. -/
  errno : Option Errno
  state : OvenState
  deriving DecidableEq, Repr

/-- The table `g_genbackends`, by name. -/
def g_genbackends : List CStr := ["configure".toList, "cmake".toList, "meson".toList]

/-- The table `g_buildbackends`, by name. -/
def g_buildbackends : List CStr := ["make".toList, "meson".toList]

/-- The function `__get_generate_backend`. -/
def __get_generate_backend (name : CStr) : Option CStr :=
  g_genbackends.find? (· = name)

/-- The function `__get_build_backend`. -/
def __get_build_backend (name : CStr) : Option CStr :=
  g_buildbackends.find? (· = name)

/-- The function `__initialize_backend_data`: its status and the record it
fills (the zeroed record of the `memset` when it fails before filling it). -/
def __initialize_backend_data (h : Host) (g : oven_context) (c : Collaborators) (fuel : Nat)
    (profile : Option CStr) (arguments : List CStr) (environment : List (CStr × CStr)) :
    Option (Res (Int × oven_backend_data)) :=
  match c.platform_getcwd with
  | none => some (.ok (-1, default))
  | some root =>
    match __preprocess_keypair_list h g fuel environment with
    | none => none
    | some .undefined => some .undefined
    | some (.ok environment') =>
      match __build_argument_string h g fuel arguments [] 0 with
      | none => none
      | some .undefined => some .undefined
      | some (.ok arguments') =>
        some (.ok (0,
          { project_name := g.recipe.name
            profile_name := profile.getD "Release".toList
            environment := environment'
            arguments := arguments'
            root := root
            project := strpathcombine root (g.recipe.relative_path.getD [])
            install := g.recipe.scratch.install_root
            build := g.recipe.scratch.build_root
            host_platform := h.CHEF_PLATFORM_STR
            host_architecture := h.CHEF_ARCHITECTURE_STR
            target_platform := g.vars.target_platform
            target_architecture := g.vars.target_arch }))

/-- The options `struct oven_generate_options` (the backend-specific union is
passed through). -/
structure oven_generate_options where
  name : CStr
  profile : Option CStr
  system : CStr
  arguments : List CStr
  environment : List (CStr × CStr)
  deriving DecidableEq, Repr

/-- The options `struct oven_build_options`. -/
structure oven_build_options where
  name : CStr
  profile : Option CStr
  system : CStr
  arguments : List CStr
  environment : List (CStr × CStr)
  deriving DecidableEq, Repr

/-- The options `struct oven_script_options`. -/
structure oven_script_options where
  name : CStr
  script : Option CStr
  deriving DecidableEq, Repr

/-- Appends a call to the log. -/
def OvenState.record (w : OvenState) (e : Event) : OvenState := ⟨w.checkpoint, w.log ++ [e]⟩

/-- The function `oven_configure`. -/
def oven_configure (h : Host) (g : oven_context) (c : Collaborators) (fuel : Nat)
    (options : Option oven_generate_options) (w : OvenState) : Option (Res StepResult) :=
  match options with
  | none => some (.ok ⟨-1, some .EINVAL, w⟩)
  | some o =>
    match __get_generate_backend o.system with
    | none => some (.ok ⟨-1, some .ENOSYS, w⟩)
    | some backend =>
      if oven_checkpoint_contains w o.name then some (.ok ⟨0, none, w⟩)
      else
        match __initialize_backend_data h g c fuel o.profile o.arguments o.environment with
        | none => none
        | some .undefined => some .undefined
        | some (.ok (status, data)) =>
          if status ≠ 0 then some (.ok ⟨status, none, w⟩)
          else
            let w1 := w.record .scratch_enter
            if c.scratch_enter ≠ 0 then some (.ok ⟨c.scratch_enter, none, w1⟩)
            else
              let status := c.generate backend data
              let w2 := w1.record (.generate backend data)
              let w3 := if status = 0 then (oven_checkpoint_create c w2 o.name).2 else w2
              let status := c.scratch_leave
              some (.ok ⟨status, none, w3.record .scratch_leave⟩)

/-- The function `oven_build`. -/
def oven_build (h : Host) (g : oven_context) (c : Collaborators) (fuel : Nat)
    (options : Option oven_build_options) (w : OvenState) : Option (Res StepResult) :=
  match options with
  | none => some (.ok ⟨-1, some .EINVAL, w⟩)
  | some o =>
    match __get_build_backend o.system with
    | none => some (.ok ⟨-1, some .ENOSYS, w⟩)
    | some backend =>
      if oven_checkpoint_contains w o.name then some (.ok ⟨0, none, w⟩)
      else
        match __initialize_backend_data h g c fuel o.profile o.arguments o.environment with
        | none => none
        | some .undefined => some .undefined
        | some (.ok (status, data)) =>
          if status ≠ 0 then some (.ok ⟨status, none, w⟩)
          else
            let w1 := w.record .scratch_enter
            if c.scratch_enter ≠ 0 then some (.ok ⟨c.scratch_enter, none, w1⟩)
            else
              let status := c.build backend data
              let w2 := w1.record (.build backend data)
              let w3 := if status = 0 then (oven_checkpoint_create c w2 o.name).2 else w2
              let status := c.scratch_leave
              some (.ok ⟨status, none, w3.record .scratch_leave⟩)

/-- The function `oven_script`. -/
def oven_script (h : Host) (g : oven_context) (c : Collaborators) (fuel : Nat)
    (options : Option oven_script_options) (w : OvenState) : Option (Res StepResult) :=
  match options with
  | none => some (.ok ⟨-1, some .EINVAL, w⟩)
  | some o =>
    match o.script with
    | none => some (.ok ⟨-1, some .EINVAL, w⟩)
    | some script =>
      if oven_checkpoint_contains w o.name then some (.ok ⟨0, none, w⟩)
      else
        match oven_preprocess_text h g fuel (some script) with
        | none => none
        | some .undefined => some .undefined
        | some .null => some (.ok ⟨-1, none, w⟩)
        | some (.text preprocessedScript) =>
          let w1 := w.record .scratch_enter
          if c.scratch_enter ≠ 0 then some (.ok ⟨c.scratch_enter, none, w1⟩)
          else
            let _status := c.platform_script preprocessedScript
            let w2 := w1.record (.platform_script preprocessedScript)
            let status := c.scratch_leave
            let w3 := w2.record .scratch_leave
            if status ≠ 0 then some (.ok ⟨status, none, w3⟩)
            else
              let r := oven_checkpoint_create c w3 o.name
              some (.ok ⟨r.1, none, r.2⟩)

/-- The status a step function returned, when it returned. -/
def returned : Option (Res StepResult) → Option Int
  | some (.ok r) => some r.status
  | _ => none

/-- The state a step function left behind, when it returned. -/
def stateAfter : Option (Res StepResult) → Option OvenState
  | some (.ok r) => some r.state
  | _ => none

/-! ## A concrete recipe -/

/-- A host without environment variables. -/
def demoHost : Host := ⟨"linux".toList, "amd64".toList, fun _ => none⟩

/-- The scratch record of the confined recipe `demo`, as the scratch setup
fills it. -/
def demoScratch : scratch :=
  { host_checkpoint_path := some ".oven/demo/chef/.checkpoint".toList
    project_root := some "/chef/project".toList
    build_root := some "/chef/build".toList
    install_root := some "/chef/install".toList
    confined := true }

/-- The oven context with the confined recipe `demo` active. -/
def demoOven : oven_context :=
  { install_root := some "/w/.oven/output".toList
    vars := ⟨some "linux".toList, some "amd64".toList, some "/w".toList⟩
    recipe := ⟨some "demo".toList, some "".toList, none, none, demoScratch⟩ }

/-- Collaborators of a run in which every backend and every script exits with
status 1 and everything else succeeds. -/
def failingTools : Collaborators :=
  { platform_getcwd := some "/w".toList
    scratch_enter := 0
    scratch_leave := 0
    generate := fun _ _ => 1
    build := fun _ _ => 1
    platform_script := fun _ => 1
    checkpoint_write := 0 }

/-- A configure step `conf` for cmake, without arguments. -/
def confStep : oven_generate_options := ⟨"conf".toList, none, "cmake".toList, [], []⟩

/-- A build step `build` for make, without arguments. -/
def buildStep : oven_build_options := ⟨"build".toList, none, "make".toList, [], []⟩

/-- A script step `post` running `make`. -/
def postStep : oven_script_options := ⟨"post".toList, some "make".toList⟩

/-- A script step `post` without script text. -/
def emptyStep : oven_script_options := ⟨"post".toList, none⟩

/-! ## The fridge -/

/-- The enumeration `enum chef_package_type`. -/
inductive chef_package_type where
  | CHEF_PACKAGE_TYPE_UNKNOWN
  | CHEF_PACKAGE_TYPE_TOOLCHAIN
  | CHEF_PACKAGE_TYPE_INGREDIENT
  | CHEF_PACKAGE_TYPE_APPLICATION
  deriving DecidableEq, Repr

/-- The lists an ingredient declares for its consumers, `ingredient->options`. -/
structure ingredient_options where
  inc_dirs : List CStr
  lib_dirs : List CStr
  deriving DecidableEq, Repr

/-- What the fridge and the kitchen read of an opened `struct ingredient`: of
its package manifest the type, the names, the platform and the architecture, of
its version the three numbers, and the options for consumers (`none` for
`NULL`). -/
structure ingredient where
  type : chef_package_type
  publisher : CStr := []
  package : CStr := []
  platform : CStr := []
  arch : CStr := []
  major : Int := 0
  minor : Int := 0
  patch : Int := 0
  options : Option ingredient_options := none
  deriving DecidableEq, Repr

/-- Modelled from the spec: `struct fridge_inventory_pack` and its accessors
belong to the inventory, which is not among the sources; a pack records the
identity of a cached archive, its path and whether it has been unpacked. -/
structure fridge_inventory_pack where
  publisher : CStr
  package : CStr
  path : CStr
  unpacked : Bool
  deriving DecidableEq, Repr

/-- Modelled from the spec: `inventory_pack_is_unpacked` is not among the
sources; it answers 1 for a pack marked unpacked and 0 otherwise. -/
def inventory_pack_is_unpacked (pack : fridge_inventory_pack) : Int :=
  if pack.unpacked then 1 else 0

/-- Modelled from the spec: `inventory_pack_set_unpacked` is not among the
sources; it marks the pack unpacked. -/
def inventory_pack_set_unpacked (pack : fridge_inventory_pack) : fridge_inventory_pack :=
  { pack with unpacked := true }

/-- Modelled from the spec: `inventory_pack_name` is not among the sources; it
is the package segment of the name of the pack. -/
def inventory_pack_name (pack : fridge_inventory_pack) : CStr := pack.package

/-- Modelled from the spec: `inventory_pack_path` is not among the sources; it
is the path of the cached archive. -/
def inventory_pack_path (pack : fridge_inventory_pack) : CStr := pack.path

/-- The paths of `g_fridge` that the unpack routine reads. -/
structure fridge_context where
  prep_path : CStr
  utensils_path : CStr
  deriving DecidableEq, Repr

/-- Calls that leave the fridge, in the order they are made. -/
inductive FridgeEvent where
  | ingredient_open (path : CStr)
  | platform_mkdir (path : CStr)
  | ingredient_unpack (path : CStr)
  | ingredient_close
  deriving DecidableEq, Repr

/-- The archive codec and the directory helper, given by what they return. -/
structure Archive where
  /-- The opened ingredient, `none` when `ingredient_open` fails. -/
  ingredient_open : CStr → Option ingredient
  platform_mkdir : CStr → Int
  ingredient_unpack : ingredient → CStr → Int

/-- The function `__get_unpack_path`: the string it returns (`none` for
`NULL`) and the calls it makes. -/
def __get_unpack_path (f : fridge_context) (a : Archive) (type : chef_package_type)
    (packageName : CStr) : Option CStr × List FridgeEvent :=
  let unpackPath :=
    if type = .CHEF_PACKAGE_TYPE_TOOLCHAIN then strpathcombine f.utensils_path packageName
    else strpathcombine f.prep_path packageName
  if a.platform_mkdir unpackPath ≠ 0 then (none, [.platform_mkdir unpackPath])
  else (some f.prep_path, [.platform_mkdir unpackPath])

/-- What `__fridge_unpack` returns and leaves behind. -/
structure UnpackResult where
  status : Int
  pack : fridge_inventory_pack
  log : List FridgeEvent
  deriving DecidableEq, Repr

/-- The function `__fridge_unpack`. -/
def __fridge_unpack (f : fridge_context) (a : Archive) (pack : fridge_inventory_pack) :
    UnpackResult :=
  if inventory_pack_is_unpacked pack = 1 then ⟨0, pack, []⟩
  else
    let packPath := inventory_pack_path pack
    match a.ingredient_open packPath with
    | none => ⟨-1, pack, [.ingredient_open packPath]⟩
    | some ingredient =>
      match __get_unpack_path f a ingredient.type (inventory_pack_name pack) with
      | (none, calls) => ⟨-1, pack, .ingredient_open packPath :: calls ++ [.ingredient_close]⟩
      | (some unpackPath, calls) =>
        if a.ingredient_unpack ingredient unpackPath ≠ 0 then
          ⟨-1, pack, .ingredient_open packPath :: calls ++
            [.ingredient_unpack unpackPath, .ingredient_close]⟩
        else
          ⟨0, inventory_pack_set_unpacked pack, .ingredient_open packPath :: calls ++
            [.ingredient_unpack unpackPath, .ingredient_close]⟩

/-- The fridge of a working directory `/w`. -/
def demoFridge : fridge_context := ⟨"/w/.fridge/prep".toList, "/w/.fridge/utensils".toList⟩

/-- An archive codec that opens every archive as a toolchain and never fails. -/
def toolchainArchive : Archive :=
  ⟨fun _ => some { type := .CHEF_PACKAGE_TYPE_TOOLCHAIN }, fun _ => 0, fun _ _ => 0⟩

/-- The cached archive of the toolchain `gnu/gcc`, not yet unpacked. -/
def gccPack : fridge_inventory_pack :=
  ⟨"gnu".toList, "gcc".toList, "/w/.fridge/storage/gcc.pack".toList, false⟩

/-! ## Definitions used in the proofs -/

/-- The name a sigil with the given text between its brackets looks up, when
that text is not made of spaces only: the text without the spaces around it. -/
def trimmedName (body : CStr) : Option CStr :=
  if leadingSpaces body + leadingSpaces body.reverse ≤ body.length then
    some ((body.drop (leadingSpaces body)).take
      (body.length - leadingSpaces body.reverse - leadingSpaces body))
  else none

/-- What an expansion function does once the value of the name is known:
`ENOSPC` for a value longer than `maxLength`, the copy into the buffer
otherwise, the error `missing` without a value. -/
def deliver (value : Option CStr) (missing : Errno) (p' : Cursor) (buffer : CStr)
    (cap maxLength : Nat) : Res Expand :=
  match value with
  | some value =>
    if value.length > maxLength then .ok ⟨-1, some .ENOSPC, p', buffer, value.length⟩
    else
      match storeValue buffer cap value with
      | .undefined => .undefined
      | .ok buffer' => .ok ⟨0, none, p', buffer', maxLength⟩
  | none => .ok ⟨-1, some missing, p', buffer, maxLength⟩

/-- The state of the loop on the example of the specification,
`--prefix=$[[INSTALL_PREFIX]] CFLAGS=$[CFLAGS]`, when it reaches the environment
sigil. -/
def stuckAtCflags : Scan :=
  ⟨⟨"=SGALFC ]]XIFERP_LLATSNI[[$=xiferp--".toList, "$[CFLAGS]".toList⟩,
    "--prefix=/chef/install CFLAGS=".toList, 4096⟩

/-! ## The kitchen: the setup hash -/

/-- The value of a computation that stayed within defined behaviour. -/
def Res.toOption {α : Type} : Res α → Option α
  | .ok a => some a
  | .undefined => none


/-- Number of values of `unsigned int`. -/
def UINT_MODULUS : Nat := 4294967296

/-- The conversion `(unsigned char)data[i]`. -/
def byte (c : Char) : Nat := c.toNat % 256

/-- The options `struct kitchen_options` of a setup. -/
structure kitchen_options where
  name : CStr
  install_path : CStr
  project_path : CStr
  ingredients : Option (List oven_ingredient)
  imports : Option (List oven_package_import)
  confined : Bool
  deriving DecidableEq, Repr

/-- The function `__hash` over the `length` bytes of `data`, in 32-bit
unsigned arithmetic.  The counter `i` is an `unsigned int` too; strings are
shorter than 2^32 bytes. -/
def __hash (hash : Nat) (data : CStr) : Nat :=
  data.foldl (fun hash c =>
    (((hash * 32) % UINT_MODULUS + hash) % UINT_MODULUS + byte c) % UINT_MODULUS) hash

/-- The function `__setup_hash`. -/
def __setup_hash (options : kitchen_options) : Nat :=
  let hash := __hash 5381 options.name
  let hash :=
    match options.ingredients with
    | some ingredients => ingredients.foldl (fun hash i => __hash hash i.name) hash
    | none => hash
  match options.imports with
  | some imports => imports.foldl (fun hash i => __hash hash i.name) hash
  | none => hash

/-- The 32-bit DJB2 hash of a sequence of bytes as the specification words it:
start at 5381, then `h := h * 33 + byte` modulo 2^32 for every byte. -/
def djb2 (bytes : List Nat) : Nat :=
  bytes.foldl (fun h b => (h * 33 + b) % 2 ^ 32) 5381

/-- The bytes the specification hashes: the recipe name, then every ingredient
name in list order, then every import name in list order, an absent list
counting as empty. -/
def setupHashInput (options : kitchen_options) : List Nat :=
  (options.name
    ++ ((options.ingredients.getD []).map (·.name)).flatten
    ++ ((options.imports.getD []).map (·.name)).flatten).map byte

/-! ## The kitchen: the hash file -/

/-- Largest value of `unsigned long` (64-bit Linux). -/
def ULONG_MAX : Nat := 18446744073709551615

/-- The library predicate `isspace` in the C locale. -/
def isspace (c : Char) : Bool := c.toNat = 32 ∨ (9 ≤ c.toNat ∧ c.toNat ≤ 13)

/-- The library function `strtoul (s, &end, 10)`: white space, an optional
sign, decimal digits; the value (`ULONG_MAX` on overflow, negated in
`unsigned long` after a minus sign) and the number of characters it passes
before it stops. -/
def strtoul (s : CStr) : Nat × Nat :=
  let blank := s.takeWhile isspace
  let s1 := s.drop blank.length
  let sign := s1.take 1 = ['-'] ∨ s1.take 1 = ['+']
  let s2 := if sign then s1.drop 1 else s1
  let digits := s2.takeWhile Char.isDigit
  let value := digits.foldl (fun v c => v * 10 + (c.toNat - 48)) 0
  let passed := blank.length + (if sign then 1 else 0) + digits.length
  if ULONG_MAX < value then (ULONG_MAX, passed)
  else if s1.take 1 = ['-'] then ((SIZE_MODULUS - value) % SIZE_MODULUS, passed)
  else (value, passed)

/-- The files the kitchen reads and writes, by path; the first entry of a path
is its content. -/
abbrev Files := List (CStr × CStr)

/-- The content of the file at a path, `none` when there is no such file. -/
def Files.read (fs : Files) (path : CStr) : Option CStr :=
  (fs.find? (fun f => f.1 = path)).map (·.2)

/-- The path `.oven/<name>/chef/.hash` as `snprintf` leaves it in a buffer of
512 bytes. -/
def hashPath (name : CStr) : CStr :=
  (".oven/".toList ++ name ++ "/chef/.hash".toList).take 511

/-- The function `__read_hash`.  The file is read into the buffer that holds
the path, over its first bytes, and no terminator is stored behind them: what
`strtoul` sees is the content of the file followed by the rest of the path.
When the content is longer than the path its bytes are followed by bytes that
were never written, and the conversion is defined only if it stops before
them. -/
def __read_hash (fs : Files) (name : CStr) : Res Nat :=
  match fs.read (hashPath name) with
  | none => .ok 0
  | some content =>
    if 512 ≤ content.length then .ok 0
    else if content.length ≤ (hashPath name).length then
      .ok ((strtoul (content ++ (hashPath name).drop content.length)).1 % UINT_MODULUS)
    else if (strtoul content).2 < content.length then
      .ok ((strtoul content).1 % UINT_MODULUS)
    else .undefined

/-- The conversion `%u` of `fprintf`. -/
def decimal (n : Nat) : CStr := Nat.toDigits 10 n

/-- The function `__write_hash`, which returns 0 in any case: the files it
leaves.  `opens` tells whether `fopen (path, "w")` succeeds. -/
def __write_hash (opens : CStr → Bool) (fs : Files) (options : kitchen_options) : Files :=
  if opens (hashPath options.name) then
    (hashPath options.name, decimal (__setup_hash options)) :: fs
  else fs

/-- The function `__should_skip_setup`. -/
def __should_skip_setup (fs : Files) (options : kitchen_options) : Res Bool :=
  match __read_hash fs options.name with
  | .undefined => .undefined
  | .ok existingHash => .ok (decide (__setup_hash options = existingHash))

/-! ## The kitchen: the scratch tree and the ingredients -/

/-- The record `struct kitchen` that a setup fills. -/
structure kitchen where
  host_chroot : CStr
  host_target_ingredients_path : CStr
  host_build_path : CStr
  host_install_path : CStr
  host_checkpoint_path : CStr
  target_ingredients_path : CStr
  project_root : CStr
  build_root : CStr
  install_root : CStr
  confined : Bool
  original_root_fd : Int
  deriving DecidableEq, Repr

/-- What `snprintf` leaves in `buff`, a buffer of 512 bytes. -/
def buff512 (s : CStr) : CStr := s.take 511

/-- The function `__kitchen_construct`; it leaves `original_root_fd` as it is. -/
def __kitchen_construct (options : kitchen_options) (k : kitchen) : kitchen :=
  { host_chroot := buff512 (".oven/".toList ++ options.name)
    host_target_ingredients_path :=
      buff512 (".oven/".toList ++ options.name ++ "/target/ingredients".toList)
    host_build_path := buff512 (".oven/".toList ++ options.name ++ "/chef/build".toList)
    host_install_path := buff512 (".oven/".toList ++ options.name ++ "/chef/install".toList)
    host_checkpoint_path :=
      buff512 (".oven/".toList ++ options.name ++ "/chef/.checkpoint".toList)
    target_ingredients_path := "/target/ingredients".toList
    project_root := "/chef/project".toList
    build_root := "/chef/build".toList
    install_root := "/chef/install".toList
    confined := options.confined
    original_root_fd := k.original_root_fd }

/-- Modelled from the spec: `struct scratch` is not among the sources; the
scratch record the oven reads is the record the setup fills, field by field
under the same names. -/
def kitchen.scratch (k : kitchen) : scratch :=
  { host_checkpoint_path := some k.host_checkpoint_path
    project_root := some k.project_root
    build_root := some k.build_root
    install_root := some k.install_root
    confined := k.confined }

/-- Calls that leave the kitchen, in the order they are made. -/
inductive KitchenEvent where
  | platform_mkdir (path : CStr)
  | platform_symlink (path target : CStr)
  | ingredient_open (path : CStr)
  | ingredient_unpack (path : CStr)
  | ingredient_close
  | fopen_write (path : CStr)
  deriving DecidableEq, Repr

/-- The collaborators of the kitchen that are not among the sources, each given
by what it returns. -/
structure KitchenTools where
  /-- The archive codec and `platform_mkdir`. -/
  archive : Archive
  platform_symlink : CStr → CStr → Int
  /-- Whether `fopen (path, "w")` succeeds. -/
  fopen_write : CStr → Bool
  fclose : Int

/-- The part of the world a setup acts on: the files it reads and writes and
the calls made so far. -/
structure KitchenWorld where
  files : Files
  log : List KitchenEvent
  deriving DecidableEq, Repr

/-- Appends a call to the log. -/
def KitchenWorld.record (w : KitchenWorld) (e : KitchenEvent) : KitchenWorld :=
  ⟨w.files, w.log ++ [e]⟩

/-- The function `__string_array_join`, from the item reached, with the
characters stored so far in its zeroed buffer of 4096 bytes.  The copies are
made by `strcpy` and `strcat` without a look at the size of the buffer. -/
def __string_array_join (pre separator : CStr) : List CStr → CStr → Res CStr
  | [], buffer => .ok buffer
  | item :: items, buffer =>
    let buffer' := (if buffer = [] then pre else buffer ++ separator ++ pre) ++ item
    if buffer'.length < 4096 then __string_array_join pre separator items buffer'
    else .undefined

/-- The conversion `%i` of `fprintf`. -/
def decimalInt (n : Int) : CStr :=
  if n < 0 then '-' :: Nat.toDigits 10 n.natAbs else Nat.toDigits 10 n.toNat

/-- Modelled from the spec: `strpathjoin` is a path helper of the platform
library, which is not among the sources; the specification gives the path of
the file as `<hostTargetPath>/usr/share/pkgconfig/<package>.pc`, the segments
one after the other. -/
def strpathjoin (segments : List CStr) : CStr := segments.flatten

/-- What `__make_available` prints into the file. -/
def pcContent (root : CStr) (i : ingredient) (cflags libs : CStr) : CStr :=
  "# generated by chef, please do not manually modify this\n".toList
    ++ "prefix=".toList ++ root ++ "\n".toList
    ++ "Name: ".toList ++ i.package ++ "\n".toList
    ++ "Description: ".toList ++ i.package ++ " by ".toList ++ i.publisher ++ "\n".toList
    ++ "Version: ".toList ++ decimalInt i.major ++ ".".toList ++ decimalInt i.minor
      ++ ".".toList ++ decimalInt i.patch ++ "\n".toList
    ++ "Cflags: ".toList ++ cflags ++ "\n".toList
    ++ "Libs: ".toList ++ libs ++ "\n".toList

/-- The function `__make_available`: its status and the world it leaves. -/
def __make_available (t : KitchenTools) (hostRoot root : CStr) (i : ingredient)
    (w : KitchenWorld) : Res (Int × KitchenWorld) :=
  match i.options with
  | none => .ok (0, w)
  | some options =>
    if i.package.length + 3 = 255 then .ok (-1, w)
    else
      let pcName := (i.package ++ ".pc".toList).take 254
      let pcPath := strpathjoin [hostRoot, "/usr/share/pkgconfig/".toList, pcName]
      let w1 := w.record (.fopen_write pcPath)
      if !t.fopen_write pcPath then .ok (-1, w1)
      else
        match __string_array_join "-I\x7bprefix\x7d".toList " ".toList options.inc_dirs [],
          __string_array_join "-L\x7bprefix\x7d".toList " ".toList options.lib_dirs [] with
        | .ok cflags, .ok libs =>
          .ok (t.fclose, ⟨(pcPath, pcContent root i cflags libs) :: w1.files, w1.log⟩)
        | _, _ => .undefined

/-- The loop of `__setup_ingredients` over the list. -/
def __setup_ingredients_loop (h : Host) (t : KitchenTools) (k : kitchen) :
    List oven_ingredient → KitchenWorld → Res (Int × KitchenWorld)
  | [], w => .ok (0, w)
  | ovenIngredient :: next, w =>
    let w1 := w.record (.ingredient_open ovenIngredient.file_path)
    match t.archive.ingredient_open ovenIngredient.file_path with
    | none => .ok (-1, w1)
    | some ingredient =>
      let foreign := ingredient.platform ≠ h.CHEF_PLATFORM_STR ∨
        ingredient.arch ≠ h.CHEF_ARCHITECTURE_STR
      let targetPath := if foreign then k.target_ingredients_path else []
      let hostTargetPath := if foreign then k.host_target_ingredients_path else k.host_chroot
      let w2 := w1.record (.ingredient_unpack targetPath)
      if t.archive.ingredient_unpack ingredient targetPath ≠ 0 then
        .ok (-1, w2.record .ingredient_close)
      else
        match __make_available t hostTargetPath targetPath ingredient w2 with
        | .undefined => .undefined
        | .ok (status, w3) =>
          if status ≠ 0 then .ok (-1, w3.record .ingredient_close)
          else __setup_ingredients_loop h t k next (w3.record .ingredient_close)

/-- The function `__setup_ingredients`. -/
def __setup_ingredients (h : Host) (t : KitchenTools) (k : kitchen)
    (ingredients : Option (List oven_ingredient)) (w : KitchenWorld) :
    Res (Int × KitchenWorld) :=
  match ingredients with
  | none => .ok (0, w)
  | some ingredients => __setup_ingredients_loop h t k ingredients w

/-- What `kitchen_setup` returns and leaves behind. -/
structure SetupResult where
  status : Int
  kitchen : kitchen
  world : KitchenWorld
  deriving DecidableEq, Repr

/-- The function `kitchen_setup`. -/
def kitchen_setup (h : Host) (t : KitchenTools) (options : kitchen_options) (k : kitchen)
    (w : KitchenWorld) : Res SetupResult :=
  match __should_skip_setup w.files options with
  | .undefined => .undefined
  | .ok true => .ok ⟨0, __kitchen_construct options k, w⟩
  | .ok false =>
    let p1 := buff512 (".oven/".toList ++ options.name ++ "/target/ingredients".toList)
    let w1 := w.record (.platform_mkdir p1)
    if t.archive.platform_mkdir p1 ≠ 0 then .ok ⟨-1, k, w1⟩
    else
      let p2 := buff512 (".oven/".toList ++ options.name ++ "/chef/build".toList)
      let w2 := w1.record (.platform_mkdir p2)
      if t.archive.platform_mkdir p2 ≠ 0 then .ok ⟨-1, k, w2⟩
      else
        let p3 := buff512 (".oven/".toList ++ options.name ++ "/chef/install".toList)
        let w3 := w2.record (.platform_symlink p3 options.install_path)
        if t.platform_symlink p3 options.install_path ≠ 0 then .ok ⟨-1, k, w3⟩
        else
          let p4 := buff512 (".oven/".toList ++ options.name ++ "/chef/project".toList)
          let w4 := w3.record (.platform_symlink p4 options.project_path)
          if t.platform_symlink p4 options.project_path ≠ 0 then .ok ⟨-1, k, w4⟩
          else
            let k' := __kitchen_construct options k
            match __setup_ingredients h t k' options.ingredients w4 with
            | .undefined => .undefined
            | .ok (status, w5) =>
              if status ≠ 0 then .ok ⟨-1, k', w5⟩
              else
                let w6 := w5.record (.fopen_write (hashPath options.name))
                .ok ⟨0, k', ⟨__write_hash t.fopen_write w6.files options, w6.log⟩⟩

/-! ## Recipes -/

/-- The options `struct oven_recipe_options`. -/
structure oven_recipe_options where
  name : CStr
  relative_path : CStr
  toolchain : Option CStr
  ingredients : Option (List oven_ingredient)
  imports : Option (List oven_package_import)
  confined : Bool
  deriving DecidableEq, Repr

/-- The options `struct scratch_options` that `oven_recipe_start` hands to the
scratch setup. -/
structure scratch_options where
  name : CStr
  install_path : Option CStr
  project_path : Option CStr
  ingredients : Option (List oven_ingredient)
  imports : Option (List oven_package_import)
  confined : Bool
  deriving DecidableEq, Repr

/-- What `oven_recipe_start` returns and the context it leaves. -/
structure RecipeResult where
  status : Int
  /-- The value the function itself stored in `errno`, if it did. -/
  errno : Option Errno
  oven : oven_context
  deriving DecidableEq, Repr

/-- The function `oven_recipe_start`.  The scratch setup is a collaborator: it
is given the options and the scratch record of the context, and returns its
status and the record as it leaves it. -/
def oven_recipe_start (scratch_setup : scratch_options → scratch → Int × scratch)
    (g : oven_context) (options : oven_recipe_options) : RecipeResult :=
  match g.recipe.name with
  | some _ => ⟨-1, some .ENOSYS, g⟩
  | none =>
    let r := scratch_setup
      { name := options.name
        install_path := g.install_root
        project_path := g.vars.cwd
        ingredients := options.ingredients
        imports := options.imports
        confined := options.confined } g.recipe.scratch
    let g' : oven_context :=
      { g with recipe :=
        { name := some options.name
          relative_path := some options.relative_path
          toolchain := options.toolchain
          ingredients := options.ingredients
          scratch := r.2 } }
    if r.1 ≠ 0 then ⟨r.1, none, g'⟩ else ⟨0, none, g'⟩

/-- The function `oven_recipe_end`: the recipe context is zeroed. -/
def oven_recipe_end (g : oven_context) : oven_context :=
  { g with recipe :=
    { name := none
      relative_path := none
      toolchain := none
      ingredients := none
      scratch := ⟨none, none, none, none, false⟩ } }

/-! ## The argument parser of the spawn helper -/

/-- The function `__get_arg_count` from its loop `while (*arg)` on, with `rest`
the characters from `arg` to the terminator.  A quote without a closing quote
leaves `arg` behind the terminator.  The fuel exceeds the number of
characters, each round passes at least one. -/
def __get_arg_count_loop : Nat → CStr → Int → Res Int
  | 0, _, count => .ok count
  | fuel + 1, rest, count =>
    match rest with
    | [] => .ok count
    | c :: r =>
      if c = ' ' then __get_arg_count_loop fuel (r.drop (leadingSpaces r)) (count + 1)
      else if c = Char.ofNat 34 then
        match r.dropWhile (· ≠ Char.ofNat 34) with
        | [] => .undefined
        | _ :: r' => __get_arg_count_loop fuel r' count
      else __get_arg_count_loop fuel r count

/-- The function `__get_arg_count`. -/
def __get_arg_count (arguments : Option CStr) : Res Int :=
  match arguments with
  | none => .ok 0
  | some arguments =>
    let arg := arguments.drop (leadingSpaces arguments)
    if arg.length = 0 then .ok 0
    else __get_arg_count_loop (arg.length + 1) arg 1

/-- The state of `__split_arguments`: the copy of the argument string around
`arg` and the entries of `argv` stored so far. -/
structure Split where
  /-- The bytes before `arg`, the nearest one first; `none` is a terminator
  that the function has stored. -/
  before : List (Option Char)
  /-- The characters from `arg` to the terminator of the copy. -/
  rest : CStr
  /-- The entries `argv[1]`, ..., `argv[i - 1]`, as offsets into the copy. -/
  argv : List Nat
  deriving DecidableEq, Repr

/-- The loop `while (*arg)` of `__split_arguments`.  The fuel exceeds the
number of characters, each round passes at least one. -/
def __split_arguments_loop : Nat → Split → Split
  | 0, s => s
  | fuel + 1, s =>
    match s.rest with
    | [] => s
    | c :: r =>
      if c = ' ' then
        let before' := ((r.take (leadingSpaces r)).map some).reverse ++ none :: s.before
        __split_arguments_loop fuel
          ⟨before', r.drop (leadingSpaces r), s.argv ++ [before'.length]⟩
      else if c = Char.ofNat 34 then
        let span := r.takeWhile (· ≠ Char.ofNat 34)
        let before' := (span.map some).reverse ++ some c :: s.before
        let argv' := s.argv.dropLast ++ [s.before.length + 1]
        match r.drop span.length with
        | [] => ⟨before', [], argv'⟩
        | _ :: r' => __split_arguments_loop fuel ⟨none :: before', r', argv'⟩
      else __split_arguments_loop fuel ⟨some c :: s.before, r, s.argv⟩

/-- The string an entry of `argv` points to: the bytes of the copy from the
offset up to the first terminator. -/
def stringAt (copy : List (Option Char)) (offset : Nat) : CStr :=
  ((copy.drop offset).takeWhile Option.isSome).filterMap id

/-- The function `__split_arguments`: the strings that the entries `argv[1]`,
`argv[2]`, ... it stores point to when it returns. -/
def __split_arguments (arguments : Option CStr) : List CStr :=
  match arguments with
  | none => []
  | some arguments =>
    let arg := arguments.drop (leadingSpaces arguments)
    if arg.length = 0 then []
    else
      let s := __split_arguments_loop (arg.length + 1)
        ⟨((arguments.take (leadingSpaces arguments)).map some).reverse, arg,
          [leadingSpaces arguments]⟩
      s.argv.map (stringAt (s.before.reverse ++ s.rest.map some))

/-- Joining a list of arguments with single spaces. -/
def joinArguments (arguments : List CStr) : CStr :=
  List.intercalate [' '] arguments

/-! ## A concrete kitchen -/

/-- A kitchen record before any setup: zeroed. -/
def zeroKitchen : kitchen := ⟨[], [], [], [], [], [], [], [], [], false, 0⟩

/-- The options of the confined recipe `demo` with the ingredients `acme/libfoo`
and `acme/libbar`. -/
def demoKitchenOptions : kitchen_options :=
  { name := "demo".toList
    install_path := "/w/.oven/output".toList
    project_path := "/w".toList
    ingredients := some
      [⟨"acme/libfoo".toList, "/w/.fridge/storage/libfoo.pack".toList⟩,
        ⟨"acme/libbar".toList, "/w/.fridge/storage/libbar.pack".toList⟩]
    imports := none
    confined := true }

/-- The kitchen record of the recipe `demo`. -/
def demoKitchen : kitchen := __kitchen_construct demoKitchenOptions zeroKitchen

/-- The ingredient `acme/libfoo` 1.2.3, built for the platform and architecture
of `demoHost`, with options for its consumers. -/
def libfoo : ingredient :=
  { type := .CHEF_PACKAGE_TYPE_INGREDIENT
    publisher := "acme".toList
    package := "libfoo".toList
    platform := "linux".toList
    arch := "amd64".toList
    major := 1
    minor := 2
    patch := 3
    options := some ⟨["/include".toList, "/include/foo".toList], ["/lib".toList]⟩ }

/-- The ingredient `acme/libbar` 0.9.0, built for another architecture, without
options. -/
def libbar : ingredient :=
  { type := .CHEF_PACKAGE_TYPE_INGREDIENT
    publisher := "acme".toList
    package := "libbar".toList
    platform := "linux".toList
    arch := "arm64".toList
    major := 0
    minor := 9
    patch := 0
    options := none }

/-- Kitchen collaborators that know the archives of `libfoo` and `libbar` and
never fail. -/
def demoTools : KitchenTools :=
  { archive :=
      ⟨fun path =>
          if path = "/w/.fridge/storage/libfoo.pack".toList then some libfoo
          else if path = "/w/.fridge/storage/libbar.pack".toList then some libbar
          else none,
        fun _ => 0, fun _ _ => 0⟩
    platform_symlink := fun _ _ => 0
    fopen_write := fun _ => true
    fclose := 0 }

/-- Options of a recipe without ingredients and imports. -/
def recipeNamed (name : CStr) : kitchen_options := ⟨name, [], [], none, none, false⟩

/-- Options of the recipe `demo` with the given ingredient names, in order. -/
def demoWith (names : List CStr) : kitchen_options :=
  ⟨"demo".toList, [], [], some (names.map (fun n => ⟨n, []⟩)), none, false⟩

/-! ## The template of the pkg-config file -/

/-- The joined arguments behind the first one: each with a space before it. -/
def tailJoin (arguments : List CStr) : CStr := (arguments.map (fun a => ' ' :: a)).flatten

/-- The copy of `tailJoin` once it is split: each argument behind a
terminator. -/
def encTail (arguments : List CStr) : List (Option Char) :=
  (arguments.map (fun a => none :: a.map some)).flatten

/-- The offsets of the arguments of `encTail`, which starts at offset `base`. -/
def offsets : Nat → List CStr → List Nat
  | _, [] => []
  | base, a :: arguments => (base + 1) :: offsets (base + 1 + a.length) arguments

/-! ## The install copy with filters -/

/-- An entry that `readdir` yields: its name and whether its `d_type` is
`DT_DIR`. -/
structure dirent where
  d_name : CStr
  is_dir : Bool
  deriving DecidableEq, Repr

/-- Calls of the install copy that act on the destination, in the order they
are made. -/
inductive CopyEvent where
  | platform_mkdir (path : CStr)
  | platform_copyfile (source destination : CStr)
  deriving DecidableEq, Repr

/-- The collaborators of the install copy that are not among the sources, each
given by what it returns. -/
structure CopyTools where
  /-- The glob predicate `strfilter (filter, text, flags)`. -/
  strfilter : CStr → CStr → Int → Int
  /-- The path helper `strpathcombine` on pointers, `none` being `NULL`. -/
  strpathcombine : Option CStr → Option CStr → Option CStr
  /-- The entries `readdir` yields for a directory, in order; `none` when
  `opendir` fails. -/
  opendir : CStr → Option (List dirent)
  platform_mkdir : CStr → Int
  platform_copyfile : CStr → CStr → Int

/-- The loop `list_foreach (filters, item)` of `__matches_filters`. -/
def __matches_filters_loop (t : CopyTools) (path : CStr) : List CStr → Int
  | [] => 0
  | filter :: next =>
    if t.strfilter filter path 0 ≠ 0 then -1 else __matches_filters_loop t path next

/-- The function `__matches_filters`. -/
def __matches_filters (t : CopyTools) (path : CStr) (filters : List CStr) : Int :=
  if filters.length = 0 then 0 else __matches_filters_loop t path filters

/-- The loop `while ((entry = readdir (dir)) != NULL)` of
`__copy_files_with_filters`, from the entry reached, with the value of `status`
and the calls made so far; `walk` is the recursive call for a subdirectory.
The loop is left for `cleanup` with `status` as it stands. -/
def __copy_files_with_filters_loop (t : CopyTools)
    (walk : CStr → List CopyEvent → Option (Int × List CopyEvent))
    (path : Option CStr) (finalSource finalDestination : CStr) (filters : List CStr) :
    List dirent → Int → List CopyEvent → Option (Int × List CopyEvent)
  | [], _, log => some (0, log)
  | entry :: next, status, log =>
    if entry.d_name = ".".toList ∨ entry.d_name = "..".toList then
      __copy_files_with_filters_loop t walk path finalSource finalDestination filters
        next status log
    else
      match t.strpathcombine path (some entry.d_name) with
      | none => some (status, log)
      | some combinedSubPath =>
        if __matches_filters t combinedSubPath filters ≠ 0 then
          __copy_files_with_filters_loop t walk path finalSource finalDestination filters
            next status log
        else if entry.is_dir then
          match walk combinedSubPath log with
          | none => none
          | some (status', log') =>
            if status' ≠ 0 then some (status', log')
            else
              __copy_files_with_filters_loop t walk path finalSource finalDestination
                filters next status' log'
        else
          match t.strpathcombine (some finalSource) (some entry.d_name),
            t.strpathcombine (some finalDestination) (some entry.d_name) with
          | some sourceFile, some destinationFile =>
            if t.platform_copyfile sourceFile destinationFile ≠ 0 then
              some (t.platform_copyfile sourceFile destinationFile,
                log ++ [.platform_copyfile sourceFile destinationFile])
            else
              __copy_files_with_filters_loop t walk path finalSource finalDestination
                filters next 0 (log ++ [.platform_copyfile sourceFile destinationFile])
          | _, _ => some (status, log)

/-- The function `__copy_files_with_filters`: its status and the calls made.
The fuel bounds the depth of the directories below `path`; `none` when it ran
out. -/
def __copy_files_with_filters (t : CopyTools) :
    Nat → Option CStr → Option CStr → List CStr → Option CStr → List CopyEvent →
      Option (Int × List CopyEvent)
  | 0, _, _, _, _, _ => none
  | fuel + 1, sourceRoot, path, filters, destinationRoot, log =>
    match t.strpathcombine sourceRoot path with
    | none => some (-1, log)
    | some finalSource =>
      match t.strpathcombine destinationRoot path with
      | none => some (-1, log)
      | some finalDestination =>
        match t.opendir finalSource with
        | none => some (-1, log)
        | some entries =>
          if t.platform_mkdir finalDestination ≠ 0 then
            some (-1, log ++ [.platform_mkdir finalDestination])
          else
            __copy_files_with_filters_loop t
              (fun sub log' =>
                __copy_files_with_filters t fuel sourceRoot (some sub) filters
                  destinationRoot log')
              path finalSource finalDestination filters entries (-1)
              (log ++ [.platform_mkdir finalDestination])

/-- The function `oven_include_filters`: its status, the `errno` it stores and
the calls made. -/
def oven_include_filters (t : CopyTools) (g : oven_context) (fuel : Nat)
    (filters : Option (List CStr)) : Option (Int × Option Errno × List CopyEvent) :=
  match filters with
  | none => some (-1, some .EINVAL, [])
  | some filters =>
    (__copy_files_with_filters t fuel (some []) none filters
      g.recipe.scratch.install_root []).map (fun r => (r.1, none, r.2))

/-! ## Entering and leaving the kitchen -/

/-- Calls by which the kitchen changes the root and the working directory of
the process, in the order they are made. -/
inductive RootEvent where
  /-- The call `open ("/", __O_PATH)`. -/
  | open_root
  | chroot (path : CStr)
  | chdir (path : CStr)
  | fchdir (fd : Int)
  | close (fd : Int)
  deriving DecidableEq, Repr

/-- The system calls behind `kitchen_enter` and `kitchen_leave`, each given by
what it returns. -/
structure RootTools where
  /-- The descriptor that `open ("/", __O_PATH)` returns. -/
  open_root : Int
  chroot : CStr → Int
  chdir : CStr → Int
  fchdir : Int → Int

/-- What `kitchen_enter` and `kitchen_leave` return, the kitchen record and the
calls made when they return. -/
structure RootResult where
  status : Int
  kitchen : kitchen
  log : List RootEvent
  deriving DecidableEq, Repr

/-- The function `kitchen_enter`. -/
def kitchen_enter (t : RootTools) (k : kitchen) (log : List RootEvent) : RootResult :=
  if !k.confined then ⟨0, k, log⟩
  else if k.original_root_fd > 0 then ⟨-1, k, log⟩
  else
    let k' := { k with original_root_fd := t.open_root }
    if k'.original_root_fd < 0 then ⟨-1, k', log ++ [.open_root]⟩
    else if t.chroot k'.host_chroot ≠ 0 then
      ⟨-1, k', log ++ [.open_root, .chroot k'.host_chroot]⟩
    else if t.chdir k'.project_root ≠ 0 then
      ⟨-1, k', log ++ [.open_root, .chroot k'.host_chroot, .chdir k'.project_root]⟩
    else ⟨0, k', log ++ [.open_root, .chroot k'.host_chroot, .chdir k'.project_root]⟩

/-- The function `kitchen_leave`. -/
def kitchen_leave (t : RootTools) (k : kitchen) (log : List RootEvent) : RootResult :=
  if !k.confined then ⟨0, k, log⟩
  else if k.original_root_fd ≤ 0 then ⟨-1, k, log⟩
  else if t.fchdir k.original_root_fd ≠ 0 then ⟨-1, k, log ++ [.fchdir k.original_root_fd]⟩
  else if t.chroot ".".toList ≠ 0 then
    ⟨-1, k, log ++ [.fchdir k.original_root_fd, .chroot ".".toList]⟩
  else
    ⟨0, { k with original_root_fd := 0 },
      log ++ [.fchdir k.original_root_fd, .chroot ".".toList, .close k.original_root_fd]⟩

/-! ## The argument array of a spawn -/

/-- The array `argv` that `platform_spawn` hands to `posix_spawnp`.  It has
`argc + 2` zeroed slots, `argc` being the count of `__get_arg_count`; slot 0
receives `argv0` or the path of the program, `__split_arguments` stores its
entries from slot 1 on, one slot further with each new entry, and the last
slot is meant to stay `NULL`.  A store behind the last slot leaves defined
behaviour. -/
def platform_spawn_argv (path : CStr) (argv0 : Option CStr) (arguments : Option CStr) :
    Res (List (Option CStr)) :=
  match __get_arg_count arguments with
  | .undefined => .undefined
  | .ok argc =>
    if argc < 0 then .undefined
    else
      let entries := __split_arguments arguments
      if entries.length + 1 ≤ argc.toNat + 2 then
        .ok ((some (argv0.getD path) :: entries.map some) ++
          List.replicate (argc.toNat + 1 - entries.length) none)
      else .undefined

/-! ## Concrete arguments, trees and kitchens -/

/-- The text `s` between two double quotes. -/
def quoted (s : CStr) : CStr := Char.ofNat 34 :: s ++ [Char.ofNat 34]

/-- The names `__get_variable` compares its argument with. -/
def internalNames : List CStr :=
  ["CHEF_TARGET_PLATFORM".toList, "CHEF_TARGET_ARCHITECTURE".toList,
    "CHEF_HOST_PLATFORM".toList, "CHEF_HOST_ARCHITECTURE".toList,
    "TOOLCHAIN_PREFIX".toList, "PROJECT_PATH".toList, "INSTALL_PREFIX".toList]

/-- A sigil of an internal variable with `m` spaces before and `n` spaces
behind the text `body` between the brackets. -/
def paddedSigil (m n : Nat) (body : CStr) : CStr :=
  '$' :: '[' :: '[' :: (List.replicate m ' ' ++ body ++ List.replicate n ' ' ++ [']', ']'])

/-- What `oven_preprocess_text` returns on a text that is one sigil of an
internal variable, by the value `__get_variable` has for the name: nothing is
stored without a value and for a value of more than 4096 bytes, and a value of
exactly 4096 bytes fills the buffer up to its last byte. -/
def sigilOutcome (value : Option CStr) : Outcome :=
  match value with
  | none => .text []
  | some value =>
    if value.length > 4096 then .text []
    else if value.length < 4096 then .text value
    else .undefined

/-! ## The calls of a walk that succeeds -/

/-- System calls that succeed; the root is opened as descriptor 3. -/
def demoRootTools : RootTools := ⟨3, fun _ => 0, fun _ => 0, fun _ => 0⟩

/-- System calls that succeed; the root is opened as descriptor 0, the lowest
free one in a process whose standard input is closed. -/
def zeroDescriptorTools : RootTools := ⟨0, fun _ => 0, fun _ => 0, fun _ => 0⟩

/-- A scratch setup that fails and leaves the scratch record as it is. -/
def failingSetup (_options : scratch_options) (s : scratch) : Int × scratch := (-1, s)

/-- A scratch setup that succeeds and leaves the scratch record as it is. -/
def workingSetup (_options : scratch_options) (s : scratch) : Int × scratch := (0, s)

/-- The options of the recipe `demo`. -/
def demoRecipeOptions : oven_recipe_options :=
  ⟨"demo".toList, "".toList, none, none, none, true⟩

/-! # Proofs -/


/-! ## Fuel -/

theorem expandLoop_succ (f : Cursor → CStr → Nat → Nat → Res Expand) :
    ∀ (fuel : Nat) (s : Scan) (ml : Nat) (r : Res Scan),
      expandLoop f fuel s ml = some r → expandLoop f (fuel + 1) s ml = some r := by
  intro fuel
  induction fuel with
  | zero => intro s ml r hr; simp [expandLoop] at hr
  | succ n ih =>
    intro s ml r hr
    rw [expandLoop] at hr ⊢
    cases hf : f s.itr s.buffer s.cap ml with
    | undefined => simpa [hf] using hr
    | ok x =>
      simp only [hf] at hr ⊢
      by_cases h0 : x.status = 0
      · simpa [h0] using hr
      · simp only [h0, if_false] at hr ⊢
        by_cases he : x.errno = some Errno.ENOSPC
        · simp only [he, if_true] at hr ⊢
          cases hz : __resize_buffer x.buffer s.cap (4096 + x.maxLength + 1024) with
          | undefined => simpa [hz] using hr
          | ok cap' =>
            simp only [hz] at hr ⊢
            exact ih _ _ _ hr
        · simpa [he] using hr

theorem scanBody_succ (h : Host) (g : oven_context) (fuel : Nat) (s : Scan) (c : Char)
    (r : Res Scan) (hr : scanBody h g fuel s c = some r) :
    scanBody h g (fuel + 1) s c = some r := by
  unfold scanBody at hr ⊢
  split_ifs at hr ⊢ with h1 h2 h3
  · exact expandLoop_succ _ _ _ _ _ hr
  · exact expandLoop_succ _ _ _ _ _ hr
  · exact hr
  · exact hr

theorem scan_succ (h : Host) (g : oven_context) :
    ∀ (fuel : Nat) (s : Scan) (r : Res Scan),
      scan h g fuel s = some r → scan h g (fuel + 1) s = some r := by
  intro fuel
  induction fuel with
  | zero => intro s r hr; simp [scan] at hr
  | succ n ih =>
    intro s r hr
    rw [scan] at hr ⊢
    cases hrest : s.itr.rest with
    | nil => simpa [hrest] using hr
    | cons c cs =>
      simp only [hrest] at hr ⊢
      cases hb : scanBody h g n s c with
      | none => simp [hb] at hr
      | some x =>
        rw [scanBody_succ h g n s c x hb]
        cases x with
        | undefined => simpa [hb] using hr
        | ok s' =>
          simp only [hb] at hr ⊢
          exact ih _ _ hr

theorem scan_add (h : Host) (g : oven_context) (fuel k : Nat) (s : Scan) (r : Res Scan)
    (hr : scan h g fuel s = some r) : scan h g (fuel + k) s = some r := by
  induction k with
  | zero => exact hr
  | succ k ih => exact scan_succ h g _ _ _ ih

theorem scan_le (h : Host) (g : oven_context) (fuel fuel' : Nat) (s : Scan) (r : Res Scan)
    (hle : fuel ≤ fuel') (hr : scan h g fuel s = some r) : scan h g fuel' s = some r := by
  obtain ⟨k, rfl⟩ := Nat.exists_eq_add_of_le hle
  exact scan_add h g fuel k s r hr

/-! ## Sigils that are never left -/

/-- An expansion call that fails without moving the pointer or touching the
buffer, with an error other than `ENOSPC`, leaves the retry loop in the state
it was entered in. -/
theorem expandLoop_idle (f : Cursor → CStr → Nat → Nat → Res Expand) (fuel : Nat) (s : Scan)
    (ml : Nat) (e : Errno) (he : e ≠ .ENOSPC)
    (hf : f s.itr s.buffer s.cap ml = .ok ⟨-1, some e, s.itr, s.buffer, ml⟩) :
    expandLoop f (fuel + 1) s ml = some (.ok s) := by
  rw [expandLoop, hf]
  simp [he]

/-- A state whose loop body returns to the same state is never left. -/
theorem scan_stuck (h : Host) (g : oven_context) (s : Scan) (c : Char) (cs : CStr)
    (hrest : s.itr.rest = c :: cs)
    (hbody : ∀ fuel, scanBody h g (fuel + 1) s c = some (.ok s)) :
    ∀ fuel, scan h g fuel s = none := by
  have hzero : scanBody h g 0 s c = none ∨ scanBody h g 0 s c = some (.ok s) := by
    cases hb : scanBody h g 0 s c with
    | none => exact Or.inl rfl
    | some x => exact Or.inr ((scanBody_succ h g 0 s c x hb).symm.trans (hbody 0))
  intro fuel
  induction fuel with
  | zero => simp [scan]
  | succ n ih =>
    rw [scan]
    simp only [hrest]
    cases n with
    | zero =>
      rcases hzero with h0 | h0
      · simp [h0]
      · simp [h0, scan]
    | succ n => simp [hbody n, ih]


/-! ## Spaces and brackets -/

theorem leadingSpaces_le (x : CStr) : leadingSpaces x ≤ x.length := by
  induction x with
  | nil => simp [leadingSpaces]
  | cons a x ih =>
    by_cases ha : a = ' '
    · simp only [leadingSpaces, List.takeWhile, ha, decide_True, List.length_cons] at ih ⊢
      omega
    · simp [leadingSpaces, List.takeWhile, ha]

theorem leadingSpaces_cons_space (x : CStr) : leadingSpaces (' ' :: x) = leadingSpaces x + 1 := by
  simp [leadingSpaces, List.takeWhile]

theorem leadingSpaces_cons_other (c : Char) (x : CStr) (hc : c ≠ ' ') :
    leadingSpaces (c :: x) = 0 := by
  simp [leadingSpaces, List.takeWhile, hc]

theorem leadingSpaces_append_cons (x y : CStr) (c : Char) (hc : c ≠ ' ') :
    leadingSpaces (x ++ c :: y) = leadingSpaces x := by
  induction x with
  | nil => simp [leadingSpaces, List.takeWhile, hc]
  | cons a x ih =>
    by_cases ha : a = ' '
    · subst ha
      rw [List.cons_append, leadingSpaces_cons_space, leadingSpaces_cons_space, ih]
    · rw [List.cons_append, leadingSpaces_cons_other _ _ ha, leadingSpaces_cons_other _ _ ha]

theorem leadingSpaces_append_of_lt (x y : CStr) (hx : leadingSpaces x < x.length) :
    leadingSpaces (x ++ y) = leadingSpaces x := by
  induction x with
  | nil => simp at hx
  | cons a x ih =>
    by_cases ha : a = ' '
    · subst ha
      rw [leadingSpaces_cons_space] at hx
      rw [List.cons_append, leadingSpaces_cons_space, leadingSpaces_cons_space,
        ih (by simpa using hx)]
    · rw [List.cons_append, leadingSpaces_cons_other _ _ ha, leadingSpaces_cons_other _ _ ha]

theorem leadingSpaces_reverse_lt (x : CStr) (hx : leadingSpaces x < x.length) :
    leadingSpaces x + leadingSpaces x.reverse < x.length := by
  induction x with
  | nil => simp at hx
  | cons a x ih =>
    by_cases ha : a = ' '
    · subst ha
      rw [leadingSpaces_cons_space] at hx ⊢
      have hx' : leadingSpaces x < x.length := by simpa using hx
      have h1 := ih hx'
      have h2 : leadingSpaces x.reverse < x.reverse.length := by
        rw [List.length_reverse]; omega
      rw [List.reverse_cons, leadingSpaces_append_of_lt _ _ h2]
      simp only [List.length_cons]
      omega
    · rw [leadingSpaces_cons_other _ _ ha, List.reverse_cons, leadingSpaces_append_cons _ _ _ ha]
      have := leadingSpaces_le x.reverse
      rw [List.length_reverse] at this
      simp only [List.length_cons]
      omega

theorem strchr_decomp (c : Char) : ∀ (s : CStr) (e : Nat), strchr s c = some e →
    ∃ x y, s = x ++ c :: y ∧ x.length = e ∧ c ∉ x := by
  intro s
  induction s with
  | nil => intro e he; simp [strchr] at he
  | cons a s ih =>
    intro e he
    rw [strchr] at he
    by_cases ha : a = c
    · simp only [ha, if_true, Option.some.injEq] at he
      exact ⟨[], s, by simp [ha], by simpa using he, by simp⟩
    · simp only [ha, if_false, Option.map_eq_some'] at he
      obtain ⟨e', he', rfl⟩ := he
      obtain ⟨x, y, hs, hl, hx⟩ := ih e' he'
      refine ⟨a :: x, y, by simp [hs], by simp [hl], ?_⟩
      simp only [List.mem_cons, not_or]
      exact ⟨fun h => ha h.symm, hx⟩

theorem strchr_of_decomp (c : Char) (x y : CStr) (hx : c ∉ x) :
    strchr (x ++ c :: y) c = some x.length := by
  induction x with
  | nil => simp [strchr]
  | cons a x ih =>
    simp only [List.mem_cons, not_or] at hx
    have ha : ¬ a = c := fun h => hx.1 h.symm
    simp [strchr, ha, ih hx.2]

theorem sigilName_closed (bf o body tail : CStr) (l close : Char) (hl : l ≠ ' ')
    (hclose : close ≠ ' ') :
    sigilName ⟨bf, o ++ l :: (body ++ close :: tail)⟩ (o.length + 1)
        (o.length + 1 + body.length) =
      .ok (match trimmedName body with
        | some name => name
        | none => close :: tail) := by
  have hdrop : ∀ k, (o ++ l :: (body ++ close :: tail)).drop (o.length + 1 + k) =
      (body ++ close :: tail).drop k := by
    intro k
    have : o ++ l :: (body ++ close :: tail) = (o ++ [l]) ++ (body ++ close :: tail) := by simp
    have hlen : o.length + 1 + k = (o ++ [l]).length + k := by simp
    rw [this, hlen, List.drop_append]
  have htake : (o ++ l :: (body ++ close :: tail)).take (o.length + 1 + body.length) =
      o ++ l :: body := by
    have : o ++ l :: (body ++ close :: tail) = (o ++ l :: body) ++ (close :: tail) := by simp
    rw [this]
    exact List.take_left' (by simp; omega)
  unfold sigilName
  simp only
  have hd0 := hdrop 0
  simp only [Nat.add_zero, List.drop_zero] at hd0
  rw [hd0, htake, leadingSpaces_append_cons _ _ _ hclose]
  have hrev : (o ++ l :: body).reverse ++ bf = body.reverse ++ l :: (o.reverse ++ bf) := by simp
  rw [hrev, leadingSpaces_append_cons _ _ _ hl]
  have h1 := leadingSpaces_le body
  have h2 := leadingSpaces_le body.reverse
  rw [List.length_reverse] at h2
  have hlen : ¬ (o ++ l :: (body ++ close :: tail)).length < o.length + 1 := by
    simp
  have hback : ¬ leadingSpaces body.reverse = o.length + 1 + body.length + bf.length := by omega
  rw [if_neg hlen, if_neg hback, hdrop]
  unfold trimmedName
  by_cases hfit : leadingSpaces body + leadingSpaces body.reverse ≤ body.length
  · have hle : o.length + 1 + leadingSpaces body ≤
        o.length + 1 + body.length - leadingSpaces body.reverse := by omega
    rw [if_pos hle, if_pos hfit]
    simp only
    congr 1
    rw [List.drop_append_eq_append_drop, List.take_append_eq_append_take]
    have e1 : o.length + 1 + body.length - leadingSpaces body.reverse -
        (o.length + 1 + leadingSpaces body) =
        body.length - leadingSpaces body.reverse - leadingSpaces body := by omega
    rw [e1]
    simp
    omega
  · have hle : ¬ o.length + 1 + leadingSpaces body ≤
        o.length + 1 + body.length - leadingSpaces body.reverse := by omega
    rw [if_neg hle, if_neg hfit]
    simp only
    congr 1
    have hall : leadingSpaces body = body.length := by
      by_contra hne
      have hlt : leadingSpaces body < body.length := lt_of_le_of_ne h1 hne
      have := leadingSpaces_reverse_lt body hlt
      omega
    rw [hall]
    simp


/-! ## The expansion functions on a sigil -/

theorem get_variable_bracket (h : Host) (g : oven_context) (t : CStr) :
    __get_variable h g (']' :: t) = none := by
  simp [__get_variable]

theorem expand_variable_closed (h : Host) (g : oven_context) (bf body tail buf : CStr)
    (cap ml : Nat) (hb : ']' ∉ body) :
    __expand_variable h g ⟨bf, '$' :: '[' :: '[' :: (body ++ ']' :: ']' :: tail)⟩ buf cap ml =
      deliver ((trimmedName body).bind (__get_variable h g)) .ENOENT
        (Cursor.advance ⟨bf, '$' :: '[' :: '[' :: (body ++ ']' :: ']' :: tail)⟩
          (body.length + 5)) buf cap ml := by
  have hx : ']' ∉ '$' :: '[' :: '[' :: body := by
    simp only [List.mem_cons, not_or]
    exact ⟨by decide, by decide, by decide, hb⟩
  have hchr : strchr ('$' :: '[' :: '[' :: (body ++ ']' :: ']' :: tail)) ']' =
      some (body.length + 3) := by
    have := strchr_of_decomp ']' ('$' :: '[' :: '[' :: body) (']' :: tail) hx
    simpa using this
  have hnext : ('$' :: '[' :: '[' :: (body ++ ']' :: ']' :: tail)).getD (body.length + 3 + 1)
      (Char.ofNat 0) = ']' := by
    have e : '$' :: '[' :: '[' :: (body ++ ']' :: ']' :: tail) =
        ('$' :: '[' :: '[' :: (body ++ [']'])) ++ (']' :: tail) := by simp
    rw [e, List.getD_append_right _ _ _ _ (by simp)]
    simp
  have hname := sigilName_closed bf ['$', '['] body (']' :: tail) '[' ']' (by decide) (by decide)
  simp only [List.cons_append, List.nil_append, List.length_cons, List.length_nil] at hname
  have h3 : 0 + 1 + 1 + 1 = 3 := rfl
  have h3b : 0 + 1 + 1 + 1 + body.length = body.length + 3 := by omega
  rw [h3, h3b] at hname
  unfold __expand_variable
  simp only [hchr, hnext, if_true, hname]
  cases ht : trimmedName body with
  | none =>
    simp only [Option.none_bind, get_variable_bracket]
    rfl
  | some name =>
    simp only [Option.some_bind]
    cases hv : __get_variable h g name with
    | none => rfl
    | some value => rfl

theorem expand_variable_cases (h : Host) (g : oven_context) (bf s' : CStr) :
    (∃ body tail, s' = body ++ ']' :: ']' :: tail ∧ ']' ∉ body) ∨
    (∀ buf cap ml, __expand_variable h g ⟨bf, '$' :: '[' :: '[' :: s'⟩ buf cap ml =
      .ok ⟨-1, some .EINVAL, ⟨bf, '$' :: '[' :: '[' :: s'⟩, buf, ml⟩) := by
  cases hc : strchr s' ']' with
  | none =>
    right
    intro buf cap ml
    simp [__expand_variable, strchr, hc]
  | some e =>
    obtain ⟨x, y, hs, hl, hx⟩ := strchr_decomp ']' s' e hc
    have hchr : strchr ('$' :: '[' :: '[' :: s') ']' = some (e + 3) := by
      simp [strchr, hc]
    have hright : ¬ ('$' :: '[' :: '[' :: s').getD (e + 3 + 1) (Char.ofNat 0) = ']' →
        ∀ buf cap ml, __expand_variable h g ⟨bf, '$' :: '[' :: '[' :: s'⟩ buf cap ml =
          .ok ⟨-1, some .EINVAL, ⟨bf, '$' :: '[' :: '[' :: s'⟩, buf, ml⟩ := by
      intro hn buf cap ml
      unfold __expand_variable
      simp only [hchr]
      rw [if_neg hn]
    cases y with
    | nil =>
      right
      apply hright
      rw [List.getD_eq_default _ _ (by simp [hs, hl])]
      decide
    | cons d y =>
      by_cases hd : d = ']'
      · left
        exact ⟨x, y, by rw [hs, hd], hx⟩
      · right
        apply hright
        have e1 : '$' :: '[' :: '[' :: s' = ('$' :: '[' :: '[' :: (x ++ [']'])) ++ (d :: y) := by
          simp [hs]
        rw [e1, List.getD_append_right _ _ _ _ (by simp [hl])]
        simp [hl, hd]

theorem expand_environment_closed (h : Host) (bf body tail buf : CStr) (cap ml : Nat)
    (henv : ∀ name, h.getenv (Char.ofNat 125 :: name) = none)
    (hb : Char.ofNat 125 ∉ body) :
    __expand_environment_variable h ⟨bf, '$' :: '[' :: (body ++ Char.ofNat 125 :: tail)⟩
        buf cap ml =
      deliver ((trimmedName body).bind h.getenv) .EINVAL
        (Cursor.advance ⟨bf, '$' :: '[' :: (body ++ Char.ofNat 125 :: tail)⟩
          (body.length + 3)) buf cap ml := by
  have hx : Char.ofNat 125 ∉ '$' :: '[' :: body := by
    simp only [List.mem_cons, not_or]
    exact ⟨by decide, by decide, hb⟩
  have hchr : strchr ('$' :: '[' :: (body ++ Char.ofNat 125 :: tail)) (Char.ofNat 125) =
      some (body.length + 2) := by
    have := strchr_of_decomp (Char.ofNat 125) ('$' :: '[' :: body) tail hx
    simpa using this
  have hname := sigilName_closed bf ['$'] body tail '[' (Char.ofNat 125) (by decide) (by decide)
  simp only [List.cons_append, List.nil_append, List.length_cons, List.length_nil] at hname
  have h2 : 0 + 1 + 1 = 2 := rfl
  have h2b : 0 + 1 + 1 + body.length = body.length + 2 := by omega
  rw [h2, h2b] at hname
  unfold __expand_environment_variable
  simp only [hchr, hname]
  cases ht : trimmedName body with
  | none =>
    simp only [Option.none_bind, henv]
    rfl
  | some name =>
    simp only [Option.some_bind]
    cases hv : h.getenv name with
    | none => rfl
    | some value => rfl

theorem expand_environment_cases (h : Host) (bf s' : CStr) :
    (∃ body tail, s' = body ++ Char.ofNat 125 :: tail ∧ Char.ofNat 125 ∉ body) ∨
    (∀ buf cap ml, __expand_environment_variable h ⟨bf, '$' :: '[' :: s'⟩ buf cap ml =
      .ok ⟨-1, some .ENOMEM, ⟨bf, '$' :: '[' :: s'⟩, buf, ml⟩) := by
  cases hc : strchr s' (Char.ofNat 125) with
  | none =>
    right
    intro buf cap ml
    have h1 : ¬ '$' = Char.ofNat 125 := by decide
    have h2 : ¬ '[' = Char.ofNat 125 := by decide
    simp [__expand_environment_variable, strchr, hc, h1, h2]
  | some e =>
    left
    obtain ⟨x, y, hs, _, hx⟩ := strchr_decomp _ s' e hc
    exact ⟨x, y, hs, hx⟩


/-! ## The size of the buffer -/

theorem spaceLeft_eq (k : Nat) (hk : k ≤ 4096) : spaceLeft k = 4096 - k := by
  unfold spaceLeft SIZE_MODULUS
  omega

theorem expandLoop_cap (f : Cursor → CStr → Nat → Nat → Res Expand) :
    ∀ (fuel : Nat) (s : Scan) (ml : Nat) (r : Scan),
      expandLoop f fuel s ml = some (.ok r) → r.cap = s.cap ∨ 5120 ≤ r.cap := by
  intro fuel
  induction fuel with
  | zero => intro s ml r hr; simp [expandLoop] at hr
  | succ n ih =>
    intro s ml r hr
    rw [expandLoop] at hr
    cases hf : f s.itr s.buffer s.cap ml with
    | undefined => simp [hf] at hr
    | ok x =>
      simp only [hf] at hr
      by_cases h0 : x.status = 0
      · simp only [h0, if_true, Option.some.injEq, Res.ok.injEq] at hr
        left; rw [← hr]
      · simp only [h0, if_false] at hr
        by_cases he : x.errno = some Errno.ENOSPC
        · simp only [he, if_true] at hr
          unfold __resize_buffer at hr
          split_ifs at hr with hz
          · right
            rcases ih _ _ _ hr with h1 | h1
            · rw [h1]; simp only; omega
            · exact h1
          · simp at hr
        · simp only [he, if_false, Option.some.injEq, Res.ok.injEq] at hr
          left; rw [← hr]

theorem scanBody_cap (h : Host) (g : oven_context) (fuel : Nat) (s r : Scan) (c : Char)
    (hr : scanBody h g fuel s c = some (.ok r)) : r.cap = s.cap ∨ 5120 ≤ r.cap := by
  unfold scanBody at hr
  split_ifs at hr with h1 h2 h3
  · exact expandLoop_cap _ _ _ _ _ hr
  · exact expandLoop_cap _ _ _ _ _ hr
  · simp only [Option.some.injEq, Res.ok.injEq] at hr
    left; rw [← hr]
  · simp at hr

theorem scan_cap (h : Host) (g : oven_context) :
    ∀ (fuel : Nat) (s r : Scan), scan h g fuel s = some (.ok r) →
      r.cap = s.cap ∨ 5120 ≤ r.cap := by
  intro fuel
  induction fuel with
  | zero => intro s r hr; simp [scan] at hr
  | succ n ih =>
    intro s r hr
    rw [scan] at hr
    cases hrest : s.itr.rest with
    | nil =>
      simp only [hrest, Option.some.injEq, Res.ok.injEq] at hr
      left; rw [hr]
    | cons c cs =>
      simp only [hrest] at hr
      cases hb : scanBody h g n s c with
      | none => simp [hb] at hr
      | some x =>
        cases x with
        | undefined => simp [hb] at hr
        | ok s' =>
          simp only [hb] at hr
          rcases ih _ _ hr with h1 | h1
          · rcases scanBody_cap h g n s s' c hb with h2 | h2
            · left; rw [h1, h2]
            · right; rw [h1]; exact h2
          · right; exact h1

/-- A step of a run that ends with the initial buffer was made with the
initial buffer. -/
theorem scan_cap_step (h : Host) (g : oven_context) (fuel : Nat) (s s' r : Scan) (c : Char)
    (hcap : s.cap = 4096) (hb : scanBody h g fuel s c = some (.ok s'))
    (hr : scan h g fuel s' = some (.ok r)) (hcap' : r.cap = 4096) : s'.cap = 4096 := by
  rcases scanBody_cap h g fuel s s' c hb with h2 | h2
  · rw [h2, hcap]
  · rcases scan_cap h g fuel s' r hr with h1 | h1
    · omega
    · omega

/-! ## The retry loop on a sigil that is closed -/

theorem expandLoop_deliver_run (f : Cursor → CStr → Nat → Nat → Res Expand) (n : Nat)
    (s : Scan) (ml : Nat) (value : Option CStr) (missing : Errno) (p' : Cursor)
    (hm : missing ≠ .ENOSPC)
    (hf : f s.itr s.buffer s.cap ml = deliver value missing p' s.buffer s.cap ml)
    (hfit : ∀ v, value = some v → v.length ≤ ml ∧ s.buffer.length + v.length ≤ s.cap ∧
      s.buffer.length + v.length ≤ INT_MAX) :
    expandLoop f (n + 1) s ml = some (.ok ⟨p', s.buffer ++ value.getD [], s.cap⟩) := by
  rw [expandLoop, hf]
  cases value with
  | none => simp [deliver, hm]
  | some v =>
    obtain ⟨h1, h2, h3⟩ := hfit v rfl
    have h1' : ¬ v.length > ml := by omega
    simp [deliver, h1', storeValue, h2, h3]

theorem expandLoop_deliver_inplace (f : Cursor → CStr → Nat → Nat → Res Expand) (n : Nat)
    (s s' : Scan) (ml : Nat) (value : Option CStr) (missing : Errno) (p' : Cursor)
    (hm : missing ≠ .ENOSPC)
    (hf : f s.itr s.buffer s.cap ml = deliver value missing p' s.buffer s.cap ml)
    (hcap : s.cap = 4096) (hr : expandLoop f (n + 1) s ml = some (.ok s'))
    (hcap' : s'.cap = 4096) :
    s' = ⟨p', s.buffer ++ value.getD [], 4096⟩ := by
  rw [expandLoop, hf] at hr
  cases value with
  | none =>
    simp only [deliver] at hr
    simp [hm] at hr
    rw [← hr, hcap]
    simp
  | some v =>
    simp only [deliver] at hr
    by_cases hv : v.length > ml
    · simp only [hv, if_true] at hr
      simp only [Int.reduceNeg, neg_eq_zero, one_ne_zero, if_false, if_true] at hr
      unfold __resize_buffer at hr
      split_ifs at hr with hz
      · simp only at hr
        rcases expandLoop_cap f n _ _ s' hr with h1 | h1
        · rw [hcap'] at h1; simp only at h1; omega
        · omega
      · simp at hr
    · simp only [hv, if_false] at hr
      unfold storeValue at hr
      split_ifs at hr with hz
      · simp at hr
        rw [← hr, hcap]
        simp
      · simp at hr


/-! ## One step of the loop, with text appended and with a longer buffer -/

theorem take3_eq (l : CStr) (a b c : Char) (hl : l.take 3 = [a, b, c]) :
    ∃ t, l = a :: b :: c :: t := by
  match l, hl with
  | [], hl => simp at hl
  | [_], hl => simp at hl
  | [_, _], hl => simp at hl
  | x :: y :: z :: t, hl =>
    simp only [List.take_succ_cons, List.take_zero, List.cons.injEq, and_true] at hl
    obtain ⟨rfl, rfl, rfl⟩ := hl
    exact ⟨t, rfl⟩

theorem take2_eq (l : CStr) (a b : Char) (hl : l.take 2 = [a, b]) :
    ∃ t, l = a :: b :: t := by
  match l, hl with
  | [], hl => simp at hl
  | [_], hl => simp at hl
  | x :: y :: t, hl =>
    simp only [List.take_succ_cons, List.take_zero, List.cons.injEq, and_true] at hl
    obtain ⟨rfl, rfl⟩ := hl
    exact ⟨t, rfl⟩

theorem advance_append (bf' rest b : CStr) (k : Nat) (hk : k ≤ rest.length) :
    Cursor.advance ⟨bf', rest ++ b⟩ k = ⟨(rest.take k).reverse ++ bf', rest.drop k ++ b⟩ := by
  unfold Cursor.advance
  simp only [List.take_append_of_le_length hk, List.drop_append_of_le_length hk]

theorem scanBody_transfer (h : Host) (g : oven_context)
    (henv : ∀ name, h.getenv (Char.ofNat 125 :: name) = none)
    (s s' : Scan) (c : Char) (cs : CStr) (n : Nat)
    (hrest : s.itr.rest = c :: cs) (hcap : s.cap = 4096)
    (hb : scanBody h g n s c = some (.ok s')) (hcap' : s'.cap = 4096) :
    s' = s ∨
    ∃ k out, k ≤ s.itr.rest.length ∧ s' = ⟨s.itr.advance k, s.buffer ++ out, 4096⟩ ∧
      ∀ (bf' b A : CStr) (m : Nat),
        (s.itr.rest.getLast? = some '$' → b.head? ≠ some '[') →
        A.length + s.buffer.length + out.length < 4096 →
        scanBody h g (m + 1) ⟨⟨bf', s.itr.rest ++ b⟩, A ++ s.buffer, 4096⟩ c =
          some (.ok ⟨⟨(s.itr.rest.take k).reverse ++ bf', s.itr.rest.drop k ++ b⟩,
            A ++ (s.buffer ++ out), 4096⟩) := by
  obtain ⟨⟨bf, rest⟩, buf, cap⟩ := s
  simp only at hrest hcap
  subst hcap
  by_cases h3 : rest.take 3 = ['$', '[', '[']
  · -- an internal variable
    obtain ⟨t, ht⟩ := take3_eq rest _ _ _ h3
    have hbody : scanBody h g n ⟨⟨bf, rest⟩, buf, 4096⟩ c =
        expandLoop (__expand_variable h g) n ⟨⟨bf, rest⟩, buf, 4096⟩ (spaceLeft buf.length) := by
      unfold scanBody; rw [if_pos h3]
    rw [hbody] at hb
    cases n with
    | zero => simp [expandLoop] at hb
    | succ n =>
      rcases expand_variable_cases h g bf t with ⟨body, tail, hs', hnot⟩ | hun
      · right
        have hf := expand_variable_closed h g bf body tail buf 4096 (spaceLeft buf.length) hnot
        rw [← hs', ← ht] at hf
        have hs := expandLoop_deliver_inplace _ n ⟨⟨bf, rest⟩, buf, 4096⟩ s' _ _ _ _
          (by decide) hf rfl hb hcap'
        have hk : body.length + 5 ≤ rest.length := by
          rw [ht, hs']; simp
        refine ⟨body.length + 5, ((trimmedName body).bind (__get_variable h g)).getD [], hk,
          hs, ?_⟩
        intro bf' b A m _ hfit
        have h3' : (rest ++ b).take 3 = ['$', '[', '['] := by
          rw [List.take_append_of_le_length (by omega)]; exact h3
        have hshape : rest ++ b = '$' :: '[' :: '[' :: (body ++ ']' :: ']' :: (tail ++ b)) := by
          rw [ht, hs']; simp
        have hf' := expand_variable_closed h g bf' body (tail ++ b) (A ++ buf) 4096
          (spaceLeft (A ++ buf).length) hnot
        rw [← hshape] at hf'
        have hrun := expandLoop_deliver_run (__expand_variable h g) m
          ⟨⟨bf', rest ++ b⟩, A ++ buf, 4096⟩ (spaceLeft (A ++ buf).length) _ _ _
          (by decide) hf' (by
            intro v hv
            simp only [hv, Option.getD_some] at hfit
            rw [spaceLeft_eq _ (by simp; omega)]
            simp only [List.length_append, INT_MAX]
            omega)
        unfold scanBody
        simp only
        rw [if_pos h3', hrun, advance_append _ _ _ _ hk]
        simp
      · left
        have hidle := expandLoop_idle (__expand_variable h g) n ⟨⟨bf, rest⟩, buf, 4096⟩
          (spaceLeft buf.length) Errno.EINVAL (by decide) (by rw [ht]; exact hun _ _ _)
        rw [hidle] at hb
        simp only [Option.some.injEq, Res.ok.injEq] at hb
        exact hb.symm
  · by_cases h2 : rest.take 2 = ['$', '[']
    · -- an environment variable
      obtain ⟨t, ht⟩ := take2_eq rest _ _ h2
      have hbody : scanBody h g n ⟨⟨bf, rest⟩, buf, 4096⟩ c =
          expandLoop (__expand_environment_variable h) n ⟨⟨bf, rest⟩, buf, 4096⟩
            (spaceLeft buf.length) := by
        unfold scanBody; rw [if_neg h3, if_pos h2]
      rw [hbody] at hb
      cases n with
      | zero => simp [expandLoop] at hb
      | succ n =>
        rcases expand_environment_cases h bf t with ⟨body, tail, hs', hnot⟩ | hun
        · right
          have hf := expand_environment_closed h bf body tail buf 4096 (spaceLeft buf.length)
            henv hnot
          rw [← hs', ← ht] at hf
          have hs := expandLoop_deliver_inplace _ n ⟨⟨bf, rest⟩, buf, 4096⟩ s' _ _ _ _
            (by decide) hf rfl hb hcap'
          have hk : body.length + 3 ≤ rest.length := by
            rw [ht, hs']; simp
          refine ⟨body.length + 3, ((trimmedName body).bind h.getenv).getD [], hk, hs, ?_⟩
          intro bf' b A m _ hfit
          have h3' : ¬ (rest ++ b).take 3 = ['$', '[', '['] := by
            rw [List.take_append_of_le_length (by omega)]; exact h3
          have h2' : (rest ++ b).take 2 = ['$', '['] := by
            rw [List.take_append_of_le_length (by omega)]; exact h2
          have hshape : rest ++ b = '$' :: '[' :: (body ++ Char.ofNat 125 :: (tail ++ b)) := by
            rw [ht, hs']; simp
          have hf' := expand_environment_closed h bf' body (tail ++ b) (A ++ buf) 4096
            (spaceLeft (A ++ buf).length) henv hnot
          rw [← hshape] at hf'
          have hrun := expandLoop_deliver_run (__expand_environment_variable h) m
            ⟨⟨bf', rest ++ b⟩, A ++ buf, 4096⟩ (spaceLeft (A ++ buf).length) _ _ _
            (by decide) hf' (by
              intro v hv
              simp only [hv, Option.getD_some] at hfit
              rw [spaceLeft_eq _ (by simp; omega)]
              simp only [List.length_append, INT_MAX]
              omega)
          unfold scanBody
          simp only
          rw [if_neg h3', if_pos h2', hrun, advance_append _ _ _ _ hk]
          simp
        · left
          have hidle := expandLoop_idle (__expand_environment_variable h) n
            ⟨⟨bf, rest⟩, buf, 4096⟩ (spaceLeft buf.length) Errno.ENOMEM (by decide)
            (by rw [ht]; exact hun _ _ _)
          rw [hidle] at hb
          simp only [Option.some.injEq, Res.ok.injEq] at hb
          exact hb.symm
    · -- a character that is copied
      right
      unfold scanBody at hb
      simp only at hb
      rw [if_neg h3, if_neg h2] at hb
      split_ifs at hb with hroom
      · simp only [Option.some.injEq, Res.ok.injEq] at hb
        refine ⟨1, [c], by rw [hrest]; simp, hb.symm, ?_⟩
        intro bf' b A m hsplit hfit
        simp only [List.length_singleton] at hfit
        have hne : ¬ ((rest ++ b).take 3 = ['$', '[', '[']) ∧
            ¬ ((rest ++ b).take 2 = ['$', '[']) := by
          subst hrest
          by_cases hc : c = '$'
          · subst hc
            cases cs with
            | nil =>
              have hb' := hsplit (by simp)
              cases b with
              | nil => simp
              | cons d b =>
                have hd : ¬ d = '[' := by simpa using hb'
                simp [hd]
            | cons d cs =>
              have hd : ¬ d = '[' := by simpa using h2
              simp [hd]
          · simp [hc]
        unfold scanBody
        simp only
        rw [if_neg hne.1, if_neg hne.2, if_pos (by simp [INT_MAX]; omega),
          advance_append _ _ _ _ (by rw [hrest]; simp)]
        simp
      · simp at hb


/-! ## A whole run, with text appended and with a longer buffer -/

theorem scan_inplace_grows (h : Host) (g : oven_context)
    (henv : ∀ name, h.getenv (Char.ofNat 125 :: name) = none) :
    ∀ (fuel : Nat) (s r : Scan), s.cap = 4096 → scan h g fuel s = some (.ok r) →
      r.cap = 4096 → s.buffer.length ≤ r.buffer.length := by
  intro fuel
  induction fuel with
  | zero => intro s r _ hr; simp [scan] at hr
  | succ n ih =>
    intro s r hcap hr hcap'
    rw [scan] at hr
    cases hrest : s.itr.rest with
    | nil =>
      simp only [hrest, Option.some.injEq, Res.ok.injEq] at hr
      rw [hr]
    | cons c cs =>
      simp only [hrest] at hr
      cases hb : scanBody h g n s c with
      | none => simp [hb] at hr
      | some x =>
        cases x with
        | undefined => simp [hb] at hr
        | ok s' =>
          simp only [hb] at hr
          have hs' := scan_cap_step h g n s s' r c hcap hb hr hcap'
          have hle := ih s' r hs' hr hcap'
          rcases scanBody_transfer h g henv s s' c cs n hrest hcap hb hs' with he | ⟨k, out, _, he, _⟩
          · rw [he] at hle; exact hle
          · rw [he] at hle
            simp only [List.length_append] at hle
            omega

theorem scan_transfer (h : Host) (g : oven_context)
    (henv : ∀ name, h.getenv (Char.ofNat 125 :: name) = none) :
    ∀ (fuel : Nat) (s r : Scan), s.cap = 4096 → scan h g fuel s = some (.ok r) →
      r.cap = 4096 →
      ∀ (bf' b A : CStr) (m : Nat) (res : Res Scan),
        (s.itr.rest.getLast? = some '$' → b.head? ≠ some '[') →
        A.length + r.buffer.length < 4096 →
        scan h g (m + 1) ⟨⟨s.itr.rest.reverse ++ bf', b⟩, A ++ r.buffer, 4096⟩ = some res →
        scan h g (fuel + m) ⟨⟨bf', s.itr.rest ++ b⟩, A ++ s.buffer, 4096⟩ = some res := by
  intro fuel
  induction fuel with
  | zero => intro s r _ hr; simp [scan] at hr
  | succ n ih =>
    intro s r hcap hr hcap' bf' b A m res hsplit hfit hcont
    have hr0 := hr
    rw [scan] at hr
    cases hrest : s.itr.rest with
    | nil =>
      simp only [hrest, Option.some.injEq, Res.ok.injEq] at hr
      rw [hrest, ← hr] at hcont
      simp only [List.reverse_nil, List.nil_append] at hcont ⊢
      exact scan_le h g (m + 1) (n + 1 + m) _ _ (by omega) hcont
    | cons c cs =>
      simp only [hrest] at hr
      cases hb : scanBody h g n s c with
      | none => simp [hb] at hr
      | some x =>
        cases x with
        | undefined => simp [hb] at hr
        | ok s' =>
          simp only [hb] at hr
          have hs' := scan_cap_step h g n s s' r c hcap hb hr hcap'
          rcases scanBody_transfer h g henv s s' c cs n hrest hcap hb hs' with
            he | ⟨k, out, hk, he, htr⟩
          · -- the step changed nothing
            rw [he] at hr
            have := ih s r hcap hr hcap' bf' b A m res hsplit hfit hcont
            rw [hrest] at this
            exact scan_le h g (n + m) (n + 1 + m) _ _ (by omega) this
          · have hgrow := scan_inplace_grows h g henv n s' r hs' hr hcap'
            have hs'rest : s'.itr.rest = s.itr.rest.drop k := by rw [he]; rfl
            have hs'buf : s'.buffer = s.buffer ++ out := by rw [he]
            have hsplit' : s'.itr.rest.getLast? = some '$' → b.head? ≠ some '[' := by
              intro hlast
              apply hsplit
              rw [hs'rest, List.getLast?_drop] at hlast
              split_ifs at hlast with hlen
              exact hlast
            have hrev : s'.itr.rest.reverse ++ ((s.itr.rest.take k).reverse ++ bf') =
                s.itr.rest.reverse ++ bf' := by
              rw [hs'rest, ← List.append_assoc, ← List.reverse_append, List.take_append_drop]
            have hcont' : scan h g (m + 1)
                ⟨⟨s'.itr.rest.reverse ++ ((s.itr.rest.take k).reverse ++ bf'), b⟩,
                  A ++ r.buffer, 4096⟩ = some res := by
              rw [hrev]; exact hcont
            have hih := ih s' r hs' hr hcap' ((s.itr.rest.take k).reverse ++ bf') b A m res
              hsplit' hfit hcont'
            have hn : 0 < n := by
              cases n with
              | zero => simp [scan] at hr
              | succ n => omega
            obtain ⟨j, hj⟩ : ∃ j, n + m = j + 1 := ⟨n + m - 1, by omega⟩
            have hstep := htr bf' b A j hsplit (by
              rw [hs'buf] at hgrow
              simp only [List.length_append] at hgrow
              omega)
            have hfuel : n + 1 + m = (j + 1) + 1 := by omega
            rw [hfuel, scan]
            rw [hrest, List.cons_append] at hstep
            simp only [List.cons_append]
            rw [hstep]
            simp only
            rw [hs'rest, hs'buf, hrest, hj] at hih
            exact hih

theorem leadingSpaces_append_head (a b : CStr) (hb : b.head? ≠ some ' ') :
    leadingSpaces (a ++ b) = leadingSpaces a := by
  cases b with
  | nil => simp
  | cons c b =>
    exact leadingSpaces_append_cons a b c (by simpa using hb)

theorem scanStart_append (a b : CStr) (hb : b.head? ≠ some ' ') :
    scanStart (a ++ b) =
      ⟨⟨(scanStart a).itr.before, (scanStart a).itr.rest ++ b⟩, [], 4096⟩ := by
  unfold scanStart
  rw [leadingSpaces_append_head a b hb, advance_append _ _ _ _ (leadingSpaces_le a)]
  simp [Cursor.advance]

theorem scanStart_trimmed (b : CStr) (hb : b.head? ≠ some ' ') :
    scanStart b = ⟨⟨[], b⟩, [], 4096⟩ := by
  have h0 : leadingSpaces b = 0 := by
    have := leadingSpaces_append_head [] b hb
    simpa [leadingSpaces] using this
  unfold scanStart
  rw [h0]
  simp [Cursor.advance]

theorem expandedInPlace_scan (h : Host) (g : oven_context) (fuel : Nat) (a A : CStr)
    (ha : expandedInPlace h g fuel a = some A) :
    ∃ r, scan h g fuel (scanStart a) = some (.ok r) ∧ r.cap = 4096 ∧ r.buffer = A ∧
      A.length < 4096 := by
  unfold expandedInPlace at ha
  cases hs : scan h g fuel (scanStart a) with
  | none => simp [hs] at ha
  | some x =>
    cases x with
    | undefined => simp [hs] at ha
    | ok r =>
      simp only [hs] at ha
      split_ifs at ha with hc
      simp only [Option.some.injEq] at ha
      exact ⟨r, rfl, hc.1, ha, ha ▸ hc.2⟩

theorem expandedInPlace_text (h : Host) (g : oven_context) (fuel : Nat) (a A : CStr)
    (ha : expandedInPlace h g fuel a = some A) :
    oven_preprocess_text h g fuel (some a) = some (.text A) := by
  obtain ⟨r, hr, hcap, hbuf, hlen⟩ := expandedInPlace_scan h g fuel a A ha
  simp only [oven_preprocess_text, hr, Option.map_some', finish, hcap, hbuf, hlen, if_true]

/-! ## Steps that are already checkpointed -/

theorem find_backend (l : List CStr) (name : CStr) (hmem : name ∈ l) :
    l.find? (· = name) = some name := by
  induction l with
  | nil => simp at hmem
  | cons x l ih =>
    by_cases hx : x = name
    · simp [List.find?, hx]
    · have hmem' : name ∈ l := by
        rcases List.mem_cons.mp hmem with h1 | h1
        · exact absurd h1.symm hx
        · exact h1
      simp [List.find?, hx, ih hmem']

theorem oven_configure_skip (h : Host) (g : oven_context) (c : Collaborators) (fuel : Nat)
    (w : OvenState) (o : oven_generate_options) (hsys : o.system ∈ g_genbackends)
    (hmem : o.name ∈ w.checkpoint) :
    oven_configure h g c fuel (some o) w = some (.ok ⟨0, none, w⟩) := by
  simp [oven_configure, __get_generate_backend, find_backend _ _ hsys,
    oven_checkpoint_contains, hmem]

theorem oven_build_skip (h : Host) (g : oven_context) (c : Collaborators) (fuel : Nat)
    (w : OvenState) (o : oven_build_options) (hsys : o.system ∈ g_buildbackends)
    (hmem : o.name ∈ w.checkpoint) :
    oven_build h g c fuel (some o) w = some (.ok ⟨0, none, w⟩) := by
  simp [oven_build, __get_build_backend, find_backend _ _ hsys,
    oven_checkpoint_contains, hmem]

theorem oven_script_skip (h : Host) (g : oven_context) (c : Collaborators) (fuel : Nat)
    (w : OvenState) (o : oven_script_options) (hscript : o.script ≠ none)
    (hmem : o.name ∈ w.checkpoint) :
    oven_script h g c fuel (some o) w = some (.ok ⟨0, none, w⟩) := by
  cases hs : o.script with
  | none => exact absurd hs hscript
  | some script => simp [oven_script, hs, oven_checkpoint_contains, hmem]

theorem find_backend_mem (l : List CStr) (name backend : CStr)
    (hfind : l.find? (· = name) = some backend) : name ∈ l := by
  have h1 := List.find?_some hfind
  have h2 := List.mem_of_find?_eq_some hfind
  simp only [decide_eq_true_eq] at h1
  rw [← h1]
  exact h2

theorem oven_configure_records (h : Host) (g : oven_context) (c : Collaborators) (fuel : Nat)
    (w : OvenState) (o : oven_generate_options) (r : StepResult)
    (hrun : oven_configure h g c fuel (some o) w = some (.ok r)) (hstatus : r.status = 0)
    (hgen : ∀ s d, c.generate s d = 0) (hwrite : c.checkpoint_write = 0) :
    o.system ∈ g_genbackends ∧ o.name ∈ r.state.checkpoint := by
  unfold oven_configure at hrun
  simp only at hrun
  cases hb : __get_generate_backend o.system with
  | none =>
    simp only [hb, Option.some.injEq, Res.ok.injEq] at hrun
    rw [← hrun] at hstatus; simp at hstatus
  | some backend =>
    refine ⟨find_backend_mem _ _ _ hb, ?_⟩
    simp only [hb] at hrun
    by_cases hc : oven_checkpoint_contains w o.name = true
    · simp only [hc, if_true, Option.some.injEq, Res.ok.injEq] at hrun
      rw [← hrun]
      simpa [oven_checkpoint_contains] using hc
    · simp only [hc] at hrun
      cases hi : __initialize_backend_data h g c fuel o.profile o.arguments o.environment with
      | none => simp [hi] at hrun
      | some x =>
        cases x with
        | undefined => simp [hi] at hrun
        | ok sd =>
          obtain ⟨status, data⟩ := sd
          simp only [hi] at hrun
          by_cases hs : status = 0
          · by_cases he : c.scratch_enter = 0
            · simp [hs, he, hgen, oven_checkpoint_create, hwrite, OvenState.record] at hrun
              rw [← hrun]
              simp
            · simp [hs, he] at hrun
              rw [← hrun] at hstatus
              exact absurd hstatus he
          · simp [hs] at hrun
            rw [← hrun] at hstatus
            exact absurd hstatus hs

theorem oven_build_records (h : Host) (g : oven_context) (c : Collaborators) (fuel : Nat)
    (w : OvenState) (o : oven_build_options) (r : StepResult)
    (hrun : oven_build h g c fuel (some o) w = some (.ok r)) (hstatus : r.status = 0)
    (hbuild : ∀ s d, c.build s d = 0) (hwrite : c.checkpoint_write = 0) :
    o.system ∈ g_buildbackends ∧ o.name ∈ r.state.checkpoint := by
  unfold oven_build at hrun
  simp only at hrun
  cases hb : __get_build_backend o.system with
  | none =>
    simp only [hb, Option.some.injEq, Res.ok.injEq] at hrun
    rw [← hrun] at hstatus; simp at hstatus
  | some backend =>
    refine ⟨find_backend_mem _ _ _ hb, ?_⟩
    simp only [hb] at hrun
    by_cases hc : oven_checkpoint_contains w o.name = true
    · simp only [hc, if_true, Option.some.injEq, Res.ok.injEq] at hrun
      rw [← hrun]
      simpa [oven_checkpoint_contains] using hc
    · simp only [hc] at hrun
      cases hi : __initialize_backend_data h g c fuel o.profile o.arguments o.environment with
      | none => simp [hi] at hrun
      | some x =>
        cases x with
        | undefined => simp [hi] at hrun
        | ok sd =>
          obtain ⟨status, data⟩ := sd
          simp only [hi] at hrun
          by_cases hs : status = 0
          · by_cases he : c.scratch_enter = 0
            · simp [hs, he, hbuild, oven_checkpoint_create, hwrite, OvenState.record] at hrun
              rw [← hrun]
              simp
            · simp [hs, he] at hrun
              rw [← hrun] at hstatus
              exact absurd hstatus he
          · simp [hs] at hrun
            rw [← hrun] at hstatus
            exact absurd hstatus hs

theorem oven_script_records (h : Host) (g : oven_context) (c : Collaborators) (fuel : Nat)
    (w : OvenState) (o : oven_script_options) (r : StepResult)
    (hrun : oven_script h g c fuel (some o) w = some (.ok r)) (hstatus : r.status = 0) :
    o.script ≠ none ∧ o.name ∈ r.state.checkpoint := by
  unfold oven_script at hrun
  simp only at hrun
  cases hsc : o.script with
  | none =>
    simp only [hsc, Option.some.injEq, Res.ok.injEq] at hrun
    rw [← hrun] at hstatus; simp at hstatus
  | some script =>
    refine ⟨by simp, ?_⟩
    simp only [hsc] at hrun
    by_cases hc : oven_checkpoint_contains w o.name = true
    · simp only [hc, if_true, Option.some.injEq, Res.ok.injEq] at hrun
      rw [← hrun]
      simpa [oven_checkpoint_contains] using hc
    · simp only [hc] at hrun
      cases hp : oven_preprocess_text h g fuel (some script) with
      | none => simp [hp] at hrun
      | some x =>
        cases x with
        | undefined => simp [hp] at hrun
        | null =>
          simp [hp] at hrun
          rw [← hrun] at hstatus; simp at hstatus
        | text t =>
          simp only [hp] at hrun
          by_cases he : c.scratch_enter = 0
          · by_cases hl : c.scratch_leave = 0
            · by_cases hw : c.checkpoint_write = 0
              · simp [he, hl, oven_checkpoint_create, hw, OvenState.record] at hrun
                rw [← hrun]
                simp
              · simp [he, hl, oven_checkpoint_create, hw, OvenState.record] at hrun
                rw [← hrun] at hstatus
                exact absurd hstatus hw
            · simp [he, hl] at hrun
              rw [← hrun] at hstatus
              exact absurd hstatus hl
          · simp [he] at hrun
            rw [← hrun] at hstatus
            exact absurd hstatus he

/-! ## The claims -/

/-- Claim C1, which the code breaks: a step whose backend or script exits with
status 1 is reported to the caller with status 0 by `oven_configure`,
`oven_build` and `oven_script` alike, because the status of `scratch_leave`
replaces the one of the backend. -/
theorem C1_failed_backend_is_reported_as_success :
    failingTools.generate "cmake".toList default = 1 ∧
    failingTools.build "make".toList default = 1 ∧
    failingTools.platform_script "make".toList = 1 ∧
    returned (oven_configure demoHost demoOven failingTools 8 (some confStep) ⟨[], []⟩) =
      some 0 ∧
    returned (oven_build demoHost demoOven failingTools 8 (some buildStep) ⟨[], []⟩) =
      some 0 ∧
    returned (oven_script demoHost demoOven failingTools 8 (some postStep) ⟨[], []⟩) =
      some 0 := by
  decide

/-- Claim C2, which the code breaks in `oven_script`: after a script that exits
with status 1 the checkpoint of the step is created all the same, once
`scratch_leave` has succeeded. -/
theorem C2_failed_script_gets_a_checkpoint :
    failingTools.platform_script "make".toList = 1 ∧
    (stateAfter (oven_script demoHost demoOven failingTools 8 (some postStep) ⟨[], []⟩)).map
        (fun w => (w.checkpoint, w.log)) =
      some (["post".toList],
        [.scratch_enter, .platform_script "make".toList, .scratch_leave,
          .oven_checkpoint_create "post".toList]) := by
  decide

/-- Claim C3 as stated fails: with the step name `post` in the checkpoint file,
`oven_script` called without a script text returns -1 with `EINVAL`. -/
theorem C3_script_without_text_is_rejected :
    "post".toList ∈ (⟨["post".toList], []⟩ : OvenState).checkpoint ∧
    oven_script demoHost demoOven failingTools 8 (some emptyStep) ⟨["post".toList], []⟩ =
      some (.ok ⟨-1, some .EINVAL, ⟨["post".toList], []⟩⟩) := by
  decide

/-- Claim C3, amended: for a step name that is in the checkpoint file (with a
known backend name for configure and build, and a script text that is present
for script), `oven_configure`, `oven_build` and `oven_script` return 0 and leave
the checkpoint file and the log of calls as they were, so nothing is entered or
invoked.  Hence after a run that returned 0 with its backend and its checkpoint
write successful (for a script: after a run that returned 0), a second
invocation of the step returns 0 and does nothing, whatever the collaborators
would answer. -/
theorem C3_checkpointed_step_is_skipped :
    (∀ (h : Host) (g : oven_context) (c : Collaborators) (fuel : Nat) (w : OvenState)
        (o : oven_generate_options), o.system ∈ g_genbackends → o.name ∈ w.checkpoint →
        oven_configure h g c fuel (some o) w = some (.ok ⟨0, none, w⟩)) ∧
    (∀ (h : Host) (g : oven_context) (c : Collaborators) (fuel : Nat) (w : OvenState)
        (o : oven_build_options), o.system ∈ g_buildbackends → o.name ∈ w.checkpoint →
        oven_build h g c fuel (some o) w = some (.ok ⟨0, none, w⟩)) ∧
    (∀ (h : Host) (g : oven_context) (c : Collaborators) (fuel : Nat) (w : OvenState)
        (o : oven_script_options), o.script ≠ none → o.name ∈ w.checkpoint →
        oven_script h g c fuel (some o) w = some (.ok ⟨0, none, w⟩)) ∧
    (∀ (h : Host) (g : oven_context) (c c' : Collaborators) (fuel fuel' : Nat) (w : OvenState)
        (o : oven_generate_options) (r : StepResult),
        oven_configure h g c fuel (some o) w = some (.ok r) → r.status = 0 →
        (∀ s d, c.generate s d = 0) → c.checkpoint_write = 0 →
        oven_configure h g c' fuel' (some o) r.state = some (.ok ⟨0, none, r.state⟩)) ∧
    (∀ (h : Host) (g : oven_context) (c c' : Collaborators) (fuel fuel' : Nat) (w : OvenState)
        (o : oven_build_options) (r : StepResult),
        oven_build h g c fuel (some o) w = some (.ok r) → r.status = 0 →
        (∀ s d, c.build s d = 0) → c.checkpoint_write = 0 →
        oven_build h g c' fuel' (some o) r.state = some (.ok ⟨0, none, r.state⟩)) ∧
    (∀ (h : Host) (g : oven_context) (c c' : Collaborators) (fuel fuel' : Nat) (w : OvenState)
        (o : oven_script_options) (r : StepResult),
        oven_script h g c fuel (some o) w = some (.ok r) → r.status = 0 →
        oven_script h g c' fuel' (some o) r.state = some (.ok ⟨0, none, r.state⟩)) := by
  refine ⟨?_, ?_, ?_, ?_, ?_, ?_⟩
  · intro h g c fuel w o hsys hmem
    exact oven_configure_skip h g c fuel w o hsys hmem
  · intro h g c fuel w o hsys hmem
    exact oven_build_skip h g c fuel w o hsys hmem
  · intro h g c fuel w o hscript hmem
    exact oven_script_skip h g c fuel w o hscript hmem
  · intro h g c c' fuel fuel' w o r hrun hstatus hgen hwrite
    obtain ⟨hsys, hmem⟩ := oven_configure_records h g c fuel w o r hrun hstatus hgen hwrite
    exact oven_configure_skip h g c' fuel' r.state o hsys hmem
  · intro h g c c' fuel fuel' w o r hrun hstatus hbuild hwrite
    obtain ⟨hsys, hmem⟩ := oven_build_records h g c fuel w o r hrun hstatus hbuild hwrite
    exact oven_build_skip h g c' fuel' r.state o hsys hmem
  · intro h g c c' fuel fuel' w o r hrun hstatus
    obtain ⟨hscript, hmem⟩ := oven_script_records h g c fuel w o r hrun hstatus
    exact oven_script_skip h g c' fuel' r.state o hscript hmem

/-- Claim C3 at the recipe `demo`: with `conf`, `build` and `post` in the
checkpoint file the three steps are skipped even though every tool would
fail. -/
theorem C3_checkpointed_step_is_skipped_witness :
    oven_configure demoHost demoOven failingTools 0 (some confStep)
        ⟨["conf".toList, "build".toList, "post".toList], []⟩ =
      some (.ok ⟨0, none, ⟨["conf".toList, "build".toList, "post".toList], []⟩⟩) ∧
    oven_build demoHost demoOven failingTools 0 (some buildStep)
        ⟨["conf".toList, "build".toList, "post".toList], []⟩ =
      some (.ok ⟨0, none, ⟨["conf".toList, "build".toList, "post".toList], []⟩⟩) ∧
    oven_script demoHost demoOven failingTools 0 (some postStep)
        ⟨["conf".toList, "build".toList, "post".toList], []⟩ =
      some (.ok ⟨0, none, ⟨["conf".toList, "build".toList, "post".toList], []⟩⟩) :=
  ⟨C3_checkpointed_step_is_skipped.1 demoHost demoOven failingTools 0 _ confStep
      (by decide) (by decide),
    C3_checkpointed_step_is_skipped.2.1 demoHost demoOven failingTools 0 _ buildStep
      (by decide) (by decide),
    C3_checkpointed_step_is_skipped.2.2.1 demoHost demoOven failingTools 0 _ postStep
      (by decide) (by decide)⟩

/-- Claim C4, which the code breaks: on the example of the specification, with
a confined recipe and `CFLAGS` unset, `oven_preprocess_text` expands the
internal variable, reaches `$[CFLAGS]`, finds no closing brace and starts over
on the same sigil: no amount of fuel makes it return. -/
theorem C4_spec_example_never_returns (fuel : Nat) :
    demoHost.getenv "CFLAGS".toList = none ∧ demoOven.recipe.scratch.confined = true ∧
    oven_preprocess_text demoHost demoOven fuel
      (some "--prefix=$[[INSTALL_PREFIX]] CFLAGS=$[CFLAGS]".toList) = none := by
  refine ⟨rfl, rfl, ?_⟩
  have hstuck : ∀ k, scan demoHost demoOven k stuckAtCflags = none :=
    scan_stuck demoHost demoOven stuckAtCflags '$' "[CFLAGS]".toList rfl (fun n => by
      have hbody : scanBody demoHost demoOven (n + 1) stuckAtCflags '$' =
          expandLoop (__expand_environment_variable demoHost) (n + 1) stuckAtCflags
            (spaceLeft stuckAtCflags.buffer.length) := rfl
      rw [hbody]
      exact expandLoop_idle _ _ _ _ Errno.ENOMEM (by decide) rfl)
  have hreach : scan demoHost demoOven (fuel + 18)
      (scanStart "--prefix=$[[INSTALL_PREFIX]] CFLAGS=$[CFLAGS]".toList) =
      scan demoHost demoOven fuel stuckAtCflags := rfl
  cases hs : scan demoHost demoOven fuel
      (scanStart "--prefix=$[[INSTALL_PREFIX]] CFLAGS=$[CFLAGS]".toList) with
  | none =>
    show Option.map finish (scan demoHost demoOven fuel _) = none
    rw [hs]; rfl
  | some r =>
    have hadd := scan_add demoHost demoOven fuel 18 _ r hs
    rw [hreach, hstuck] at hadd
    cases hadd

/-- Claim C5, which the code breaks: on a text with an unclosed sigil, `$[[`
without `]]` or `$[` without a closing character, `oven_preprocess_text` does
not fail with `EINVAL`; it starts over on the same sigil and no amount of fuel
makes it return. -/
theorem C5_unclosed_sigil_never_returns (h : Host) (g : oven_context) (fuel : Nat) :
    oven_preprocess_text h g fuel (some "$[[INSTALL_PREFIX".toList) = none ∧
    oven_preprocess_text h g fuel (some "$[HOME".toList) = none := by
  constructor
  · have hs := scan_stuck h g (scanStart "$[[INSTALL_PREFIX".toList) '$'
      "[[INSTALL_PREFIX".toList rfl (fun n => by
        have hbody : scanBody h g (n + 1) (scanStart "$[[INSTALL_PREFIX".toList) '$' =
            expandLoop (__expand_variable h g) (n + 1) (scanStart "$[[INSTALL_PREFIX".toList)
              (spaceLeft 0) := rfl
        rw [hbody]
        exact expandLoop_idle _ _ _ _ Errno.EINVAL (by decide) rfl) fuel
    show Option.map finish (scan h g fuel _) = none
    rw [hs]; rfl
  · have hs := scan_stuck h g (scanStart "$[HOME".toList) '$' "[HOME".toList rfl (fun n => by
        have hbody : scanBody h g (n + 1) (scanStart "$[HOME".toList) '$' =
            expandLoop (__expand_environment_variable h) (n + 1) (scanStart "$[HOME".toList)
              (spaceLeft 0) := rfl
        rw [hbody]
        exact expandLoop_idle _ _ _ _ Errno.ENOMEM (by decide) rfl) fuel
    show Option.map finish (scan h g fuel _) = none
    rw [hs]; rfl

/-- Claim C6, which the code breaks: for the unknown internal name `FOO` the
call of `__expand_variable` reports `ENOENT`, yet `oven_preprocess_text` goes
on and returns the text with the sigil left out. -/
theorem C6_unknown_internal_name_is_dropped (h : Host) (g : oven_context) :
    __get_variable h g "FOO".toList = none ∧
    (match __expand_variable h g ⟨"a".toList, "$[[FOO]]b".toList⟩ "a".toList 4096 4095 with
      | .ok r => (r.status, r.errno) = (-1, some Errno.ENOENT)
      | .undefined => False) ∧
    oven_preprocess_text h g 8 (some "a$[[FOO]]b".toList) = some (.text "ab".toList) :=
  ⟨rfl, rfl, rfl⟩

/-- Claim C7 as stated fails: no sigil occurs in `x` or in ` y`, yet the
expansion of their concatenation keeps the space that the expansion of ` y`
alone trims. -/
theorem C7_leading_space_breaks_concatenation :
    oven_preprocess_text demoHost demoOven 8 (some ("x".toList ++ " y".toList)) =
      some (.text "x y".toList) ∧
    oven_preprocess_text demoHost demoOven 8 (some "x".toList) = some (.text "x".toList) ∧
    oven_preprocess_text demoHost demoOven 8 (some " y".toList) = some (.text "y".toList) ∧
    "x y".toList ≠ "x".toList ++ "y".toList := by
  decide

/-- Claim C7, amended: let `b` not begin with a space, let no sigil be split
(the expansions of `a` and of `b` each run to the end, and `a` does not end in
`$` before a `b` that begins with `[`), let both expansions stay in the initial
buffer and their results together be shorter than its 4096 bytes, and let no
environment variable have a name that begins with the closing brace.  Then the
expansion of `a ++ b` returns the expansion of `a` followed by that of `b`. -/
theorem C7_expansion_of_concatenation (h : Host) (g : oven_context) (a b A B : CStr)
    (n m : Nat)
    (henv : ∀ name, h.getenv (Char.ofNat 125 :: name) = none)
    (hspace : b.head? ≠ some ' ')
    (hsplit : a.getLast? = some '$' → b.head? ≠ some '[')
    (ha : expandedInPlace h g n a = some A)
    (hb : expandedInPlace h g m b = some B)
    (hfit : A.length + B.length < 4096) :
    oven_preprocess_text h g n (some a) = some (.text A) ∧
    oven_preprocess_text h g m (some b) = some (.text B) ∧
    oven_preprocess_text h g (n + m) (some (a ++ b)) = some (.text (A ++ B)) := by
  refine ⟨expandedInPlace_text h g n a A ha, expandedInPlace_text h g m b B hb, ?_⟩
  obtain ⟨ra, hra, hcapa, hbufa, hlena⟩ := expandedInPlace_scan h g n a A ha
  obtain ⟨rb, hrb, hcapb, hbufb, _⟩ := expandedInPlace_scan h g m b B hb
  rw [scanStart_trimmed b hspace] at hrb
  -- the run over b, started behind a with the text of a in the buffer
  have h1 := scan_transfer h g henv m _ rb rfl hrb hcapb
    ((scanStart a).itr.rest.reverse ++ (scanStart a).itr.before) [] A 0
    (.ok ⟨⟨b.reverse ++ ((scanStart a).itr.rest.reverse ++ (scanStart a).itr.before), []⟩,
      A ++ B, 4096⟩)
    (by simp) (by rw [hbufb]; exact hfit) (by rw [hbufb]; simp [scan])
  simp only [List.append_nil, Nat.add_zero] at h1
  have hm : 0 < m := by
    cases m with
    | zero => simp [scan] at hrb
    | succ m => omega
  obtain ⟨j, rfl⟩ : ∃ j, m = j + 1 := ⟨m - 1, by omega⟩
  -- the run over a, with b appended
  have h2 := scan_transfer h g henv n (scanStart a) ra rfl hra hcapa
    (scanStart a).itr.before b [] j _
    (by
      intro hlast
      apply hsplit
      have : (scanStart a).itr.rest = a.drop (leadingSpaces a) := rfl
      rw [this, List.getLast?_drop] at hlast
      split_ifs at hlast with hlen
      exact hlast)
    (by rw [hbufa]; simpa using hlena)
    (by rw [hbufa]; simpa using h1)
  have h3 := scan_le h g (n + j) (n + (j + 1)) _ _ (by omega) h2
  simp only [oven_preprocess_text, scanStart_append a b hspace]
  have h4 : (scanStart a).buffer = [] := rfl
  rw [h4] at h3
  simp only [List.append_nil] at h3
  rw [h3]
  simp only [Option.map_some', finish]
  rw [if_pos (by simp only [List.length_append]; omega)]

/-- Claim C7 at the recipe `demo`: the expansion of
`--prefix=$[[ INSTALL_PREFIX ]]` followed by `/bin`. -/
theorem C7_expansion_of_concatenation_witness :
    oven_preprocess_text demoHost demoOven (16 + 8)
        (some ("--prefix=$[[ INSTALL_PREFIX ]]".toList ++ "/bin".toList)) =
      some (.text ("--prefix=/chef/install".toList ++ "/bin".toList)) :=
  (C7_expansion_of_concatenation demoHost demoOven "--prefix=$[[ INSTALL_PREFIX ]]".toList
    "/bin".toList "--prefix=/chef/install".toList "/bin".toList 16 8 (fun _ => rfl)
    (by decide) (by decide) (by decide) (by decide) (by decide)).2.2

/-- Claim C8, which the code breaks: for the toolchain `gnu/gcc` the directory
`utensils/gcc` is created, but the directory handed to `ingredient_unpack` is
the prep directory itself, which is neither `utensils/gcc` nor `prep/gcc`. -/
theorem C8_toolchain_is_unpacked_into_prep :
    (__fridge_unpack demoFridge toolchainArchive gccPack).log =
      [.ingredient_open "/w/.fridge/storage/gcc.pack".toList,
        .platform_mkdir "/w/.fridge/utensils/gcc".toList,
        .ingredient_unpack "/w/.fridge/prep".toList,
        .ingredient_close] ∧
    strpathcombine demoFridge.utensils_path gccPack.package = "/w/.fridge/utensils/gcc".toList ∧
    strpathcombine demoFridge.prep_path gccPack.package = "/w/.fridge/prep/gcc".toList := by
  decide

/-- Claim C9: for a pack that is marked unpacked `__fridge_unpack` returns 0,
makes no call (no archive opened, no directory created, nothing unpacked) and
leaves the pack as it is; and once a call has returned 0 the pack is marked, so
every later call does nothing. -/
theorem C9_unpacked_pack_is_left_alone (f : fridge_context) (a a' : Archive)
    (pack : fridge_inventory_pack) :
    (pack.unpacked = true → __fridge_unpack f a pack = ⟨0, pack, []⟩) ∧
    ((__fridge_unpack f a pack).status = 0 →
      __fridge_unpack f a' (__fridge_unpack f a pack).pack =
        ⟨0, (__fridge_unpack f a pack).pack, []⟩) := by
  have hskip : ∀ (x : Archive) (p : fridge_inventory_pack), p.unpacked = true →
      __fridge_unpack f x p = ⟨0, p, []⟩ := by
    intro x p hp
    simp [__fridge_unpack, inventory_pack_is_unpacked, hp]
  refine ⟨hskip a pack, ?_⟩
  intro hstatus
  apply hskip
  cases hu : pack.unpacked with
  | true => rw [hskip a pack hu]; exact hu
  | false =>
    revert hstatus
    simp only [__fridge_unpack, inventory_pack_is_unpacked, hu, inventory_pack_path,
      inventory_pack_name, __get_unpack_path, inventory_pack_set_unpacked]
    cases ho : a.ingredient_open pack.path with
    | none => simp
    | some i =>
      by_cases hm : a.platform_mkdir (if i.type = .CHEF_PACKAGE_TYPE_TOOLCHAIN
            then strpathcombine f.utensils_path pack.package
            else strpathcombine f.prep_path pack.package) = 0
      · by_cases hx : a.ingredient_unpack i f.prep_path = 0
        · simp [hm, hx]
        · simp [hm, hx]
      · simp [hm]

/-- Claim C9 at the toolchain `gnu/gcc`, marked unpacked. -/
theorem C9_unpacked_pack_is_left_alone_witness :
    __fridge_unpack demoFridge toolchainArchive (inventory_pack_set_unpacked gccPack) =
      ⟨0, inventory_pack_set_unpacked gccPack, []⟩ :=
  (C9_unpacked_pack_is_left_alone demoFridge toolchainArchive toolchainArchive
    (inventory_pack_set_unpacked gccPack)).1 rfl

/-- Claim C10: for a pack that is not yet marked, `__fridge_unpack` marks it
unpacked exactly when the archive opens, the unpack path is created and
`ingredient_unpack` succeeds; when one of them fails it returns -1 and the pack
is still unmarked. -/
theorem C10_marked_iff_all_succeed (f : fridge_context) (a : Archive)
    (pack : fridge_inventory_pack) (hp : pack.unpacked = false) :
    ((__fridge_unpack f a pack).pack.unpacked = true ↔
      ∃ i, a.ingredient_open pack.path = some i ∧
        a.platform_mkdir (if i.type = .CHEF_PACKAGE_TYPE_TOOLCHAIN
          then strpathcombine f.utensils_path pack.package
          else strpathcombine f.prep_path pack.package) = 0 ∧
        a.ingredient_unpack i f.prep_path = 0) ∧
    ((¬ ∃ i, a.ingredient_open pack.path = some i ∧
        a.platform_mkdir (if i.type = .CHEF_PACKAGE_TYPE_TOOLCHAIN
          then strpathcombine f.utensils_path pack.package
          else strpathcombine f.prep_path pack.package) = 0 ∧
        a.ingredient_unpack i f.prep_path = 0) →
      (__fridge_unpack f a pack).status = -1 ∧
        (__fridge_unpack f a pack).pack.unpacked = false) := by
  simp only [__fridge_unpack, inventory_pack_is_unpacked, hp, inventory_pack_path,
    inventory_pack_name, __get_unpack_path, inventory_pack_set_unpacked]
  cases ho : a.ingredient_open pack.path with
  | none => simp [hp]
  | some i =>
    by_cases hm : a.platform_mkdir (if i.type = .CHEF_PACKAGE_TYPE_TOOLCHAIN
          then strpathcombine f.utensils_path pack.package
          else strpathcombine f.prep_path pack.package) = 0
    · by_cases hu : a.ingredient_unpack i f.prep_path = 0
      · simp [hm, hu]
      · simp [hm, hu, hp]
    · simp [hm, hp]

/-- Claim C10 at the toolchain `gnu/gcc` with a codec that never fails: the
pack ends up marked. -/
theorem C10_marked_iff_all_succeed_witness :
    (__fridge_unpack demoFridge toolchainArchive gccPack).pack.unpacked = true :=
  (C10_marked_iff_all_succeed demoFridge toolchainArchive gccPack rfl).1.2
    ⟨{ type := .CHEF_PACKAGE_TYPE_TOOLCHAIN }, rfl, rfl, rfl⟩

/-! ## The setup hash -/

theorem hash_step (h b : Nat) :
    ((h * 32 % UINT_MODULUS + h) % UINT_MODULUS + b) % UINT_MODULUS = (h * 33 + b) % 2 ^ 32 := by
  unfold UINT_MODULUS
  norm_num
  omega

theorem hash_eq_foldl (data : CStr) (h : Nat) :
    __hash h data = (data.map byte).foldl (fun h b => (h * 33 + b) % 2 ^ 32) h := by
  unfold __hash
  simp only [hash_step, List.foldl_map]

theorem hash_names_eq_foldl {α : Type} (name : α → CStr) (l : List α) : ∀ h : Nat,
    l.foldl (fun h i => __hash h (name i)) h =
      (((l.map name).flatten).map byte).foldl (fun h b => (h * 33 + b) % 2 ^ 32) h := by
  induction l with
  | nil => intro h; rfl
  | cons i l ih =>
    intro h
    simp only [List.foldl_cons, List.map_cons, List.flatten_cons, List.map_append,
      List.foldl_append]
    rw [ih, hash_eq_foldl]

theorem setup_hash_eq_djb2 (options : kitchen_options) :
    __setup_hash options = djb2 (setupHashInput options) := by
  unfold __setup_hash djb2 setupHashInput
  simp only [List.map_append, List.foldl_append]
  rw [hash_eq_foldl]
  cases options.ingredients with
  | none =>
    cases options.imports with
    | none => simp
    | some imports => simp [hash_names_eq_foldl]
  | some ingredients =>
    cases options.imports with
    | none => simp [hash_names_eq_foldl]
    | some imports => simp [hash_names_eq_foldl]

theorem djb2_lt (bytes : List Nat) : djb2 bytes < 2 ^ 32 := by
  unfold djb2
  induction bytes using List.reverseRecOn with
  | nil => norm_num
  | append_singleton l b _ =>
    rw [List.foldl_append]
    simp only [List.foldl_cons, List.foldl_nil]
    exact Nat.mod_lt _ (by norm_num)

/-! ## Backend names -/

theorem find_backend_none (l : List CStr) (name : CStr) (hmem : name ∉ l) :
    l.find? (· = name) = none := by
  induction l with
  | nil => rfl
  | cons x l ih =>
    simp only [List.mem_cons, not_or] at hmem
    have hx : ¬ x = name := fun h => hmem.1 h.symm
    simp [List.find?, hx, ih hmem.2]

theorem oven_configure_errno (h : Host) (g : oven_context) (c : Collaborators) (fuel : Nat)
    (w : OvenState) (o : oven_generate_options) (r : StepResult)
    (hsys : o.system ∈ g_genbackends)
    (hrun : oven_configure h g c fuel (some o) w = some (.ok r)) : r.errno = none := by
  unfold oven_configure at hrun
  simp only [__get_generate_backend, find_backend _ _ hsys] at hrun
  by_cases hc : oven_checkpoint_contains w o.name = true
  · simp only [hc, if_true, Option.some.injEq, Res.ok.injEq] at hrun
    rw [← hrun]
  · simp only [hc] at hrun
    cases hi : __initialize_backend_data h g c fuel o.profile o.arguments o.environment with
    | none => simp [hi] at hrun
    | some x =>
      cases x with
      | undefined => simp [hi] at hrun
      | ok sd =>
        obtain ⟨status, data⟩ := sd
        simp only [hi] at hrun
        split_ifs at hrun <;>
          (simp only [Option.some.injEq, Res.ok.injEq] at hrun; rw [← hrun])

theorem oven_build_errno (h : Host) (g : oven_context) (c : Collaborators) (fuel : Nat)
    (w : OvenState) (o : oven_build_options) (r : StepResult)
    (hsys : o.system ∈ g_buildbackends)
    (hrun : oven_build h g c fuel (some o) w = some (.ok r)) : r.errno = none := by
  unfold oven_build at hrun
  simp only [__get_build_backend, find_backend _ _ hsys] at hrun
  by_cases hc : oven_checkpoint_contains w o.name = true
  · simp only [hc, if_true, Option.some.injEq, Res.ok.injEq] at hrun
    rw [← hrun]
  · simp only [hc] at hrun
    cases hi : __initialize_backend_data h g c fuel o.profile o.arguments o.environment with
    | none => simp [hi] at hrun
    | some x =>
      cases x with
      | undefined => simp [hi] at hrun
      | ok sd =>
        obtain ⟨status, data⟩ := sd
        simp only [hi] at hrun
        split_ifs at hrun <;>
          (simp only [Option.some.injEq, Res.ok.injEq] at hrun; rw [← hrun])

/-! ## The claims on the kitchen and the recipe -/

/-- Claim C11, which the code breaks: `__setup_ingredients` decides the role as
claimed, but the directory it hands to `ingredient_unpack` is `targetPath`, the
path inside the sandbox: the empty string for the host role and
`/target/ingredients` for the target role.  The host-side directories
`host_chroot` and `host_target_ingredients_path` only reach
`__make_available`. -/
theorem C11_ingredients_are_unpacked_into_sandbox_paths :
    (libfoo.platform = demoHost.CHEF_PLATFORM_STR ∧
      libfoo.arch = demoHost.CHEF_ARCHITECTURE_STR) ∧
    libbar.arch ≠ demoHost.CHEF_ARCHITECTURE_STR ∧
    demoKitchen.host_chroot = ".oven/demo".toList ∧
    demoKitchen.host_target_ingredients_path = ".oven/demo/target/ingredients".toList ∧
    (__setup_ingredients demoHost demoTools demoKitchen demoKitchenOptions.ingredients
        ⟨[], []⟩).toOption.map (fun r => (r.1, r.2.log)) =
      some (0,
        [.ingredient_open "/w/.fridge/storage/libfoo.pack".toList,
          .ingredient_unpack [],
          .fopen_write ".oven/demo/usr/share/pkgconfig/libfoo.pc".toList,
          .ingredient_close,
          .ingredient_open "/w/.fridge/storage/libbar.pack".toList,
          .ingredient_unpack "/target/ingredients".toList,
          .ingredient_close]) := by
  decide

/-- Claim C12: for every options record `__setup_hash` is the 32-bit DJB2 hash
(start 5381, `h := h * 33 + byte` modulo 2^32) of the bytes of the recipe name,
then of every ingredient name in list order, then of every import name in list
order, an absent list counting as empty; it is below 2^32. -/
theorem C12_setup_hash_is_djb2 (options : kitchen_options) :
    __setup_hash options = djb2 (setupHashInput options) ∧ __setup_hash options < 2 ^ 32 := by
  rw [setup_hash_eq_djb2]
  exact ⟨rfl, djb2_lt _⟩

/-- Claim C13, which the code breaks: for the recipe name `glidphc`, whose
setup hash is 0, a setup without any `.hash` file is skipped: `__read_hash`
answers 0 for the missing file and the two are found equal.  No directory is
made, nothing is linked or staged. -/
theorem C13_setup_without_hash_file_is_skipped :
    __setup_hash (recipeNamed "glidphc".toList) = 0 ∧
    Files.read [] (hashPath "glidphc".toList) = none ∧
    __read_hash [] "glidphc".toList = .ok 0 ∧
    kitchen_setup demoHost demoTools (recipeNamed "glidphc".toList) zeroKitchen ⟨[], []⟩ =
      .ok ⟨0, __kitchen_construct (recipeNamed "glidphc".toList) zeroKitchen, ⟨[], []⟩⟩ ∧
    (kitchen_setup demoHost demoTools (recipeNamed "demo".toList) zeroKitchen
        ⟨[], []⟩).toOption.map (fun r => r.world.log.length) = some 5 := by
  decide

/-- Claim C14, which the code breaks: for the recipe name `lib64` the file that
`__write_hash` writes holds `266113638`, the setup hash, but `__read_hash`
converts `26611363864`: the 9 bytes of the file lie over the start of the path
`.oven/lib64/chef/.hash` in the buffer, no terminator follows them, and the
next bytes of the path are digits.  The setup that follows is not skipped. -/
theorem C14_hash_file_is_read_back_wrong :
    __setup_hash (recipeNamed "lib64".toList) = 266113638 ∧
    Files.read (__write_hash (fun _ => true) [] (recipeNamed "lib64".toList))
      (hashPath "lib64".toList) = some "266113638".toList ∧
    __read_hash (__write_hash (fun _ => true) [] (recipeNamed "lib64".toList))
      "lib64".toList = .ok 841560088 ∧
    __should_skip_setup (__write_hash (fun _ => true) [] (recipeNamed "lib64".toList))
      (recipeNamed "lib64".toList) = .ok false := by
  decide

/-- Claim C15 as stated fails: the lists `a`, `aa` and `aa`, `a` hold the same
names in a differing order, and the setup hashes are equal, because the names
are hashed one after the other without a separator. -/
theorem C15_reordered_names_hash_alike :
    ["a".toList, "aa".toList] ≠ ["aa".toList, "a".toList] ∧
    List.Perm ["a".toList, "aa".toList] ["aa".toList, "a".toList] ∧
    __setup_hash (demoWith ["a".toList, "aa".toList]) =
      __setup_hash (demoWith ["aa".toList, "a".toList]) := by
  decide

/-- Claim C15, amended: two options records with the same recipe name and the
same ingredient names and import names in the same order have equal setup
hashes; two records whose lists hold the same names in a differing order can
have different setup hashes, as the lists `a`, `b` and `b`, `a` do. -/
theorem C15_setup_hash_and_order :
    (∀ o1 o2 : kitchen_options, o1.name = o2.name →
      (o1.ingredients.getD []).map (·.name) = (o2.ingredients.getD []).map (·.name) →
      (o1.imports.getD []).map (·.name) = (o2.imports.getD []).map (·.name) →
      __setup_hash o1 = __setup_hash o2) ∧
    __setup_hash (demoWith ["a".toList, "b".toList]) ≠
      __setup_hash (demoWith ["b".toList, "a".toList]) := by
  constructor
  · intro o1 o2 hname hing himp
    rw [setup_hash_eq_djb2, setup_hash_eq_djb2]
    unfold setupHashInput
    rw [hname, hing, himp]
  · decide

/-- Claim C15 at two records that differ in the archive paths of their
ingredients only. -/
theorem C15_setup_hash_and_order_witness :
    __setup_hash demoKitchenOptions =
      __setup_hash (demoWith ["acme/libfoo".toList, "acme/libbar".toList]) :=
  C15_setup_hash_and_order.1 demoKitchenOptions
    (demoWith ["acme/libfoo".toList, "acme/libbar".toList]) rfl rfl rfl

/-- Claim C16: `oven_configure` called with a system name other than
`configure`, `cmake` and `meson`, and `oven_build` called with one other than
`make` and `meson`, return -1 with `ENOSYS` and leave the checkpoint file and
the log of calls as they were (no backend invoked, no scratch area entered, no
checkpoint written); called with one of these names neither stores `ENOSYS`. -/
theorem C16_unknown_system_is_refused :
    (∀ (h : Host) (g : oven_context) (c : Collaborators) (fuel : Nat) (w : OvenState)
        (o : oven_generate_options),
        o.system ∉ ["configure".toList, "cmake".toList, "meson".toList] →
        oven_configure h g c fuel (some o) w = some (.ok ⟨-1, some .ENOSYS, w⟩)) ∧
    (∀ (h : Host) (g : oven_context) (c : Collaborators) (fuel : Nat) (w : OvenState)
        (o : oven_build_options),
        o.system ∉ ["make".toList, "meson".toList] →
        oven_build h g c fuel (some o) w = some (.ok ⟨-1, some .ENOSYS, w⟩)) ∧
    (∀ (h : Host) (g : oven_context) (c : Collaborators) (fuel : Nat) (w : OvenState)
        (o : oven_generate_options) (r : StepResult),
        o.system ∈ ["configure".toList, "cmake".toList, "meson".toList] →
        oven_configure h g c fuel (some o) w = some (.ok r) → r.errno ≠ some .ENOSYS) ∧
    (∀ (h : Host) (g : oven_context) (c : Collaborators) (fuel : Nat) (w : OvenState)
        (o : oven_build_options) (r : StepResult),
        o.system ∈ ["make".toList, "meson".toList] →
        oven_build h g c fuel (some o) w = some (.ok r) → r.errno ≠ some .ENOSYS) := by
  refine ⟨?_, ?_, ?_, ?_⟩
  · intro h g c fuel w o hsys
    have hnone : __get_generate_backend o.system = none := find_backend_none _ _ hsys
    simp [oven_configure, hnone]
  · intro h g c fuel w o hsys
    have hnone : __get_build_backend o.system = none := find_backend_none _ _ hsys
    simp [oven_build, hnone]
  · intro h g c fuel w o r hsys hrun
    rw [oven_configure_errno h g c fuel w o r hsys hrun]
    simp
  · intro h g c fuel w o r hsys hrun
    rw [oven_build_errno h g c fuel w o r hsys hrun]
    simp

/-- Claim C16 at the scenario of the specification: a configure step for
`bazel`. -/
theorem C16_unknown_system_is_refused_witness :
    oven_configure demoHost demoOven failingTools 0
        (some ⟨"conf".toList, none, "bazel".toList, [], []⟩) ⟨[], []⟩ =
      some (.ok ⟨-1, some .ENOSYS, ⟨[], []⟩⟩) :=
  C16_unknown_system_is_refused.1 demoHost demoOven failingTools 0 ⟨[], []⟩
    ⟨"conf".toList, none, "bazel".toList, [], []⟩ (by decide)

/-- Claim C17: `oven_recipe_start` called while a recipe is active returns -1
with `ENOSYS` and leaves the whole context, the recipe context in it, as it
was; after `oven_recipe_end` no recipe is active, and `oven_recipe_start` is
accepted: it does not store `ENOSYS`, makes the new recipe the active one and
returns what the scratch setup returns. -/
theorem C17_one_recipe_at_a_time :
    (∀ (setup : scratch_options → scratch → Int × scratch) (g : oven_context)
        (o : oven_recipe_options), g.recipe.name ≠ none →
        oven_recipe_start setup g o = ⟨-1, some .ENOSYS, g⟩) ∧
    (∀ g : oven_context, (oven_recipe_end g).recipe.name = none) ∧
    (∀ (setup : scratch_options → scratch → Int × scratch) (g : oven_context)
        (o : oven_recipe_options),
        (oven_recipe_start setup (oven_recipe_end g) o).errno ≠ some .ENOSYS ∧
        (oven_recipe_start setup (oven_recipe_end g) o).oven.recipe.name = some o.name ∧
        (oven_recipe_start setup (oven_recipe_end g) o).oven.recipe.ingredients =
          o.ingredients ∧
        (oven_recipe_start setup (oven_recipe_end g) o).status =
          (setup ⟨o.name, g.install_root, g.vars.cwd, o.ingredients, o.imports, o.confined⟩
            ⟨none, none, none, none, false⟩).1) := by
  refine ⟨?_, ?_, ?_⟩
  · intro setup g o hname
    unfold oven_recipe_start
    cases hn : g.recipe.name with
    | none => exact absurd hn hname
    | some n => rfl
  · intro g
    rfl
  · intro setup g o
    unfold oven_recipe_start oven_recipe_end
    simp only
    split_ifs with hs
    · exact ⟨by simp, rfl, rfl, rfl⟩
    · refine ⟨by simp, rfl, rfl, ?_⟩
      simp only [ne_eq, not_not] at hs
      exact hs.symm

/-- Claim C17 at the recipe `demo`, which is active in `demoOven`. -/
theorem C17_one_recipe_at_a_time_witness :
    oven_recipe_start (fun _ s => (0, s)) demoOven
        ⟨"other".toList, "".toList, none, none, none, false⟩ =
      ⟨-1, some .ENOSYS, demoOven⟩ :=
  C17_one_recipe_at_a_time.1 (fun _ s => (0, s)) demoOven
    ⟨"other".toList, "".toList, none, none, none, false⟩ (by decide)

/-! ## A text that is one internal variable -/

theorem preprocess_single_variable (h : Host) (g : oven_context) (body value : CStr)
    (fuel : Nat) (hb : ']' ∉ body)
    (hv : (trimmedName body).bind (__get_variable h g) = some value)
    (hlen : value.length < 4096) :
    oven_preprocess_text h g (fuel + 2) (some ('$' :: '[' :: '[' :: (body ++ [']', ']']))) =
      some (.text value) := by
  have hstart : scanStart ('$' :: '[' :: '[' :: (body ++ [']', ']'])) =
      ⟨⟨[], '$' :: '[' :: '[' :: (body ++ [']', ']'])⟩, [], 4096⟩ :=
    scanStart_trimmed _ (by simp)
  have hf := expand_variable_closed h g [] body [] [] 4096 (spaceLeft 0) hb
  rw [hv] at hf
  have hrun := expandLoop_deliver_run (__expand_variable h g) fuel
    ⟨⟨[], '$' :: '[' :: '[' :: (body ++ [']', ']'])⟩, [], 4096⟩ (spaceLeft 0) (some value)
    .ENOENT _ (by decide) hf (by
      intro v hv'
      simp only [Option.some.injEq] at hv'
      subst hv'
      rw [spaceLeft_eq 0 (by omega)]
      simp only [List.length_nil, INT_MAX]
      omega)
  have hbody : scanBody h g (fuel + 1) ⟨⟨[], '$' :: '[' :: '[' :: (body ++ [']', ']'])⟩, [], 4096⟩
      '$' = some (.ok ⟨Cursor.advance ⟨[], '$' :: '[' :: '[' :: (body ++ [']', ']'])⟩
        (body.length + 5), value, 4096⟩) := by
    unfold scanBody
    simp only [List.take_succ_cons, List.take_zero, if_true, List.length_nil]
    rw [hrun]
    simp
  have hrest : (Cursor.advance ⟨[], '$' :: '[' :: '[' :: (body ++ [']', ']'])⟩
      (body.length + 5)).rest = [] := by
    simp [Cursor.advance]
  simp only [oven_preprocess_text, hstart]
  rw [scan]
  simp only [hbody]
  rw [scan]
  simp only [hrest, Option.map_some', finish, hlen, if_true]

/-! ## Joined flags -/

theorem intercalate_cons (sep x : CStr) (xs : List CStr) :
    List.intercalate sep (x :: xs) = x ++ (xs.map (fun y => sep ++ y)).flatten := by
  induction xs generalizing x with
  | nil => simp [List.intercalate]
  | cons y ys ih =>
    have h1 := ih y
    simp only [List.intercalate, List.intersperse, List.flatten_cons, List.map_cons] at h1 ⊢
    rw [h1]
    simp

/-- Claim C18: with the scratch record that `__kitchen_construct` fills,
`__get_variable` yields for `PROJECT_PATH` the working directory of an
unconfined recipe and `/chef/project` of a confined one, for `INSTALL_PREFIX`
the host install root and `/chef/install`; the text `$[[PROJECT_PATH]]` or
`$[[INSTALL_PREFIX]]` expands to that value (for the host paths: when they are
shorter than the 4096 bytes of the expansion buffer). -/
theorem C18_paths_of_the_active_recipe (h : Host) (g : oven_context)
    (options : kitchen_options) (k : kitchen)
    (hs : g.recipe.scratch = (__kitchen_construct options k).scratch) :
    __get_variable h g "PROJECT_PATH".toList =
      (if options.confined then some "/chef/project".toList else g.vars.cwd) ∧
    __get_variable h g "INSTALL_PREFIX".toList =
      (if options.confined then some "/chef/install".toList else g.install_root) ∧
    (options.confined = true →
      oven_preprocess_text h g 2 (some "$[[PROJECT_PATH]]".toList) =
        some (.text "/chef/project".toList) ∧
      oven_preprocess_text h g 2 (some "$[[INSTALL_PREFIX]]".toList) =
        some (.text "/chef/install".toList)) ∧
    (options.confined = false →
      (∀ cwd, g.vars.cwd = some cwd → cwd.length < 4096 →
        oven_preprocess_text h g 2 (some "$[[PROJECT_PATH]]".toList) = some (.text cwd)) ∧
      (∀ root, g.install_root = some root → root.length < 4096 →
        oven_preprocess_text h g 2 (some "$[[INSTALL_PREFIX]]".toList) =
          some (.text root))) := by
  have hp : __get_variable h g "PROJECT_PATH".toList =
      (if options.confined then some "/chef/project".toList else g.vars.cwd) := by
    cases hc : options.confined <;>
      simp [__get_variable, hs, __kitchen_construct, kitchen.scratch, hc]
  have hi : __get_variable h g "INSTALL_PREFIX".toList =
      (if options.confined then some "/chef/install".toList else g.install_root) := by
    cases hc : options.confined <;>
      simp [__get_variable, hs, __kitchen_construct, kitchen.scratch, hc]
  have hproject : ∀ value, __get_variable h g "PROJECT_PATH".toList = some value →
      value.length < 4096 →
      oven_preprocess_text h g 2 (some "$[[PROJECT_PATH]]".toList) = some (.text value) :=
    fun value hv hlen =>
      preprocess_single_variable h g "PROJECT_PATH".toList value 0 (by decide) hv hlen
  have hinstall : ∀ value, __get_variable h g "INSTALL_PREFIX".toList = some value →
      value.length < 4096 →
      oven_preprocess_text h g 2 (some "$[[INSTALL_PREFIX]]".toList) = some (.text value) :=
    fun value hv hlen =>
      preprocess_single_variable h g "INSTALL_PREFIX".toList value 0 (by decide) hv hlen
  refine ⟨hp, hi, ?_, ?_⟩
  · intro hc
    rw [hc] at hp hi
    exact ⟨hproject _ hp (by decide), hinstall _ hi (by decide)⟩
  · intro hc
    rw [hc] at hp hi
    refine ⟨fun cwd hcwd hlen => hproject cwd ?_ hlen,
      fun root hroot hlen => hinstall root ?_ hlen⟩
    · rw [hp]; simpa using hcwd
    · rw [hi]; simpa using hroot

/-- Claim C18 at the confined recipe `demo`. -/
theorem C18_paths_of_the_active_recipe_witness :
    oven_preprocess_text demoHost demoOven 2 (some "$[[PROJECT_PATH]]".toList) =
      some (.text "/chef/project".toList) ∧
    oven_preprocess_text demoHost demoOven 2 (some "$[[INSTALL_PREFIX]]".toList) =
      some (.text "/chef/install".toList) :=
  (C18_paths_of_the_active_recipe demoHost demoOven demoKitchenOptions zeroKitchen
    (by decide)).2.2.1 rfl

theorem joinArguments_cons (a : CStr) (arguments : List CStr) :
    joinArguments (a :: arguments) = a ++ tailJoin arguments := by
  unfold joinArguments
  rw [intercalate_cons]
  rfl

theorem tailJoin_cons (a : CStr) (arguments : List CStr) :
    tailJoin (a :: arguments) = ' ' :: (a ++ tailJoin arguments) := by
  simp [tailJoin]

theorem encTail_cons (a : CStr) (arguments : List CStr) :
    encTail (a :: arguments) = none :: (a.map some ++ encTail arguments) := by
  simp [encTail]

/-- A word in front of a space has no leading spaces. -/
theorem leadingSpaces_word (w rest : CStr) (hne : w ≠ []) (hsp : ' ' ∉ w) :
    leadingSpaces (w ++ rest) = 0 := by
  cases w with
  | nil => exact absurd rfl hne
  | cons c w =>
    have hc : c ≠ ' ' := fun h => hsp (by simp [h])
    simp [leadingSpaces, List.takeWhile, hc]

/-- The loop of `__split_arguments` copies a word unchanged. -/
theorem split_loop_word (w : CStr) (hsp : ' ' ∉ w) (hq : Char.ofNat 34 ∉ w) :
    ∀ (fuel : Nat) (bf : List (Option Char)) (rest : CStr) (argv : List Nat),
      __split_arguments_loop (fuel + w.length) ⟨bf, w ++ rest, argv⟩ =
        __split_arguments_loop fuel ⟨(w.map some).reverse ++ bf, rest, argv⟩ := by
  induction w with
  | nil => intro fuel bf rest argv; simp
  | cons c w ih =>
    intro fuel bf rest argv
    have hc : c ≠ ' ' := fun h => hsp (by simp [h])
    have hc2 : c ≠ Char.ofNat 34 := fun h => hq (by simp [h])
    have hsp2 : ' ' ∉ w := fun h => hsp (List.mem_cons_of_mem _ h)
    have hq2 : Char.ofNat 34 ∉ w := fun h => hq (List.mem_cons_of_mem _ h)
    rw [List.length_cons, ← Nat.add_assoc, List.cons_append, __split_arguments_loop]
    simp only [if_neg hc, if_neg hc2]
    rw [ih hsp2 hq2]
    simp

/-- The loop of `__split_arguments` on the joined arguments: every argument is
ended in place and gets its entry. -/
theorem split_loop_tail (arguments : List CStr) :
    (∀ a ∈ arguments, a ≠ []) → (∀ a ∈ arguments, ' ' ∉ a) →
    (∀ a ∈ arguments, Char.ofNat 34 ∉ a) →
    ∀ (fuel : Nat) (bf : List (Option Char)) (argv : List Nat),
      __split_arguments_loop (fuel + (tailJoin arguments).length)
          ⟨bf, tailJoin arguments, argv⟩ =
        ⟨(encTail arguments).reverse ++ bf, [], argv ++ offsets bf.length arguments⟩ := by
  induction arguments with
  | nil =>
    intro _ _ _ fuel bf argv
    cases fuel <;> simp [tailJoin, encTail, offsets, __split_arguments_loop]
  | cons a arguments ih =>
    intro hne hsp hq fuel bf argv
    have ha := hne a (List.mem_cons_self _ _)
    have hasp := hsp a (List.mem_cons_self _ _)
    have haq := hq a (List.mem_cons_self _ _)
    have hlead := leadingSpaces_word a (tailJoin arguments) ha hasp
    rw [tailJoin_cons, List.length_cons, ← Nat.add_assoc, __split_arguments_loop]
    simp only [if_true, hlead, List.take_zero, List.drop_zero, List.map_nil,
      List.reverse_nil, List.nil_append, List.length_cons]
    rw [List.length_append, ← Nat.add_assoc, Nat.add_right_comm fuel,
      split_loop_word a hasp haq,
      ih (fun b hb => hne b (List.mem_cons_of_mem _ hb))
        (fun b hb => hsp b (List.mem_cons_of_mem _ hb))
        (fun b hb => hq b (List.mem_cons_of_mem _ hb))]
    simp [encTail_cons, offsets, Nat.add_comm, Nat.add_left_comm]

/-- An entry that points to a word in the split copy reads that word. -/
theorem stringAt_word (pre : List (Option Char)) (w : CStr) (arguments : List CStr) :
    stringAt (pre ++ (w.map some ++ encTail arguments)) pre.length = w := by
  unfold stringAt
  rw [List.drop_left]
  have h : (w.map some ++ encTail arguments).takeWhile Option.isSome = w.map some := by
    induction w with
    | nil => cases arguments <;> simp [encTail, List.takeWhile]
    | cons c w ih => simp [List.takeWhile, ih]
  rw [h]
  induction w with
  | nil => rfl
  | cons c w ih => simp [List.filterMap_cons, ih]

/-- The entries for the arguments behind the first one read these arguments. -/
theorem offsets_strings (arguments : List CStr) :
    ∀ (pre : List (Option Char)),
      (offsets pre.length arguments).map (stringAt (pre ++ encTail arguments)) =
        arguments := by
  induction arguments with
  | nil => intro pre; rfl
  | cons a arguments ih =>
    intro pre
    rw [offsets, List.map_cons, encTail_cons, Nat.add_assoc]
    have h1 : stringAt (pre ++ none :: (a.map some ++ encTail arguments)) (pre.length + 1)
        = a := by
      have := stringAt_word (pre ++ [none]) a arguments
      simpa using this
    have h2 := ih (pre ++ none :: a.map some)
    rw [h1]
    congr 1
    simpa [Nat.add_assoc, Nat.add_comm 1] using h2

/-- The loop of `__get_arg_count` passes a word without counting. -/
theorem count_loop_word (w : CStr) (hsp : ' ' ∉ w) (hq : Char.ofNat 34 ∉ w) :
    ∀ (fuel : Nat) (rest : CStr) (count : Int),
      __get_arg_count_loop (fuel + w.length) (w ++ rest) count =
        __get_arg_count_loop fuel rest count := by
  induction w with
  | nil => intro fuel rest count; simp
  | cons c w ih =>
    intro fuel rest count
    have hc : c ≠ ' ' := fun h => hsp (by simp [h])
    have hc2 : c ≠ Char.ofNat 34 := fun h => hq (by simp [h])
    have hsp2 : ' ' ∉ w := fun h => hsp (List.mem_cons_of_mem _ h)
    have hq2 : Char.ofNat 34 ∉ w := fun h => hq (List.mem_cons_of_mem _ h)
    rw [List.length_cons, ← Nat.add_assoc, List.cons_append, __get_arg_count_loop]
    simp only [if_neg hc, if_neg hc2]
    exact ih hsp2 hq2 _ _ _

/-- The loop of `__get_arg_count` on the joined arguments counts each one. -/
theorem count_loop_tail (arguments : List CStr) :
    (∀ a ∈ arguments, a ≠ []) → (∀ a ∈ arguments, ' ' ∉ a) →
    (∀ a ∈ arguments, Char.ofNat 34 ∉ a) →
    ∀ (fuel : Nat) (count : Int),
      __get_arg_count_loop (fuel + (tailJoin arguments).length) (tailJoin arguments) count =
        .ok (count + arguments.length) := by
  induction arguments with
  | nil =>
    intro _ _ _ fuel count
    cases fuel <;> simp [tailJoin, __get_arg_count_loop]
  | cons a arguments ih =>
    intro hne hsp hq fuel count
    have ha := hne a (List.mem_cons_self _ _)
    have hasp := hsp a (List.mem_cons_self _ _)
    have haq := hq a (List.mem_cons_self _ _)
    have hlead := leadingSpaces_word a (tailJoin arguments) ha hasp
    rw [tailJoin_cons, List.length_cons, ← Nat.add_assoc, __get_arg_count_loop]
    simp only [if_true, hlead, List.drop_zero]
    rw [List.length_append, ← Nat.add_assoc, Nat.add_right_comm fuel,
      count_loop_word a hasp haq,
      ih (fun b hb => hne b (List.mem_cons_of_mem _ hb))
        (fun b hb => hsp b (List.mem_cons_of_mem _ hb))
        (fun b hb => hq b (List.mem_cons_of_mem _ hb))]
    simp only [List.length_cons, Nat.cast_add, Nat.cast_one]
    congr 1
    omega

/-- Claim C20, as the code has it: an empty argument is lost.  The list that
holds one empty argument joins to the empty string, which `__get_arg_count`
counts as no argument and in which `__split_arguments` stores no entry; an
empty argument in front of another one is trimmed away with the space that
follows it. -/
theorem C20_empty_argument_is_lost :
    (∀ c ∈ ([[]] : List CStr), ∀ x ∈ c, x ≠ ' ' ∧ x ≠ Char.ofNat 34) ∧
    joinArguments [[]] = [] ∧
    __split_arguments (some (joinArguments [[]])) = [] ∧
    __get_arg_count (some (joinArguments [[]])) = .ok 0 ∧
    __split_arguments (some (joinArguments [[], "a".toList])) = ["a".toList] ∧
    __get_arg_count (some (joinArguments [[], "a".toList])) = .ok 1 ∧
    __split_arguments (some (joinArguments ["a".toList, [], "b".toList])) =
      ["a".toList, "b".toList] := by
  decide

/-- Claim C20, amended: for every list of arguments none of which is empty or
holds a space or a double quote, `__split_arguments` on the arguments joined
with single spaces stores entries that read the original arguments, in order,
and `__get_arg_count` on the same string returns their number. -/
theorem C20_join_then_parse (arguments : List CStr)
    (hne : ∀ a ∈ arguments, a ≠ []) (hsp : ∀ a ∈ arguments, ' ' ∉ a)
    (hq : ∀ a ∈ arguments, Char.ofNat 34 ∉ a) :
    __split_arguments (some (joinArguments arguments)) = arguments ∧
    __get_arg_count (some (joinArguments arguments)) = .ok (arguments.length : Int) := by
  cases arguments with
  | nil => exact ⟨rfl, rfl⟩
  | cons a arguments =>
    have ha := hne a (List.mem_cons_self _ _)
    have hasp := hsp a (List.mem_cons_self _ _)
    have haq := hq a (List.mem_cons_self _ _)
    have hne2 : ∀ b ∈ arguments, b ≠ [] := fun b hb => hne b (List.mem_cons_of_mem _ hb)
    have hsp2 : ∀ b ∈ arguments, ' ' ∉ b := fun b hb => hsp b (List.mem_cons_of_mem _ hb)
    have hq2 : ∀ b ∈ arguments, Char.ofNat 34 ∉ b :=
      fun b hb => hq b (List.mem_cons_of_mem _ hb)
    have hlead := leadingSpaces_word a (tailJoin arguments) ha hasp
    have hlen : (a ++ tailJoin arguments).length ≠ 0 := by
      cases a with
      | nil => exact absurd rfl ha
      | cons c a => simp
    have hfuel : (a ++ tailJoin arguments).length + 1 =
        1 + (tailJoin arguments).length + a.length := by
      rw [List.length_append]; omega
    constructor
    · unfold __split_arguments
      simp only [joinArguments_cons, hlead, List.drop_zero, List.take_zero, List.map_nil,
        List.reverse_nil, if_neg hlen]
      rw [hfuel, split_loop_word a hasp haq, split_loop_tail arguments hne2 hsp2 hq2]
      simp only [List.map_nil, List.append_nil, List.reverse_append, List.reverse_reverse,
        List.length_append, List.length_reverse, List.length_map, List.length_nil,
        Nat.add_zero, List.singleton_append, List.map_cons]
      have h1 := stringAt_word [] a arguments
      have h2 := offsets_strings arguments (a.map some)
      simp only [List.nil_append, List.length_nil, List.length_map] at h1 h2
      rw [h1, h2]
    · unfold __get_arg_count
      simp only [joinArguments_cons, hlead, List.drop_zero, if_neg hlen]
      rw [hfuel, count_loop_word a hasp haq, count_loop_tail arguments hne2 hsp2 hq2]
      simp only [List.length_cons, Nat.cast_add, Nat.cast_one]
      congr 1
      omega

/-- Claim C20, amended, at the arguments `-C`, `build` and `--jobs=4`. -/
theorem C20_join_then_parse_witness :
    joinArguments ["-C".toList, "build".toList, "--jobs=4".toList] =
      "-C build --jobs=4".toList ∧
    __split_arguments
        (some (joinArguments ["-C".toList, "build".toList, "--jobs=4".toList])) =
      ["-C".toList, "build".toList, "--jobs=4".toList] ∧
    __get_arg_count
        (some (joinArguments ["-C".toList, "build".toList, "--jobs=4".toList])) =
      .ok (["-C".toList, "build".toList, "--jobs=4".toList].length : Int) :=
  ⟨by decide,
    C20_join_then_parse ["-C".toList, "build".toList, "--jobs=4".toList]
      (by decide) (by decide) (by decide)⟩

/-! ## The claims on quotes and spaces in spawn arguments -/

/-- Claim C21, which the code breaks: a double-quoted span that starts an
argument is delivered as one argument, without the quotes and with its spaces;
but at every opening quote `__split_arguments` moves the entry of the current
argument behind that quote, so of two spans within one argument only the
second is delivered.  The string `"a b""c d"` has balanced quotes and gives the
single argument `c d`. -/
theorem C21_second_span_replaces_the_first :
    __split_arguments (some (quoted "a  b".toList ++ " x".toList)) =
      ["a  b".toList, "x".toList] ∧
    (quoted "a b".toList ++ quoted "c d".toList).count (Char.ofNat 34) = 4 ∧
    __split_arguments (some (quoted "a b".toList ++ quoted "c d".toList)) = ["c d".toList] ∧
    __get_arg_count (some (quoted "a b".toList ++ quoted "c d".toList)) = .ok 1 := by
  decide

/-- Claim C22, which the code breaks: leading and repeated spaces give no
argument, but the string `a b ` with a trailing space is parsed into three
arguments, the last of them empty: after the spaces behind `b` both functions
take the position reached for the start of another argument.  A tab does not
separate arguments. -/
theorem C22_trailing_space_gives_an_empty_argument :
    __split_arguments (some "  a   b".toList) = ["a".toList, "b".toList] ∧
    __split_arguments (some "a b ".toList) = ["a".toList, "b".toList, []] ∧
    __get_arg_count (some "a b ".toList) = .ok 3 ∧
    platform_spawn_argv "cc".toList none (some "a b ".toList) =
      .ok [some "cc".toList, some "a".toList, some "b".toList, some [], none] ∧
    __split_arguments (some ['a', Char.ofNat 9, 'b']) = [['a', Char.ofNat 9, 'b']] := by
  decide

/-- Claim C28, which the code breaks: for the argument `key="two words"` the
parser delivers `two words`.  At the quote it sets the entry of the argument to
the character behind the quote, so the text `key=` in front of the quote is no
longer part of any argument. -/
theorem C28_text_before_a_quote_is_dropped :
    __split_arguments (some ("key=".toList ++ quoted "two words".toList)) =
      ["two words".toList] ∧
    __get_arg_count (some ("key=".toList ++ quoted "two words".toList)) = .ok 1 ∧
    __split_arguments (some ("-D key=".toList ++ quoted "two words".toList ++ " x".toList)) =
      ["-D".toList, "two words".toList, "x".toList] := by
  decide

/-! ## The claims on the recipe and the kitchen -/

/-- Claim C27, which the code breaks: `oven_recipe_start` stores the name of
the recipe before it calls the scratch setup and does not take it back when the
setup fails.  After the failed start of `demo` in a context without a recipe
the name field holds `demo`, and the next start, with a setup that would
succeed, is refused with `ENOSYS`. -/
theorem C27_failed_start_leaves_the_recipe_active :
    (oven_recipe_end demoOven).recipe.name = none ∧
    (oven_recipe_start failingSetup (oven_recipe_end demoOven) demoRecipeOptions).status = -1 ∧
    (oven_recipe_start failingSetup (oven_recipe_end demoOven) demoRecipeOptions).errno
      = none ∧
    (oven_recipe_start failingSetup (oven_recipe_end demoOven)
      demoRecipeOptions).oven.recipe.name = some "demo".toList ∧
    oven_recipe_start workingSetup
        (oven_recipe_start failingSetup (oven_recipe_end demoOven) demoRecipeOptions).oven
        demoRecipeOptions =
      ⟨-1, some .ENOSYS,
        (oven_recipe_start failingSetup (oven_recipe_end demoOven) demoRecipeOptions).oven⟩ := by
  decide

/-- A confined kitchen whose saved root handle is above 0 is not entered again,
also right after a `kitchen_enter` that got such a handle from `open`; an
unconfined kitchen is entered and left without any call. -/
theorem kitchen_enter_with_handle_held :
    (∀ (t : RootTools) (k : kitchen) (log : List RootEvent),
      k.confined = true → k.original_root_fd > 0 → kitchen_enter t k log = ⟨-1, k, log⟩) ∧
    (∀ (t : RootTools) (k : kitchen) (log : List RootEvent),
      k.confined = true → k.original_root_fd ≤ 0 → 0 < t.open_root →
      (kitchen_enter t k log).kitchen.original_root_fd = t.open_root ∧
      ∀ (t' : RootTools) (log' : List RootEvent),
        kitchen_enter t' (kitchen_enter t k log).kitchen log' =
          ⟨-1, (kitchen_enter t k log).kitchen, log'⟩) ∧
    (∀ (t : RootTools) (k : kitchen) (log : List RootEvent),
      k.confined = false →
      kitchen_enter t k log = ⟨0, k, log⟩ ∧ kitchen_leave t k log = ⟨0, k, log⟩) := by
  have hheld : ∀ (t : RootTools) (k : kitchen) (log : List RootEvent),
      k.confined = true → k.original_root_fd > 0 →
      kitchen_enter t k log = ⟨-1, k, log⟩ := by
    intro t k log hc hfd
    simp [kitchen_enter, hc, hfd]
  refine ⟨hheld, ?_, ?_⟩
  · intro t k log hc hfd hopen
    have hk : (kitchen_enter t k log).kitchen = { k with original_root_fd := t.open_root } := by
      unfold kitchen_enter
      simp only [hc, Bool.not_true, Bool.false_eq_true, if_false, if_neg (not_lt.mpr hfd)]
      split_ifs <;> rfl
    refine ⟨by rw [hk], ?_⟩
    intro t' log'
    apply hheld
    · rw [hk]; exact hc
    · rw [hk]; exact hopen
  · intro t k log hc
    simp [kitchen_enter, kitchen_leave, hc]

/-- Claim C26, which the code breaks: `kitchen_enter` takes the kitchen for
entered when `original_root_fd > 0`, but the handle it saves can be descriptor
0, which `open` returns in a process without standard input and which the
function itself accepts (it fails on `< 0` only).  With the root opened as
descriptor 0 the first `kitchen_enter` of the confined kitchen `demo` returns 0
and holds the handle 0; the second one is not rejected, it opens the root and
calls `chroot` and `chdir` once more; and `kitchen_leave` returns -1 without a
call, so the process stays in the sandbox.  With the root opened as descriptor
3 the second `kitchen_enter` returns -1 without a call, and the unconfined
kitchen is entered and left without a call. -/
theorem C26_handle_zero_is_not_seen_as_held :
    kitchen_enter zeroDescriptorTools demoKitchen [] =
      ⟨0, { demoKitchen with original_root_fd := 0 },
        [.open_root, .chroot ".oven/demo".toList, .chdir "/chef/project".toList]⟩ ∧
    kitchen_enter zeroDescriptorTools (kitchen_enter zeroDescriptorTools demoKitchen []).kitchen
        (kitchen_enter zeroDescriptorTools demoKitchen []).log =
      ⟨0, { demoKitchen with original_root_fd := 0 },
        [.open_root, .chroot ".oven/demo".toList, .chdir "/chef/project".toList,
          .open_root, .chroot ".oven/demo".toList, .chdir "/chef/project".toList]⟩ ∧
    kitchen_leave zeroDescriptorTools (kitchen_enter zeroDescriptorTools demoKitchen []).kitchen
        [] =
      ⟨-1, { demoKitchen with original_root_fd := 0 }, []⟩ ∧
    kitchen_enter demoRootTools (kitchen_enter demoRootTools demoKitchen []).kitchen [] =
      ⟨-1, { demoKitchen with original_root_fd := 3 }, []⟩ ∧
    kitchen_leave demoRootTools (kitchen_enter demoRootTools demoKitchen []).kitchen [] =
      ⟨0, { demoKitchen with original_root_fd := 0 },
        [.fchdir 3, .chroot ".".toList, .close 3]⟩ ∧
    kitchen_enter demoRootTools { demoKitchen with confined := false } [] =
      ⟨0, { demoKitchen with confined := false }, []⟩ ∧
    kitchen_leave demoRootTools { demoKitchen with confined := false } [] =
      ⟨0, { demoKitchen with confined := false }, []⟩ := by
  decide

/-! ## The install copy with filters -/

theorem drop_takeWhile_length (p : Char → Bool) (r : CStr) :
    r.drop (r.takeWhile p).length = r.dropWhile p := by
  induction r with
  | nil => rfl
  | cons c r ih =>
    by_cases hc : p c = true
    · simp [List.takeWhile, List.dropWhile, hc, ih]
    · simp [List.takeWhile, List.dropWhile, hc]

/-- Skipping spaces passes no quote. -/
theorem count_drop_leadingSpaces (r : CStr) :
    (r.drop (leadingSpaces r)).count (Char.ofNat 34) = r.count (Char.ofNat 34) := by
  unfold leadingSpaces
  rw [drop_takeWhile_length]
  induction r with
  | nil => rfl
  | cons c r ih =>
    by_cases hc : c = ' '
    · subst hc
      have hq : (' ' == Char.ofNat 34) = false := by decide
      simp [List.dropWhile, List.count_cons, hq, ih]
    · simp [List.dropWhile, hc]

/-- Behind an opening quote with an odd number of quotes after it the closing
quote is found, and an even number of quotes is left behind it. -/
theorem closing_quote (r : CStr) (hodd : r.count (Char.ofNat 34) % 2 = 1) :
    ∃ r', r.dropWhile (· ≠ Char.ofNat 34) = Char.ofNat 34 :: r' ∧
      r'.count (Char.ofNat 34) % 2 = 0 := by
  induction r with
  | nil => simp at hodd
  | cons c r ih =>
    by_cases hc : c = Char.ofNat 34
    · subst hc
      refine ⟨r, by simp [List.dropWhile], ?_⟩
      rw [List.count_cons_self] at hodd
      omega
    · have hcount : (c :: r).count (Char.ofNat 34) = r.count (Char.ofNat 34) := by
        rw [List.count_cons]
        simp [hc]
      rw [hcount] at hodd
      obtain ⟨r', h1, h2⟩ := ih hodd
      refine ⟨r', ?_, h2⟩
      rw [List.dropWhile_cons_of_pos (by simpa using hc)]
      exact h1

/-- The loops of `__get_arg_count` and `__split_arguments` run in step on a
string with balanced quotes: the count grows by the number of entries that are
added. -/
theorem loops_in_step :
    ∀ (fuel : Nat) (rest : CStr) (count : Int) (bf : List (Option Char)) (argv : List Nat),
      rest.count (Char.ofNat 34) % 2 = 0 → argv ≠ [] →
      __get_arg_count_loop fuel rest count =
        .ok (count + ((__split_arguments_loop fuel ⟨bf, rest, argv⟩).argv.length : Int)
          - (argv.length : Int)) := by
  intro fuel
  induction fuel with
  | zero =>
    intro rest count bf argv _ _
    simp [__get_arg_count_loop, __split_arguments_loop]
  | succ fuel ih =>
    intro rest count bf argv heven hargv
    cases rest with
    | nil => simp [__get_arg_count_loop, __split_arguments_loop]
    | cons c r =>
      rw [__get_arg_count_loop, __split_arguments_loop]
      by_cases hsp : c = ' '
      · subst hsp
        have hcount : (' ' :: r).count (Char.ofNat 34) = r.count (Char.ofNat 34) := by
          rw [List.count_cons]
          have hq : (' ' == Char.ofNat 34) = false := by decide
          simp [hq]
        simp only [if_true]
        rw [ih (r.drop (leadingSpaces r)) (count + 1)
          (((r.take (leadingSpaces r)).map some).reverse ++ none :: bf)
          (argv ++ [(((r.take (leadingSpaces r)).map some).reverse ++ none :: bf).length])
          (by rw [count_drop_leadingSpaces, ← hcount]; exact heven) (by simp)]
        congr 1
        rw [List.length_append argv, List.length_singleton]
        push_cast
        ring
      · by_cases hq : c = Char.ofNat 34
        · subst hq
          have hodd : r.count (Char.ofNat 34) % 2 = 1 := by
            rw [List.count_cons_self] at heven
            omega
          obtain ⟨r', hdrop, heven'⟩ := closing_quote r hodd
          have hsp' : ¬ (Char.ofNat 34 = ' ') := by decide
          have hlen : (argv.dropLast ++ [bf.length + 1]).length = argv.length := by
            rw [List.length_append, List.length_dropLast, List.length_singleton]
            have : 0 < argv.length := List.length_pos.mpr hargv
            omega
          simp only [if_neg hsp', if_true, drop_takeWhile_length, hdrop]
          rw [ih r' count
            (none :: (((r.takeWhile (· ≠ Char.ofNat 34)).map some).reverse
              ++ some (Char.ofNat 34) :: bf))
            (argv.dropLast ++ [bf.length + 1]) heven' (by simp), hlen]
        · have hcount : (c :: r).count (Char.ofNat 34) = r.count (Char.ofNat 34) := by
            rw [List.count_cons]
            simp [hq]
          simp only [if_neg hsp, if_neg hq]
          exact ih r count _ _ (by rw [← hcount]; exact heven) hargv

/-- Claim C29: for every argument string with an even number of double quotes
the number of entries `__split_arguments` stores equals the count that
`__get_arg_count` returns.  The entries fill the slots 1 to `count` of the
`count + 2` slots of `argv`, so no store leaves the array and its last slot
keeps the `NULL`: the array `platform_spawn` builds is the name of the program,
the entries and `NULL`. -/
theorem C29_entries_equal_count (arguments : CStr)
    (hbalanced : arguments.count (Char.ofNat 34) % 2 = 0) :
    __get_arg_count (some arguments) =
      .ok ((__split_arguments (some arguments)).length : Int) ∧
    ∀ (path : CStr) (argv0 : Option CStr),
      platform_spawn_argv path argv0 (some arguments) =
        .ok (some (argv0.getD path) :: (__split_arguments (some arguments)).map some
          ++ [none]) := by
  have hcount : __get_arg_count (some arguments) =
      .ok ((__split_arguments (some arguments)).length : Int) := by
    unfold __get_arg_count __split_arguments
    simp only
    split_ifs with h0
    · rfl
    · rw [loops_in_step _ _ 1 (((arguments.take (leadingSpaces arguments)).map some).reverse)
        [leadingSpaces arguments]
        (by rw [count_drop_leadingSpaces]; exact hbalanced) (by simp)]
      simp
  refine ⟨hcount, ?_⟩
  intro path argv0
  unfold platform_spawn_argv
  rw [hcount]
  simp

/-- Claim C29 at the arguments `-o "a b" c`. -/
theorem C29_entries_equal_count_witness :
    __split_arguments (some ("-o ".toList ++ quoted "a b".toList ++ " c".toList)) =
      ["-o".toList, "a b".toList, "c".toList] ∧
    __get_arg_count (some ("-o ".toList ++ quoted "a b".toList ++ " c".toList)) =
      .ok ((__split_arguments
        (some ("-o ".toList ++ quoted "a b".toList ++ " c".toList))).length : Int) ∧
    platform_spawn_argv "cc".toList none
        (some ("-o ".toList ++ quoted "a b".toList ++ " c".toList)) =
      .ok (some ((none : Option CStr).getD "cc".toList) ::
        (__split_arguments
          (some ("-o ".toList ++ quoted "a b".toList ++ " c".toList))).map some ++ [none]) :=
  ⟨by decide,
    (C29_entries_equal_count ("-o ".toList ++ quoted "a b".toList ++ " c".toList)
      (by decide)).1,
    (C29_entries_equal_count ("-o ".toList ++ quoted "a b".toList ++ " c".toList)
      (by decide)).2 "cc".toList none⟩

/-! ## Plain text and a last sigil in the expansion buffer -/

/-- The loop copies text without `$` byte by byte while the buffer has room. -/
theorem scan_plain (h : Host) (g : oven_context) (w : CStr) (hw : '$' ∉ w) :
    ∀ (fuel : Nat) (bf rest buf : CStr) (cap : Nat),
      buf.length + w.length ≤ cap → buf.length + w.length ≤ INT_MAX →
      scan h g (fuel + w.length) ⟨⟨bf, w ++ rest⟩, buf, cap⟩ =
        scan h g fuel ⟨⟨w.reverse ++ bf, rest⟩, buf ++ w, cap⟩ := by
  induction w with
  | nil => intro fuel bf rest buf cap _ _; simp
  | cons c w ih =>
    intro fuel bf rest buf cap hcap hint
    have hc : c ≠ '$' := fun hc => hw (by simp [hc])
    have hw' : '$' ∉ w := fun hm => hw (List.mem_cons_of_mem _ hm)
    simp only [List.length_cons] at hcap hint
    have hbody : scanBody h g (fuel + w.length) ⟨⟨bf, c :: (w ++ rest)⟩, buf, cap⟩ c =
        some (.ok ⟨⟨c :: bf, w ++ rest⟩, buf ++ [c], cap⟩) := by
      unfold scanBody
      have h3 : ¬ ((c :: (w ++ rest)).take 3 = ['$', '[', '[']) := by
        simp [List.take_succ_cons, hc]
      have h2 : ¬ ((c :: (w ++ rest)).take 2 = ['$', '[']) := by
        simp [List.take_succ_cons, hc]
      have hroom : buf.length < cap ∧ buf.length < INT_MAX := ⟨by omega, by omega⟩
      rw [if_neg h3, if_neg h2, if_pos hroom]
      simp [Cursor.advance]
    rw [List.length_cons, ← Nat.add_assoc, List.cons_append, scan]
    simp only [hbody]
    rw [ih hw' fuel (c :: bf) rest (buf ++ [c]) cap
      (by simp only [List.length_append, List.length_singleton]; omega)
      (by simp only [List.length_append, List.length_singleton]; omega)]
    simp

/-- A text without `$` that does not start with a space and is shorter than the
buffer is returned as it is. -/
theorem preprocess_plain (h : Host) (g : oven_context) (w : CStr) (fuel : Nat)
    (hw : '$' ∉ w) (hhead : w.head? ≠ some ' ') (hlen : w.length < 4096)
    (hfuel : w.length < fuel) :
    oven_preprocess_text h g fuel (some w) = some (.text w) := by
  obtain ⟨k, rfl⟩ : ∃ k, fuel = (k + 1) + w.length := ⟨fuel - w.length - 1, by omega⟩
  have hrun := scan_plain h g w hw (k + 1) [] [] [] 4096
    (by simp only [List.length_nil]; omega) (by simp only [List.length_nil, INT_MAX]; omega)
  rw [List.append_nil] at hrun
  simp only [oven_preprocess_text, scanStart_trimmed w hhead, hrun]
  rw [scan]
  simp [finish, hlen]

/-- A text without `$` that does not start with a space and has 4096 bytes or
more leaves the buffer: the byte at index 4096 is stored behind it, and a text
of exactly 4096 bytes fills it without room for a terminator. -/
theorem preprocess_plain_long (h : Host) (g : oven_context) (w : CStr) (fuel : Nat)
    (hw : '$' ∉ w) (hhead : w.head? ≠ some ' ') (hlen : 4096 ≤ w.length)
    (hfuel : w.length < fuel) :
    oven_preprocess_text h g fuel (some w) = some .undefined := by
  obtain ⟨k, rfl⟩ : ∃ k, fuel = (k + 1) + 4096 := ⟨fuel - 4096 - 1, by omega⟩
  have hsplit : w = w.take 4096 ++ w.drop 4096 := (List.take_append_drop 4096 w).symm
  have htake : (w.take 4096).length = 4096 := by
    rw [List.length_take]; omega
  have hw1 : '$' ∉ w.take 4096 := fun hm => hw (List.mem_of_mem_take hm)
  have hrun := scan_plain h g (w.take 4096) hw1 (k + 1) [] (w.drop 4096) [] 4096
    (by simp only [List.length_nil, htake]; omega)
    (by simp only [List.length_nil, htake, INT_MAX]; omega)
  rw [← hsplit, htake] at hrun
  simp only [oven_preprocess_text, scanStart_trimmed w hhead, hrun]
  rw [scan]
  cases hd : w.drop 4096 with
  | nil => simp [finish, htake]
  | cons c cs =>
    have hc : c ≠ '$' := by
      intro hc
      apply hw
      have : c ∈ w.drop 4096 := by rw [hd]; simp
      rw [hc] at this
      exact List.mem_of_mem_drop this
    have hbody : scanBody h g k ⟨⟨(w.take 4096).reverse ++ [], c :: cs⟩,
        [] ++ w.take 4096, 4096⟩ c = some .undefined := by
      unfold scanBody
      have h3 : ¬ ((c :: cs).take 3 = ['$', '[', '[']) := by
        simp [List.take_succ_cons, hc]
      have h2 : ¬ ((c :: cs).take 2 = ['$', '[']) := by
        simp [List.take_succ_cons, hc]
      rw [if_neg h3, if_neg h2, if_neg (by simp [htake])]
    simp only [hbody, Option.map_some', finish]

/-- The cursor behind a sigil that ends the text. -/
theorem advance_past_last_sigil (bf body : CStr) :
    (Cursor.advance ⟨bf, '$' :: '[' :: '[' :: (body ++ [']', ']'])⟩ (body.length + 5)).rest
      = [] := by
  simp [Cursor.advance]

/-- The function `__expand_variable` at the end of the text. -/
theorem expand_variable_at_end (h : Host) (g : oven_context) (p : Cursor) (buf : CStr)
    (cap ml : Nat) (hp : p.rest = []) :
    __expand_variable h g p buf cap ml = .ok ⟨-1, some .EINVAL, p, buf, ml⟩ := by
  unfold __expand_variable
  rw [hp]
  rfl

/-- The loop on a state at the end of the text. -/
theorem scan_at_end (h : Host) (g : oven_context) (fuel : Nat) (s : Scan)
    (hs : s.itr.rest = []) : scan h g (fuel + 1) s = some (.ok s) := by
  rw [scan, hs]

/-- A last sigil whose value fits into the space left: the value is stored. -/
theorem scan_last_sigil_stored (h : Host) (g : oven_context) (bf body buf value : CStr)
    (fuel : Nat) (hb : ']' ∉ body)
    (hv : (trimmedName body).bind (__get_variable h g) = some value)
    (hfit : buf.length + value.length ≤ 4096) :
    scan h g (fuel + 3) ⟨⟨bf, '$' :: '[' :: '[' :: (body ++ [']', ']'])⟩, buf, 4096⟩ =
      some (.ok ⟨Cursor.advance ⟨bf, '$' :: '[' :: '[' :: (body ++ [']', ']'])⟩
        (body.length + 5), buf ++ value, 4096⟩) := by
  have hf := expand_variable_closed h g bf body [] buf 4096 (spaceLeft buf.length) hb
  rw [hv] at hf
  have hrun := expandLoop_deliver_run (__expand_variable h g) (fuel + 1)
    ⟨⟨bf, '$' :: '[' :: '[' :: (body ++ [']', ']'])⟩, buf, 4096⟩ (spaceLeft buf.length)
    (some value) .ENOENT _ (by decide) hf (by
      intro v hv'
      simp only [Option.some.injEq] at hv'
      subst hv'
      rw [spaceLeft_eq buf.length (by omega)]
      simp only [INT_MAX]
      omega)
  rw [scan]
  simp only [scanBody, List.take_succ_cons, List.take_zero, if_true, hrun, Option.getD_some]
  exact scan_at_end h g (fuel + 1) _ (advance_past_last_sigil bf body)

/-- A last sigil without a value: nothing is stored. -/
theorem scan_last_sigil_none (h : Host) (g : oven_context) (bf body buf : CStr)
    (fuel : Nat) (hb : ']' ∉ body)
    (hv : (trimmedName body).bind (__get_variable h g) = none) :
    scan h g (fuel + 3) ⟨⟨bf, '$' :: '[' :: '[' :: (body ++ [']', ']'])⟩, buf, 4096⟩ =
      some (.ok ⟨Cursor.advance ⟨bf, '$' :: '[' :: '[' :: (body ++ [']', ']'])⟩
        (body.length + 5), buf, 4096⟩) := by
  have hf := expand_variable_closed h g bf body [] buf 4096 (spaceLeft buf.length) hb
  rw [hv] at hf
  have hrun := expandLoop_deliver_run (__expand_variable h g) (fuel + 1)
    ⟨⟨bf, '$' :: '[' :: '[' :: (body ++ [']', ']'])⟩, buf, 4096⟩ (spaceLeft buf.length)
    none .ENOENT _ (by decide) hf (by intro v hv'; cases hv')
  rw [scan]
  simp only [scanBody, List.take_succ_cons, List.take_zero, if_true, hrun, Option.getD_none,
    List.append_nil]
  exact scan_at_end h g (fuel + 1) _ (advance_past_last_sigil bf body)

/-- A last sigil whose value is longer than the space left: the buffer is
replaced by a longer one, the call is repeated behind the sigil, where the text
has ended, and the value is not stored. -/
theorem scan_last_sigil_dropped (h : Host) (g : oven_context) (bf body buf value : CStr)
    (fuel : Nat) (hb : ']' ∉ body)
    (hv : (trimmedName body).bind (__get_variable h g) = some value)
    (hbuf : buf.length < 4096) (hbig : 4096 - buf.length < value.length) :
    scan h g (fuel + 3) ⟨⟨bf, '$' :: '[' :: '[' :: (body ++ [']', ']'])⟩, buf, 4096⟩ =
      some (.ok ⟨Cursor.advance ⟨bf, '$' :: '[' :: '[' :: (body ++ [']', ']'])⟩
        (body.length + 5), buf, 4096 + value.length + 1024⟩) := by
  have hf := expand_variable_closed h g bf body [] buf 4096 (spaceLeft buf.length) hb
  rw [hv, spaceLeft_eq buf.length (by omega)] at hf
  have hidle := expandLoop_idle (__expand_variable h g) fuel
    ⟨Cursor.advance ⟨bf, '$' :: '[' :: '[' :: (body ++ [']', ']'])⟩ (body.length + 5), buf,
      4096 + value.length + 1024⟩ value.length .EINVAL (by decide)
    (expand_variable_at_end h g _ _ _ _ (advance_past_last_sigil bf body))
  have hloop : expandLoop (__expand_variable h g) (fuel + 2)
      ⟨⟨bf, '$' :: '[' :: '[' :: (body ++ [']', ']'])⟩, buf, 4096⟩ (4096 - buf.length) =
      some (.ok ⟨Cursor.advance ⟨bf, '$' :: '[' :: '[' :: (body ++ [']', ']'])⟩
        (body.length + 5), buf, 4096 + value.length + 1024⟩) := by
    rw [expandLoop, hf]
    have hz : buf.length < 4096 ∧ buf.length < 4096 + value.length + 1024 :=
      ⟨hbuf, by omega⟩
    simp only [deliver, gt_iff_lt, hbig, if_true, Int.reduceNeg, neg_eq_zero, one_ne_zero,
      if_false, __resize_buffer, hz, and_self]
    exact hidle
  rw [scan]
  simp only [scanBody, List.take_succ_cons, List.take_zero, if_true,
    spaceLeft_eq buf.length (by omega : buf.length ≤ 4096), hloop]
  exact scan_at_end h g (fuel + 1) _ (advance_past_last_sigil bf body)

/-- A text that is one sigil of an internal variable. -/
theorem preprocess_sigil_value (h : Host) (g : oven_context) (body : CStr) (fuel : Nat)
    (hb : ']' ∉ body) :
    oven_preprocess_text h g (fuel + 3) (some ('$' :: '[' :: '[' :: (body ++ [']', ']']))) =
      some (sigilOutcome ((trimmedName body).bind (__get_variable h g))) := by
  have hstart : scanStart ('$' :: '[' :: '[' :: (body ++ [']', ']'])) =
      ⟨⟨[], '$' :: '[' :: '[' :: (body ++ [']', ']'])⟩, [], 4096⟩ :=
    scanStart_trimmed _ (by simp)
  simp only [oven_preprocess_text, hstart]
  cases hv : (trimmedName body).bind (__get_variable h g) with
  | none =>
    rw [scan_last_sigil_none h g [] body [] fuel hb hv]
    simp [finish, sigilOutcome]
  | some value =>
    by_cases hbig : 4096 < value.length
    · rw [scan_last_sigil_dropped h g [] body [] value fuel hb hv (by simp)
        (by simpa using hbig)]
      simp [finish, sigilOutcome, hbig]
    · rw [scan_last_sigil_stored h g [] body [] value fuel hb hv
        (by simp only [List.length_nil]; omega)]
      simp only [Option.map_some', finish, List.nil_append, sigilOutcome, gt_iff_lt, hbig,
        if_false]

/-- A text without `$`, not starting with a space, and then a last sigil whose
value is longer than the space the text has left in the buffer: the text is
returned without the value. -/
theorem preprocess_value_dropped (h : Host) (g : oven_context) (x body value : CStr)
    (fuel : Nat) (hx : '$' ∉ x) (hhead : x.head? ≠ some ' ') (hb : ']' ∉ body)
    (hv : (trimmedName body).bind (__get_variable h g) = some value)
    (hlen : x.length < 4096) (hbig : 4096 - x.length < value.length)
    (hfuel : x.length + 3 ≤ fuel) :
    oven_preprocess_text h g fuel (some (x ++ '$' :: '[' :: '[' :: (body ++ [']', ']']))) =
      some (.text x) := by
  obtain ⟨k, rfl⟩ : ∃ k, fuel = (k + 3) + x.length := ⟨fuel - x.length - 3, by omega⟩
  have hstart : scanStart (x ++ '$' :: '[' :: '[' :: (body ++ [']', ']'])) =
      ⟨⟨[], x ++ '$' :: '[' :: '[' :: (body ++ [']', ']'])⟩, [], 4096⟩ := by
    apply scanStart_trimmed
    cases x with
    | nil => simp
    | cons c x => simpa using hhead
  have hrun := scan_plain h g x hx (k + 3) [] ('$' :: '[' :: '[' :: (body ++ [']', ']'])) []
    4096 (by simp only [List.length_nil]; omega)
    (by simp only [List.length_nil, INT_MAX]; omega)
  simp only [oven_preprocess_text, hstart, hrun, List.nil_append]
  rw [scan_last_sigil_dropped h g _ body x value k hb hv hlen hbig]
  simp only [Option.map_some', finish]
  rw [if_pos (by omega)]

/-! ## Spaces inside a sigil -/

theorem leadingSpaces_replicate (m : Nat) : leadingSpaces (List.replicate m ' ') = m := by
  induction m with
  | zero => rfl
  | succ m ih => rw [List.replicate_succ, leadingSpaces_cons_space, ih]

/-- The spaces around a name that neither starts nor ends with a space are
trimmed away. -/
theorem trimmedName_padded (m n : Nat) (name : CStr) (hne : name ≠ [])
    (hhead : name.head? ≠ some ' ') (hlast : name.getLast? ≠ some ' ') :
    trimmedName (List.replicate m ' ' ++ name ++ List.replicate n ' ') = some name := by
  have h1 : leadingSpaces (List.replicate m ' ' ++ name ++ List.replicate n ' ') = m := by
    rw [List.append_assoc, leadingSpaces_append_head _ _ (by
      cases name with
      | nil => exact absurd rfl hne
      | cons c name => simpa using hhead), leadingSpaces_replicate]
  have h2 : leadingSpaces (List.replicate m ' ' ++ name ++ List.replicate n ' ').reverse
      = n := by
    rw [List.reverse_append, List.reverse_append, List.reverse_replicate,
      List.reverse_replicate, leadingSpaces_append_head _ _ (by
        have hr : name.reverse ≠ [] := by simpa using hne
        cases hrev : name.reverse with
        | nil => exact absurd hrev hr
        | cons c rest =>
          have hl : name.reverse.head? = name.getLast? := List.head?_reverse name
          rw [hrev] at hl
          simp only [List.cons_append, List.head?_cons]
          simp only [List.head?_cons] at hl
          rw [hl]
          exact hlast), leadingSpaces_replicate]
  have h3 : (List.replicate m ' ' ++ name ++ List.replicate n ' ').length
      = m + name.length + n := by
    simp only [List.length_append, List.length_replicate]
  unfold trimmedName
  rw [h1, h2, h3, if_pos (by omega)]
  congr 1
  have hdrop : (List.replicate m ' ' ++ name ++ List.replicate n ' ').drop m
      = name ++ List.replicate n ' ' := by
    rw [List.append_assoc]
    exact List.drop_left' (List.length_replicate m ' ')
  rw [hdrop]
  have hk : m + name.length + n - n - m = name.length := by omega
  rw [hk]
  exact List.take_left' rfl

/-- What an expansion function leaves behind does not depend on the text it
has passed. -/
theorem deliver_passed (value : Option CStr) (missing : Errno) (p1 p2 : Cursor)
    (buf : CStr) (cap ml : Nat) (hp : p1.rest = p2.rest) :
    (deliver value missing p1 buf cap ml).toOption.map
        (fun r => (r.status, r.errno, r.cursor.rest, r.buffer, r.maxLength)) =
      (deliver value missing p2 buf cap ml).toOption.map
        (fun r => (r.status, r.errno, r.cursor.rest, r.buffer, r.maxLength)) := by
  unfold deliver
  cases value with
  | none => simp [Res.toOption, hp]
  | some v =>
    simp only
    split_ifs
    · simp [Res.toOption, hp]
    · cases storeValue buf cap v <;> simp [Res.toOption, hp]

theorem advance_past_sigil (bf body tail : CStr) :
    (Cursor.advance ⟨bf, '$' :: '[' :: '[' :: (body ++ ']' :: ']' :: tail)⟩
      (body.length + 5)).rest = tail := by
  have h := advance_append bf ('$' :: '[' :: '[' :: (body ++ [']', ']'])) tail
    (body.length + 5) (by simp)
  have he : '$' :: '[' :: '[' :: (body ++ [']', ']']) ++ tail =
      '$' :: '[' :: '[' :: (body ++ ']' :: ']' :: tail) := by simp
  rw [he] at h
  rw [h]
  have hl : ('$' :: '[' :: '[' :: (body ++ [']', ']'])).length = body.length + 5 := by simp
  simp only
  rw [← hl, List.drop_length, List.nil_append]

theorem paddedSigil_append (m n : Nat) (body tail : CStr) :
    paddedSigil m n body ++ tail =
      '$' :: '[' :: '[' ::
        ((List.replicate m ' ' ++ body ++ List.replicate n ' ') ++ ']' :: ']' :: tail) := by
  simp [paddedSigil]

theorem paddedSigil_alone (m n : Nat) (body : CStr) :
    paddedSigil m n body =
      '$' :: '[' :: '[' :: ((List.replicate m ' ' ++ body ++ List.replicate n ' ')
        ++ [']', ']']) := rfl

/-- The internal names hold neither a bracket nor a space. -/
theorem internalNames_plain :
    ∀ name ∈ internalNames,
      ']' ∉ name ∧ name ≠ [] ∧ name.head? ≠ some ' ' ∧ name.getLast? ≠ some ' ' := by
  decide

/-- Claim C25: for every internal variable name and any numbers `m`, `n` of
spaces before and behind it between `$[[` and `]]`, `__expand_variable` on the
padded sigil does what it does on `$[[NAME]]` (which is `paddedSigil 0 0`):
same status, same `errno`, same bytes stored, same `maxLength`, and the
pointer right behind the sigil, whatever the text around the sigil and the
state of the buffer; and `oven_preprocess_text` on the padded sigil returns
what it returns on `$[[NAME]]`, which is determined by the value of the name. -/
theorem C25_spaces_in_a_sigil_are_trimmed (h : Host) (g : oven_context) (name : CStr)
    (hname : name ∈ internalNames) (m n : Nat) :
    (∀ (bf tail buffer : CStr) (cap maxLength : Nat),
      (__expand_variable h g ⟨bf, paddedSigil m n name ++ tail⟩ buffer cap
          maxLength).toOption.map
          (fun r => (r.status, r.errno, r.cursor.rest, r.buffer, r.maxLength)) =
        (__expand_variable h g ⟨bf, paddedSigil 0 0 name ++ tail⟩ buffer cap
          maxLength).toOption.map
          (fun r => (r.status, r.errno, r.cursor.rest, r.buffer, r.maxLength))) ∧
    (∀ fuel : Nat,
      oven_preprocess_text h g (fuel + 3) (some (paddedSigil m n name)) =
        oven_preprocess_text h g (fuel + 3) (some (paddedSigil 0 0 name)) ∧
      oven_preprocess_text h g (fuel + 3) (some (paddedSigil 0 0 name)) =
        some (sigilOutcome (__get_variable h g name))) := by
  obtain ⟨hbr, hne, hhead, hlast⟩ := internalNames_plain name hname
  have hbody : ∀ a b : Nat, ']' ∉ List.replicate a ' ' ++ name ++ List.replicate b ' ' := by
    intro a b hm
    simp only [List.mem_append, List.mem_replicate] at hm
    rcases hm with (⟨_, hm⟩ | hm) | ⟨_, hm⟩
    · exact absurd hm (by decide)
    · exact hbr hm
    · exact absurd hm (by decide)
  have htrim : ∀ a b : Nat,
      trimmedName (List.replicate a ' ' ++ name ++ List.replicate b ' ') = some name :=
    fun a b => trimmedName_padded a b name hne hhead hlast
  refine ⟨?_, ?_⟩
  · intro bf tail buffer cap maxLength
    rw [paddedSigil_append, paddedSigil_append,
      expand_variable_closed h g bf _ tail buffer cap maxLength (hbody m n),
      expand_variable_closed h g bf _ tail buffer cap maxLength (hbody 0 0),
      htrim m n, htrim 0 0]
    apply deliver_passed
    rw [advance_past_sigil, advance_past_sigil]
  · intro fuel
    have hval : ∀ a b : Nat,
        oven_preprocess_text h g (fuel + 3) (some (paddedSigil a b name)) =
          some (sigilOutcome (__get_variable h g name)) := by
      intro a b
      rw [paddedSigil_alone, preprocess_sigil_value h g _ fuel (hbody a b), htrim a b]
      rfl
    exact ⟨by rw [hval m n, hval 0 0], hval 0 0⟩

/-- Claim C25 at `$[[  INSTALL_PREFIX ]]` in the confined recipe `demo`. -/
theorem C25_spaces_in_a_sigil_are_trimmed_witness :
    paddedSigil 2 1 "INSTALL_PREFIX".toList = "$[[  INSTALL_PREFIX ]]".toList ∧
    paddedSigil 0 0 "INSTALL_PREFIX".toList = "$[[INSTALL_PREFIX]]".toList ∧
    oven_preprocess_text demoHost demoOven (0 + 3)
        (some (paddedSigil 2 1 "INSTALL_PREFIX".toList)) =
      oven_preprocess_text demoHost demoOven (0 + 3)
        (some (paddedSigil 0 0 "INSTALL_PREFIX".toList)) ∧
    oven_preprocess_text demoHost demoOven 3 (some "$[[  INSTALL_PREFIX ]]".toList) =
      some (.text "/chef/install".toList) :=
  ⟨by decide, by decide,
    ((C25_spaces_in_a_sigil_are_trimmed demoHost demoOven "INSTALL_PREFIX".toList
      (by decide) 2 1).2 0).1,
    by decide⟩

/-! ## Texts and argument lists that fill the buffers -/

theorem replicate_head_ne (n : Nat) (a b : Char) (hab : a ≠ b) :
    (List.replicate n a).head? ≠ some b := by
  cases n with
  | zero => simp
  | succ n =>
    rw [List.replicate_succ, List.head?_cons]
    intro he
    exact hab (Option.some.inj he)

theorem replicate_not_mem (n : Nat) (a b : Char) (hab : a ≠ b) : b ∉ List.replicate n a :=
  fun hm => hab (List.eq_of_mem_replicate hm).symm

/-- Claim C24, which the code breaks: the buffer is not grown in a way that
keeps the expansion complete.  In the confined recipe `demo`, 4090 bytes of
text followed by `$[[INSTALL_PREFIX]]` (value `/chef/install`, 13 bytes, 6 bytes
left) come back as the 4090 bytes without the value: the pointer is already
behind the sigil when the call is repeated with the longer buffer.  A text of
4096 bytes without a sigil fills the initial buffer to its last byte, so the
result has no terminator inside it; the copy of plain text never asks for a
longer buffer.  A text of 4095 such bytes is returned unchanged. -/
theorem C24_buffer_does_not_grow :
    __get_variable demoHost demoOven "INSTALL_PREFIX".toList = some "/chef/install".toList ∧
    oven_preprocess_text demoHost demoOven 4100
        (some (List.replicate 4090 'x' ++ "$[[INSTALL_PREFIX]]".toList)) =
      some (.text (List.replicate 4090 'x')) ∧
    oven_preprocess_text demoHost demoOven 4100 (some (List.replicate 4096 'x')) =
      some .undefined ∧
    oven_preprocess_text demoHost demoOven 4100 (some (List.replicate 4095 'x')) =
      some (.text (List.replicate 4095 'x')) := by
  refine ⟨by decide, ?_, ?_, ?_⟩
  · exact preprocess_value_dropped demoHost demoOven (List.replicate 4090 'x')
      "INSTALL_PREFIX".toList "/chef/install".toList 4100
      (replicate_not_mem _ _ _ (by decide)) (replicate_head_ne _ _ _ (by decide))
      (by decide) (by decide)
      (by rw [List.length_replicate]; omega)
      (by rw [List.length_replicate]; decide)
      (by rw [List.length_replicate]; omega)
  · exact preprocess_plain_long demoHost demoOven (List.replicate 4096 'x') 4100
      (replicate_not_mem _ _ _ (by decide)) (replicate_head_ne _ _ _ (by decide))
      (by rw [List.length_replicate]) (by rw [List.length_replicate]; omega)
  · exact preprocess_plain demoHost demoOven (List.replicate 4095 'x') 4100
      (replicate_not_mem _ _ _ (by decide)) (replicate_head_ne _ _ _ (by decide))
      (by rw [List.length_replicate]; omega) (by rw [List.length_replicate]; omega)

/-- The argument string for a first argument of 4089 bytes and four more of one
byte each. -/
theorem build_argument_string_full (h : Host) (g : oven_context) (x last : CStr)
    (fuel : Nat) (hx : '$' ∉ x) (hhead : x.head? ≠ some ' ') (hlen : x.length = 4089)
    (hfuel : 4089 < fuel) (hlast : '$' ∉ last) (hlast' : last.head? ≠ some ' ')
    (hlastlen : last.length ≤ 1) :
    __build_argument_string h g fuel [x, ['a'], ['b'], ['c'], last] [] 0 =
      if last = [] then some (.ok (x ++ [' ', 'a', ' ', 'b', ' ', 'c', ' ']))
      else some .undefined := by
  have px := preprocess_plain h g x fuel hx hhead (by omega) (by omega)
  have pa := preprocess_plain h g ['a'] fuel (by decide) (by decide) (by decide)
    (by simp only [List.length_singleton]; omega)
  have pb := preprocess_plain h g ['b'] fuel (by decide) (by decide) (by decide)
    (by simp only [List.length_singleton]; omega)
  have pc := preprocess_plain h g ['c'] fuel (by decide) (by decide) (by decide)
    (by simp only [List.length_singleton]; omega)
  have pl := preprocess_plain h g last fuel hlast hlast' (by omega) (by omega)
  cases last with
  | nil =>
    simp [__build_argument_string, px, pa, pb, pc, pl, hlen]
  | cons c rest =>
    have hrest : rest = [] := by
      cases rest with
      | nil => rfl
      | cons d rest => simp at hlastlen
    subst hrest
    simp [__build_argument_string, px, pa, pb, pc, pl, hlen]

/-- Claim C30, which the code breaks: the guard of `__build_argument_string`
adds up the lengths of the values only, not the spaces written between them.
For a first argument of 4089 bytes and the arguments `a`, `b`, `c` and an empty
one, the string written has 4096 bytes, the last of them a space, and no
terminator inside the buffer; with `d` for the empty argument the guard lets
`strcpy` store `d` and its terminator behind the buffer. -/
theorem C30_separators_are_not_counted :
    __build_argument_string demoHost demoOven 4100
        [List.replicate 4089 'x', "a".toList, "b".toList, "c".toList, []] [] 0 =
      some (.ok (List.replicate 4089 'x' ++ " a b c ".toList)) ∧
    (List.replicate 4089 'x' ++ " a b c ".toList).length = 4096 ∧
    __build_argument_string demoHost demoOven 4100
        [List.replicate 4089 'x', "a".toList, "b".toList, "c".toList, "d".toList] [] 0 =
      some .undefined := by
  refine ⟨?_, ?_, ?_⟩
  · exact build_argument_string_full demoHost demoOven (List.replicate 4089 'x') [] 4100
      (replicate_not_mem _ _ _ (by decide)) (replicate_head_ne _ _ _ (by decide))
      (List.length_replicate _ _) (by omega) (by decide) (by decide) (by decide)
  · rw [List.length_append, List.length_replicate]
    rfl
  · exact build_argument_string_full demoHost demoOven (List.replicate 4089 'x') ['d'] 4100
      (replicate_not_mem _ _ _ (by decide)) (replicate_head_ne _ _ _ (by decide))
      (List.length_replicate _ _) (by omega) (by decide) (by decide) (by decide)

end Bake
